import Mathlib

/-!
# Two-level exclusive cache simulator (`cachesimulator.cpp`)

A shallow embedding of the classes `CacheBlock`, `CacheSet`, `Cache` and
`CacheSystem` of `src/cachesimulator.cpp`, followed by theorems about them.

Conventions of the embedding

* `uint32_t`, `uint16_t`, `uint8_t` and `int` values are natural numbers; a
  reduction `% 2 ^ w` is written wherever the source narrows or may wrap.
  Addresses handed to the hierarchy are 32-bit (`addr < 2 ^ 32`), which the
  theorems state as a hypothesis.
* C++ shifts are written at their mathematical value (`>>>` and `<<<` on
  `Nat`, reduced `% 2 ^ 32` where a 32-bit value wraps). That is the value of
  the source's shift wherever C++ defines one: a `uint32_t` shifted by less
  than 32, and `1 << setLen` on `int` for `setLen ≤ 30`; see `ShiftsDefined`.
  For `offset + setLen = 32` the source shifts a `uint32_t` by 32 in
  `Cache::getTag`, which C++ leaves undefined (the shift instructions of
  x86-64 and AArch64 take the count modulo 32 and return the operand); the
  embedding gives 0 there. The theorems on exclusivity, the assertion of
  `Cache::evict`, the access codes of a read, dirty blocks and duplicate tags
  are therefore stated for the geometries of `ShiftsDefined`.
* `lines[i]` and `cacheSet[index]` read the default element and write nothing
  when the index is out of range; the source never does this on a state it can
  reach, see `CacheSystem.Inv`.
* `assert` in `Cache::evict` aborts the program: `Cache.evict` and
  `CacheSystem.read` return `none` when the asserted condition is false.
* The member `Cache::id` (a construction counter that nothing reads) is left
  out.
-/

namespace CacheSim

/-! ## Access states and block flags (the `#define`s) -/

/-- `#define NA 0`: no action. -/
def NA : Nat := 0
/-- `#define RH 1`: read hit. -/
def RH : Nat := 1
/-- `#define RM 2`: read miss. -/
def RM : Nat := 2
/-- `#define WH 3`: write hit. -/
def WH : Nat := 3
/-- `#define WM 4`: write miss. -/
def WM : Nat := 4
/-- `#define NOWRITEMEM 5`: no write to memory. -/
def NOWRITEMEM : Nat := 5
/-- `#define WRITEMEM 6`: write to memory. -/
def WRITEMEM : Nat := 6
/-- `#define DIRTY 2`. -/
def DIRTY : Nat := 2
/-- `#define VALID 1`. -/
def VALID : Nat := 1

/-! ## `struct CacheBlock` -/

/-- `struct CacheBlock { uint32_t tag{}; uint16_t dirty{}; uint16_t valid{}; }`. -/
structure CacheBlock where
  tag : Nat
  dirty : Nat
  valid : Nat
deriving DecidableEq, Repr

instance : Inhabited CacheBlock := ⟨⟨0, 0, 0⟩⟩

/-! ## `class CacheSet` -/

/-- `class CacheSet { vector<CacheBlock> lines; uint32_t capacity; uint32_t idx; }`. -/
structure CacheSet where
  lines : List CacheBlock
  capacity : Nat
  idx : Nat
deriving DecidableEq, Repr

/-- `CacheSet() = default`. -/
instance : Inhabited CacheSet := ⟨⟨[], 0, 0⟩⟩

namespace CacheSet

/-- `CacheSet(uint32_t setSize) : capacity(setSize), lines(setSize)`. -/
def new (setSize : Nat) : CacheSet :=
  ⟨List.replicate setSize ⟨0, 0, 0⟩, setSize, 0⟩

/-- The loop of `CacheSet::contain`, entered at index `i` with `fuel = capacity - i`
iterations left:
`for (i; i < capacity; ++i) if (lines[i].valid && lines[i].tag == tag) { if (writeOp) lines[i].dirty = 1; return {true, lines[i].dirty}; }`
and `return {false, 0}` after the loop. The `uint16_t` dirty field is narrowed
to the `uint8_t` of the result. -/
def containLoop (s : CacheSet) (tag : Nat) (writeOp : Bool) : Nat → Nat → CacheSet × Bool × Nat
  | 0, _ => (s, false, 0)
  | fuel + 1, i =>
    if (s.lines.getD i default).valid ≠ 0 ∧ (s.lines.getD i default).tag = tag then
      if writeOp then
        ({ s with lines := s.lines.set i { s.lines.getD i default with dirty := 1 } }, true, 1)
      else
        (s, true, (s.lines.getD i default).dirty % 256)
    else
      containLoop s tag writeOp fuel (i + 1)

/-- `pair<bool, uint8_t> CacheSet::contain(uint32_t tag, bool writeOp)`: the set
after the call, whether the tag was found, and the dirty bit of the match. -/
def contain (s : CacheSet) (tag : Nat) (writeOp : Bool) : CacheSet × Bool × Nat :=
  containLoop s tag writeOp s.capacity 0

/-- The loop of `CacheSet::invalid`, entered at index `i` with `fuel = capacity - i`:
`if (lines[i].valid && lines[i].tag == tag) { lines[i].valid = 0; break; }`. -/
def invalidLoop (s : CacheSet) (tag : Nat) : Nat → Nat → CacheSet
  | 0, _ => s
  | fuel + 1, i =>
    if (s.lines.getD i default).valid ≠ 0 ∧ (s.lines.getD i default).tag = tag then
      { s with lines := s.lines.set i { s.lines.getD i default with valid := 0 } }
    else
      invalidLoop s tag fuel (i + 1)

/-- `void CacheSet::invalid(uint32_t tag)`. -/
def invalid (s : CacheSet) (tag : Nat) : CacheSet :=
  invalidLoop s tag s.capacity 0

/-- The search loop of `CacheSet::evict`, entered at index `i` with
`fuel = capacity - i`: `some i` when it breaks at an invalid line `i`,
`none` when it reaches `i == capacity`. -/
def evictLoop (s : CacheSet) : Nat → Nat → Option Nat
  | 0, _ => none
  | fuel + 1, i =>
    if (s.lines.getD i default).valid = 0 then some i else evictLoop s fuel (i + 1)

/-- `pair<uint32_t, uint8_t> CacheSet::evict(uint32_t tag, uint8_t dirty)`: the
set after the call, the tag of the replaced block and its flags
(`res.second`, a `uint8_t`). When no line is free the line at `idx` is
replaced, `res.second |= VALID; res.second |= 1 << lines[idx].dirty` and
`idx = (idx + 1) % capacity`. -/
def evict (s : CacheSet) (tag dirty : Nat) : CacheSet × Nat × Nat :=
  match evictLoop s s.capacity 0 with
  | some i =>
    ({ s with lines := s.lines.set i ⟨tag, dirty, 1⟩ }, 0, 0)
  | none =>
    ({ lines := s.lines.set s.idx ⟨tag, dirty, 1⟩
       capacity := s.capacity
       idx := (s.idx + 1) % s.capacity },
     (s.lines.getD s.idx default).tag,
     ((0 ||| VALID) ||| (1 <<< (s.lines.getD s.idx default).dirty)) % 256)

end CacheSet

/-! ## `struct OpRes` and `class Cache` -/

/-- `struct OpRes { int L1AcceState, L2AcceState, MemAcceState; }`. -/
structure OpRes where
  L1AcceState : Nat
  L2AcceState : Nat
  MemAcceState : Nat
deriving DecidableEq, Repr

/-- `class Cache { vector<CacheSet> cacheSet; uint32_t offset; uint32_t setLen; }`. -/
structure Cache where
  cacheSet : List CacheSet
  offset : Nat
  setLen : Nat
deriving DecidableEq, Repr

namespace Cache

/-- `Cache::getTag`: `addr >> (offset + setLen)` on `uint32_t`. The value of the
C++ expression for `offset + setLen < 32`; for `offset + setLen = 32` the C++
shift is undefined and this definition gives 0. -/
def getTag (c : Cache) (addr : Nat) : Nat :=
  addr >>> (c.offset + c.setLen)

/-- `Cache::getSetIndex`: `(addr >> offset) & ((1 << setLen) - 1)`, the mask
converted to `uint32_t`. `1 << setLen` is a shift of the `int` 1: the value of
the C++ expression for `setLen ≤ 30` (for larger `setLen` the C++ shift
overflows `int`). -/
def getSetIndex (c : Cache) (addr : Nat) : Nat :=
  (addr >>> c.offset) &&& (((1 <<< c.setLen) - 1) % 2 ^ 32)

/-- `Cache::access`: `cacheSet[index].contain(tag, writeOp)`. -/
def access (c : Cache) (addr : Nat) (writeOp : Bool) : Cache × Bool × Nat :=
  let tag := c.getTag addr
  let index := c.getSetIndex addr
  let r := (c.cacheSet.getD index default).contain tag writeOp
  ({ c with cacheSet := c.cacheSet.set index r.1 }, r.2.1, r.2.2)

/-- `Cache::read_access`. -/
def read_access (c : Cache) (addr : Nat) : Cache × Bool × Nat :=
  c.access addr false

/-- `Cache::write_access`. -/
def write_access (c : Cache) (addr : Nat) : Cache × Bool × Nat :=
  c.access addr true

/-- `Cache::invalid`: `cacheSet[index].invalid(tag)`. -/
def invalid (c : Cache) (addr : Nat) : Cache :=
  let tag := c.getTag addr
  let index := c.getSetIndex addr
  { c with cacheSet := c.cacheSet.set index ((c.cacheSet.getD index default).invalid tag) }

/-- `Cache::evict`: `none` when `assert(!read_access(addr).first)` fails;
otherwise the cache after the call, the address of the replaced block
(`res.first <<= setLen; res.first |= index; res.first <<= offset` in `uint32_t`
when `res.second & VALID`) and its flags. -/
def evict (c : Cache) (addr dirty : Nat) : Option (Cache × Nat × Nat) :=
  let a := c.read_access addr
  if a.2.1 then none
  else
    let c := a.1
    let tag := c.getTag addr
    let index := c.getSetIndex addr
    let res := (c.cacheSet.getD index default).evict tag dirty
    let c := { c with cacheSet := c.cacheSet.set index res.1 }
    if res.2.2 &&& VALID ≠ 0 then
      some (c, ((((res.2.1 <<< c.setLen) % 2 ^ 32) ||| index) <<< c.offset) % 2 ^ 32, res.2.2)
    else
      some (c, res.2.1, res.2.2)

/-- `Cache::Cache(uint32_t blockSize, uint32_t setSize, uint32_t cacheSize)`.
The library function `log2` on `double` is the parameter `log2`, with rational
values; `(10 + log2(cacheSize)) - log2(setSize) - offset` is computed on
rationals and the conversions from `double` to `uint32_t` truncate (a negative
difference, which C++ leaves undefined, is taken as 0).
`1024 * cacheSize / blockSize` is 32-bit unsigned arithmetic. `1 << setLen` is
the value of the C++ `int` shift for `setLen ≤ 30`. -/
def new (log2 : Nat → ℚ) (blockSize setSize cacheSize : Nat) : Cache :=
  if setSize ≠ 0 then
    ⟨List.replicate
        (1 <<< (⌊(10 + log2 cacheSize) - log2 setSize
          - ((⌊log2 blockSize⌋.toNat % 2 ^ 32 : Nat) : ℚ)⌋.toNat % 2 ^ 32))
        (CacheSet.new setSize),
      ⌊log2 blockSize⌋.toNat % 2 ^ 32,
      ⌊(10 + log2 cacheSize) - log2 setSize
        - ((⌊log2 blockSize⌋.toNat % 2 ^ 32 : Nat) : ℚ)⌋.toNat % 2 ^ 32⟩
  else
    ⟨List.replicate (1 <<< 0) (CacheSet.new ((1024 * cacheSize) % 2 ^ 32 / blockSize)),
      ⌊log2 blockSize⌋.toNat % 2 ^ 32, 0⟩

/-- The state built by the constructor `Cache(blockSize, setSize, cacheSize)`
once `offset` and `setLen` are computed:
`cacheSet.resize(1 << setLen, CacheSet(capacity))`, with `1 << setLen` the
value of the C++ `int` shift for `setLen ≤ 30`. -/
def empty (offset setLen capacity : Nat) : Cache :=
  ⟨List.replicate (1 <<< setLen) (CacheSet.new capacity), offset, setLen⟩

end Cache

/-! ## `class CacheSystem` -/

/-- `class CacheSystem { Cache L1; Cache L2; }`. -/
structure CacheSystem where
  L1 : Cache
  L2 : Cache
deriving DecidableEq, Repr

namespace CacheSystem

/-- The second half of `CacheSystem::read` (the block
`if (res.L1AcceState == RM) { ... }` and `return res`), run on the levels
`l1`, `l2` with the outcome `res` and the dirty bit `dirty` found by the first
half: install `addr` in L1, move a valid victim to L2 and report `WRITEMEM`
when L2 in turn replaces a valid dirty block. `none` when an `assert` of
`Cache::evict` fails. -/
def load (l1 l2 : Cache) (res : OpRes) (addr dirty : Nat) : Option (CacheSystem × OpRes) :=
  if res.L1AcceState = RM then
    match l1.evict addr dirty with
    | none => none
    | some (l1, vaddr, vflags) =>
      if vflags &&& VALID ≠ 0 then
        match l2.evict vaddr (((vflags &&& DIRTY) >>> 1) % 256) with
        | none => none
        | some (l2, _, wflags) =>
          if wflags = (DIRTY ||| VALID) then
            some (⟨l1, l2⟩, { res with MemAcceState := WRITEMEM })
          else
            some (⟨l1, l2⟩, res)
      else
        some (⟨l1, l2⟩, res)
  else
    some (⟨l1, l2⟩, res)

/-- `OpRes CacheSystem::read(uint32_t addr)`: the first half looks `addr` up in
L1, then in L2 (invalidating the L2 copy on a hit and keeping its dirty bit),
and `load` is the second half. -/
def read (sys : CacheSystem) (addr : Nat) : Option (CacheSystem × OpRes) :=
  let a1 := sys.L1.read_access addr
  if a1.2.1 then
    load a1.1 sys.L2 ⟨RH, NA, NOWRITEMEM⟩ addr 0
  else
    let a2 := sys.L2.read_access addr
    if a2.2.1 then
      load a1.1 (a2.1.invalid addr) ⟨RM, RH, NOWRITEMEM⟩ addr a2.2.2
    else
      load a1.1 a2.1 ⟨RM, RM, NOWRITEMEM⟩ addr 0

/-- `OpRes CacheSystem::write(uint32_t addr)`. -/
def write (sys : CacheSystem) (addr : Nat) : CacheSystem × OpRes :=
  let a1 := sys.L1.write_access addr
  if a1.2.1 then (⟨a1.1, sys.L2⟩, ⟨WH, NA, NOWRITEMEM⟩)
  else
    let a2 := sys.L2.write_access addr
    if a2.2.1 then (⟨a1.1, a2.1⟩, ⟨WM, WH, NOWRITEMEM⟩)
    else (⟨a1.1, a2.1⟩, ⟨WM, WM, WRITEMEM⟩)

/-- The hierarchy built by `CacheSystem(cfg)` for block-offset width `offset`
(shared by both levels), index widths `n1`, `n2` and set capacities `c1`, `c2`. -/
def empty (offset n1 c1 n2 c2 : Nat) : CacheSystem :=
  ⟨Cache.empty offset n1 c1, Cache.empty offset n2 c2⟩

end CacheSystem

/-! ## The trace loop of `main` -/

/-- A trace line: `R addr` or `W addr`. -/
inductive Op where
  | R (addr : Nat)
  | W (addr : Nat)
deriving DecidableEq, Repr

/-- The address of a trace line. -/
def Op.addr : Op → Nat
  | .R a => a
  | .W a => a

/-- One iteration of the trace loop of `main`:
`res = cacheSystem.read(addr)` for `R`, `res = cacheSystem.write(addr)` otherwise. -/
def step (sys : CacheSystem) : Op → Option (CacheSystem × OpRes)
  | .R a => sys.read a
  | .W a => some (sys.write a)

/-- The trace loop of `main`: the final hierarchy and the lines written to the
output, `none` when an assertion aborted the run. -/
def run (sys : CacheSystem) : List Op → Option (CacheSystem × List OpRes)
  | [] => some (sys, [])
  | op :: rest =>
    match step sys op with
    | none => none
    | some (sys1, r) =>
      match run sys1 rest with
      | none => none
      | some (sys2, rs) => some (sys2, r :: rs)

/-! ## Predicates used in the statements -/

/-- Line `i` of the set is valid and carries `tag`: the test
`lines[i].valid && lines[i].tag == tag` of `contain` and `invalid`. -/
def CacheSet.Hit (s : CacheSet) (tag i : Nat) : Prop :=
  (s.lines.getD i default).valid ≠ 0 ∧ (s.lines.getD i default).tag = tag

instance (s : CacheSet) (tag i : Nat) : Decidable (s.Hit tag i) :=
  inferInstanceAs (Decidable (_ ∧ _))

/-- Some line of the set is valid, carries `tag` and has dirty field `d`. -/
def CacheSet.Has (s : CacheSet) (tag d : Nat) : Prop :=
  ∃ i, i < s.capacity ∧ s.Hit tag i ∧ (s.lines.getD i default).dirty = d

/-- Well-formed set for tags below `B`: `capacity` is the number of lines and is
positive, the cursor is in range, no two valid lines carry the same tag, tags
are below `B` and dirty fields are 0 or 1. -/
structure CacheSet.WF (B : Nat) (s : CacheSet) : Prop where
  cap : s.capacity = s.lines.length
  pos : 0 < s.capacity
  idx_lt : s.idx < s.capacity
  nodup : ∀ t i j, i < s.capacity → j < s.capacity → s.Hit t i → s.Hit t j → i = j
  tag_lt : ∀ i, i < s.capacity → (s.lines.getD i default).tag < B
  dirty_le : ∀ i, i < s.capacity → (s.lines.getD i default).dirty ≤ 1

/-- `read_access(addr).first`: the address is a hit in this level. -/
def Cache.hit (c : Cache) (addr : Nat) : Bool :=
  (c.read_access addr).2.1

/-- The set selected by `addr` holds a valid line with the tag of `addr` and
dirty field `d`. -/
def Cache.Has (c : Cache) (addr d : Nat) : Prop :=
  (c.cacheSet.getD (c.getSetIndex addr) default).Has (c.getTag addr) d

/-- Well-formed level: the fields fit a 32-bit address, there are
`1 << setLen` sets and each is well formed for tags of `32 - offset - setLen` bits. -/
structure Cache.WF (c : Cache) : Prop where
  bits : c.offset + c.setLen ≤ 32
  len : c.cacheSet.length = 2 ^ c.setLen
  sets : ∀ i, i < 2 ^ c.setLen →
    (c.cacheSet.getD i default).WF (2 ^ (32 - (c.offset + c.setLen)))

/-- Two addresses lie in the same block of `2 ^ offset` bytes. -/
def sameBlock (offset a b : Nat) : Prop :=
  a >>> offset = b >>> offset

instance (offset a b : Nat) : Decidable (sameBlock offset a b) :=
  inferInstanceAs (Decidable (a >>> offset = b >>> offset))

/-- The invariant of the hierarchy: both levels are well formed, they share the
block size, and no address is held by both levels. -/
structure CacheSystem.Inv (sys : CacheSystem) : Prop where
  wf1 : sys.L1.WF
  wf2 : sys.L2.WF
  off : sys.L2.offset = sys.L1.offset
  excl : ∀ a d1 d2, sys.L1.Has a d1 → ¬ sys.L2.Has a d2

/-- The three ways the second half of `CacheSystem::read` ends on a miss in L1,
as a relation between the levels before (`l1`, `l2`), the hierarchy after and
the memory code: the block of `a` is added to L1 with dirty bit `d` and either
L1 had a free line (`free`), or the L1 victim `va` moves to a free line of L2
(`demote`), or it replaces the block `wa` of L2 (`spill`). -/
inductive Loaded (l1 l2 : Cache) (a d : Nat) : CacheSystem → Nat → Prop
  | free (m1 : Cache)
      (h1 : ∀ b e, m1.Has b e ↔ (sameBlock l1.offset b a ∧ e = d) ∨ l1.Has b e) :
      Loaded l1 l2 a d ⟨m1, l2⟩ NOWRITEMEM
  | demote (m1 m2 : Cache) (va vd : Nat) (hv : l1.Has va vd)
      (h1 : ∀ b e, m1.Has b e ↔
        (sameBlock l1.offset b a ∧ e = d) ∨ (¬ sameBlock l1.offset b va ∧ l1.Has b e))
      (h2 : ∀ b e, m2.Has b e ↔ (sameBlock l1.offset b va ∧ e = vd) ∨ l2.Has b e) :
      Loaded l1 l2 a d ⟨m1, m2⟩ NOWRITEMEM
  | spill (m1 m2 : Cache) (va vd wa wd : Nat) (hv : l1.Has va vd) (hw : l2.Has wa wd)
      (h1 : ∀ b e, m1.Has b e ↔
        (sameBlock l1.offset b a ∧ e = d) ∨ (¬ sameBlock l1.offset b va ∧ l1.Has b e))
      (h2 : ∀ b e, m2.Has b e ↔
        (sameBlock l1.offset b va ∧ e = vd) ∨ (¬ sameBlock l1.offset b wa ∧ l2.Has b e)) :
      Loaded l1 l2 a d ⟨m1, m2⟩ (if wd = 1 then WRITEMEM else NOWRITEMEM)

/-- L2 as the first half of `CacheSystem::read` leaves it when L1 misses: the
copy of `a` is invalidated on an L2 hit. -/
def CacheSystem.lookupL2 (sys : CacheSystem) (a : Nat) : Cache :=
  if sys.L2.hit a then sys.L2.invalid a else sys.L2

/-- The variable `dirty` after the first half of `CacheSystem::read` when L1
misses: the dirty bit reported by L2 on a hit, 0 otherwise. -/
def CacheSystem.lookupDirty (sys : CacheSystem) (a : Nat) : Nat :=
  if sys.L2.hit a then (sys.L2.read_access a).2.2 else 0

/-- The L2 code set by the first half of `CacheSystem::read` when L1 misses. -/
def CacheSystem.lookupCode (sys : CacheSystem) (a : Nat) : Nat :=
  if sys.L2.hit a then RH else RM

/-- The level reports a hit on `a` with dirty bit 1: it holds a valid dirty copy. -/
def Cache.dirtyHit (c : Cache) (a : Nat) : Prop :=
  (c.read_access a).2.1 = true ∧ (c.read_access a).2.2 = 1

/-- The block of `b` is resident in L1 or in L2 with `dirty = true`. -/
def CacheSystem.holdsDirty (sys : CacheSystem) (b : Nat) : Prop :=
  sys.L1.dirtyHit b ∨ sys.L2.dirtyHit b

/-- Every address of the trace is a 32-bit value. -/
def Trace32 (tr : List Op) : Prop :=
  ∀ op, op ∈ tr → op.addr < 2 ^ 32

/-- The hierarchy states the program can be in: built by the constructor for
equal block sizes, fields that fit 32 bits and non-empty sets, then driven by
a trace of 32-bit addresses. -/
def Reachable (s : CacheSystem) : Prop :=
  ∃ o n1 c1 n2 c2 tr outs, o + n1 ≤ 32 ∧ o + n2 ≤ 32 ∧ 0 < c1 ∧ 0 < c2 ∧ Trace32 tr ∧
    run (CacheSystem.empty o n1 c1 n2 c2) tr = some (s, outs)

instance (tr : List Op) : Decidable (Trace32 tr) :=
  inferInstanceAs (Decidable (∀ op, op ∈ tr → op.addr < 2 ^ 32))

/-- The geometries on which every shift of the source has a value defined by
C++: `addr >> (offset + setLen)` in `Cache::getTag` shifts a `uint32_t` by less
than 32, and `1 << setLen` in the constructor and in `Cache::getSetIndex`
shifts the `int` 1 by at most 30. -/
def ShiftsDefined (offset setLen : Nat) : Prop :=
  offset + setLen < 32 ∧ setLen ≤ 30

instance (offset setLen : Nat) : Decidable (ShiftsDefined offset setLen) :=
  inferInstanceAs (Decidable (_ ∧ _))

/-- The hierarchy states the program can be in on a geometry on which the
shifts of the source are defined: built by the constructor for equal block
sizes and non-empty sets, then driven by a trace of 32-bit addresses. -/
def ReachableDefined (s : CacheSystem) : Prop :=
  ∃ o n1 c1 n2 c2 tr outs, ShiftsDefined o n1 ∧ ShiftsDefined o n2 ∧ 0 < c1 ∧ 0 < c2 ∧
    Trace32 tr ∧ run (CacheSystem.empty o n1 c1 n2 c2) tr = some (s, outs)

/-- The states a level can be in: built by the constructor on a geometry on
which the shifts of the source are defined, with at least one line per set,
then changed only through its member functions, called on 32-bit addresses
and, for `evict`, with a dirty bit (`read_access` changes nothing). The members
of `Cache` are private, so no other state exists. -/
inductive Cache.Built : Cache → Prop
  | new (o n cap : Nat) (hb : ShiftsDefined o n) (hc : 0 < cap) :
      Cache.Built (Cache.empty o n cap)
  | write_access (c : Cache) (a : Nat) (h : Cache.Built c) (ha : a < 2 ^ 32) :
      Cache.Built (c.write_access a).1
  | invalid (c : Cache) (a : Nat) (h : Cache.Built c) (ha : a < 2 ^ 32) :
      Cache.Built (c.invalid a)
  | evict (c : Cache) (a d : Nat) (c1 : Cache) (v f : Nat) (h : Cache.Built c)
      (ha : a < 2 ^ 32) (hd : d ≤ 1) (e : c.evict a d = some (c1, v, f)) : Cache.Built c1

/-- A hierarchy of one set of one line per level, 16-byte blocks, whose L1 holds
the block of address 0 (the state after `R 0` on the empty hierarchy). -/
def exampleL1Hit : CacheSystem :=
  ⟨⟨[⟨[⟨0, 0, 1⟩], 1, 0⟩], 4, 0⟩, ⟨[⟨[⟨0, 0, 0⟩], 1, 0⟩], 4, 0⟩⟩

/-- A hierarchy of one set of one line per level, 16-byte blocks, whose L1 holds
the clean block of address 16 and whose L2 holds the dirty block of address 0
(the state after `R 0, W 0, R 16` on the empty hierarchy). -/
def exampleDemoted : CacheSystem :=
  ⟨⟨[⟨[⟨1, 0, 1⟩], 1, 0⟩], 4, 0⟩, ⟨[⟨[⟨0, 1, 1⟩], 1, 0⟩], 4, 0⟩⟩

/-- The hierarchy of the scenario of the specification: 16-byte blocks, 16 sets
of one line in each level, after `R 0x0, R 0x0, W 0x0, R 0x100`: set 0 of L1
holds the clean block of `0x100` (tag 1), set 0 of L2 the dirty block of `0x0`
(tag 0). -/
def scenarioState : CacheSystem :=
  ⟨⟨(List.replicate 16 (CacheSet.new 1)).set 0 ⟨[⟨1, 0, 1⟩], 1, 0⟩, 4, 4⟩,
   ⟨(List.replicate 16 (CacheSet.new 1)).set 0 ⟨[⟨0, 1, 1⟩], 1, 0⟩, 4, 4⟩⟩

/-- A full set of two lines: tag 7 (dirty) and tag 9 (clean), cursor 0. -/
def exampleFullSet : CacheSet :=
  ⟨[⟨7, 1, 1⟩, ⟨9, 0, 1⟩], 2, 0⟩

/-- A set of one line holding the clean valid block of tag 5. -/
def exampleCleanSet : CacheSet :=
  ⟨[⟨5, 0, 1⟩], 1, 0⟩

/-- The block with its dirty field put to 0. -/
def CacheBlock.undirtied (b : CacheBlock) : CacheBlock :=
  ⟨b.tag, 0, b.valid⟩

/-- The set with every dirty field put to 0: what is left is the tags, the valid
fields, the capacity and the cursor. -/
def CacheSet.undirtied (s : CacheSet) : CacheSet :=
  ⟨s.lines.map CacheBlock.undirtied, s.capacity, s.idx⟩

/-- The level with every dirty field put to 0. -/
def Cache.undirtied (c : Cache) : Cache :=
  ⟨c.cacheSet.map CacheSet.undirtied, c.offset, c.setLen⟩

/-- The level `c` with the dirty field of line `k` of the set selected by `a`
put to 1 and nothing else changed. -/
def Cache.withDirty (c : Cache) (a k : Nat) : Cache :=
  ⟨c.cacheSet.set (c.getSetIndex a)
    ⟨(c.cacheSet.getD (c.getSetIndex a) default).lines.set k
      ⟨((c.cacheSet.getD (c.getSetIndex a) default).lines.getD k default).tag, 1,
        ((c.cacheSet.getD (c.getSetIndex a) default).lines.getD k default).valid⟩,
      (c.cacheSet.getD (c.getSetIndex a) default).capacity,
      (c.cacheSet.getD (c.getSetIndex a) default).idx⟩,
    c.offset, c.setLen⟩

/-- The shape the constructor gives a level and the operations keep: `1 << setLen`
sets, each with `capacity` lines and its cursor below `capacity`. -/
structure Cache.Shaped (c : Cache) : Prop where
  len : c.cacheSet.length = 2 ^ c.setLen
  cap : ∀ i, i < 2 ^ c.setLen →
    (c.cacheSet.getD i default).capacity = (c.cacheSet.getD i default).lines.length
  idx_lt : ∀ i, i < 2 ^ c.setLen →
    (c.cacheSet.getD i default).idx < (c.cacheSet.getD i default).capacity

/-- A call on a set: `evict(tag, dirty)` or `contain(tag, writeOp)`. -/
inductive SetCall where
  | evict (tag dirty : Nat)
  | contain (tag : Nat) (writeOp : Bool)
deriving DecidableEq, Repr

/-- The calls made in order on a set: the set after them and the results of the
`evict` calls, in order. -/
def CacheSet.calls (s : CacheSet) : List SetCall → CacheSet × List (Nat × Nat)
  | [] => (s, [])
  | SetCall.evict t d :: rest =>
    ((CacheSet.calls (s.evict t d).1 rest).1,
      (s.evict t d).2 :: (CacheSet.calls (s.evict t d).1 rest).2)
  | SetCall.contain t w :: rest => CacheSet.calls (s.contain t w).1 rest

/-- The tags installed by the `evict` calls of a list of calls, in order. -/
def installedTags : List SetCall → List Nat
  | [] => []
  | SetCall.evict t _ :: rest => t :: installedTags rest
  | SetCall.contain _ _ :: rest => installedTags rest

/-- A set of `N` lines after the tags `hist` were installed, in order, into the
empty set: the line `p % N` holds the `p`-th tag for each of the last `N`
installs `p`, the lines not yet reached are invalid, and the cursor is
`(hist.length - N) % N`. -/
structure CacheSet.Fifo (N : Nat) (hist : List Nat) (s : CacheSet) : Prop where
  cap : s.capacity = N
  len : s.lines.length = N
  cur : s.idx = (hist.length - N) % N
  held : ∀ p, p < hist.length → hist.length ≤ p + N →
    (s.lines.getD (p % N) default).valid ≠ 0 ∧
    (s.lines.getD (p % N) default).tag = hist.getD p 0
  free : ∀ j, hist.length ≤ j → j < N → (s.lines.getD j default).valid = 0

/-- Four installs into a set, with a write to the first tag and a read of the
second in between. -/
def exampleCalls : List SetCall :=
  [SetCall.evict 5 0, SetCall.contain 5 true, SetCall.evict 6 0, SetCall.evict 7 0,
    SetCall.contain 6 false, SetCall.evict 8 1]

theorem getD_set' {α : Type} (l : List α) (i j : Nat) (x d : α) :
    (l.set i x).getD j d = if i = j ∧ j < l.length then x else l.getD j d := by
  simp only [List.getD_eq_getElem?_getD, List.getElem?_set]
  by_cases h : i = j
  · subst h
    by_cases h2 : i < l.length
    · simp [h2]
    · simp [h2, List.getElem?_eq_none (Nat.le_of_not_lt h2)]
  · simp [h]

theorem set_getD_self {α : Type} (l : List α) (i : Nat) (d : α) :
    l.set i (l.getD i d) = l := by
  induction l generalizing i with
  | nil => simp
  | cons a t ih =>
    cases i with
    | zero => simp
    | succ n => simpa using ih n

theorem getD_replicate' {α : Type} (n i : Nat) (x : α) :
    (List.replicate n x).getD i x = x := by
  simp only [List.getD_eq_getElem?_getD, List.getElem?_replicate]
  split <;> rfl

/-! ## Sets -/

theorem CacheSet.containLoop_cases (s : CacheSet) (t : Nat) (w : Bool) (fuel i : Nat) :
    (∃ k, i ≤ k ∧ k < i + fuel ∧ s.Hit t k ∧ (∀ j, i ≤ j → j < k → ¬ s.Hit t j) ∧
      s.containLoop t w fuel i =
        if w then
          ({ s with lines := s.lines.set k { s.lines.getD k default with dirty := 1 } }, true, 1)
        else (s, true, (s.lines.getD k default).dirty % 256)) ∨
    ((∀ j, i ≤ j → j < i + fuel → ¬ s.Hit t j) ∧ s.containLoop t w fuel i = (s, false, 0)) := by
  induction fuel generalizing i with
  | zero =>
    right
    exact ⟨fun j h1 h2 => by omega, rfl⟩
  | succ n ih =>
    by_cases h : s.Hit t i
    · left
      refine ⟨i, le_refl i, by omega, h, fun j h1 h2 => by omega, ?_⟩
      have h' := h
      unfold CacheSet.Hit at h'
      rw [CacheSet.containLoop, if_pos h']
    · have h' := h
      unfold CacheSet.Hit at h'
      rcases ih (i + 1) with ⟨k, hk1, hk2, hk3, hk4, hk5⟩ | ⟨hno, heq⟩
      · left
        refine ⟨k, by omega, by omega, hk3, ?_, ?_⟩
        · intro j h1 h2
          by_cases hj : j = i
          · subst hj; exact h
          · exact hk4 j (by omega) h2
        · rw [CacheSet.containLoop, if_neg h', hk5]
      · right
        refine ⟨?_, ?_⟩
        · intro j h1 h2
          by_cases hj : j = i
          · subst hj; exact h
          · exact hno j (by omega) (by omega)
        · rw [CacheSet.containLoop, if_neg h', heq]

theorem CacheSet.invalidLoop_cases (s : CacheSet) (t : Nat) (fuel i : Nat) :
    (∃ k, i ≤ k ∧ k < i + fuel ∧ s.Hit t k ∧ (∀ j, i ≤ j → j < k → ¬ s.Hit t j) ∧
      s.invalidLoop t fuel i =
        { s with lines := s.lines.set k { s.lines.getD k default with valid := 0 } }) ∨
    ((∀ j, i ≤ j → j < i + fuel → ¬ s.Hit t j) ∧ s.invalidLoop t fuel i = s) := by
  induction fuel generalizing i with
  | zero =>
    right
    exact ⟨fun j h1 h2 => by omega, rfl⟩
  | succ n ih =>
    by_cases h : s.Hit t i
    · left
      refine ⟨i, le_refl i, by omega, h, fun j h1 h2 => by omega, ?_⟩
      have h' := h
      unfold CacheSet.Hit at h'
      rw [CacheSet.invalidLoop, if_pos h']
    · have h' := h
      unfold CacheSet.Hit at h'
      rcases ih (i + 1) with ⟨k, hk1, hk2, hk3, hk4, hk5⟩ | ⟨hno, heq⟩
      · left
        refine ⟨k, by omega, by omega, hk3, ?_, ?_⟩
        · intro j h1 h2
          by_cases hj : j = i
          · subst hj; exact h
          · exact hk4 j (by omega) h2
        · rw [CacheSet.invalidLoop, if_neg h', hk5]
      · right
        refine ⟨?_, ?_⟩
        · intro j h1 h2
          by_cases hj : j = i
          · subst hj; exact h
          · exact hno j (by omega) (by omega)
        · rw [CacheSet.invalidLoop, if_neg h', heq]

theorem CacheSet.evictLoop_cases (s : CacheSet) (fuel i : Nat) :
    (∃ k, i ≤ k ∧ k < i + fuel ∧ (s.lines.getD k default).valid = 0 ∧
      (∀ j, i ≤ j → j < k → (s.lines.getD j default).valid ≠ 0) ∧
      s.evictLoop fuel i = some k) ∨
    ((∀ j, i ≤ j → j < i + fuel → (s.lines.getD j default).valid ≠ 0) ∧
      s.evictLoop fuel i = none) := by
  induction fuel generalizing i with
  | zero =>
    right
    exact ⟨fun j h1 h2 => by omega, rfl⟩
  | succ n ih =>
    by_cases h : (s.lines.getD i default).valid = 0
    · left
      refine ⟨i, le_refl i, by omega, h, fun j h1 h2 => by omega, ?_⟩
      rw [CacheSet.evictLoop, if_pos h]
    · rcases ih (i + 1) with ⟨k, hk1, hk2, hk3, hk4, hk5⟩ | ⟨hno, heq⟩
      · left
        refine ⟨k, by omega, by omega, hk3, ?_, ?_⟩
        · intro j h1 h2
          by_cases hj : j = i
          · subst hj; exact h
          · exact hk4 j (by omega) h2
        · rw [CacheSet.evictLoop, if_neg h, hk5]
      · right
        refine ⟨?_, ?_⟩
        · intro j h1 h2
          by_cases hj : j = i
          · subst hj; exact h
          · exact hno j (by omega) (by omega)
        · rw [CacheSet.evictLoop, if_neg h, heq]

/-- Lines of a set after line `k` is overwritten. -/
theorem CacheSet.line_set (s : CacheSet) (k x : Nat) (b : CacheBlock) (hc : s.capacity = s.lines.length)
    (hk : k < s.capacity) (j : Nat) :
    ((CacheSet.mk (s.lines.set k b) s.capacity x).lines.getD j default) =
      if j = k then b else s.lines.getD j default := by
  show (s.lines.set k b).getD j default = _
  rw [getD_set']
  by_cases h : j = k
  · subst h
    rw [if_pos ⟨rfl, by omega⟩, if_pos rfl]
  · rw [if_neg (fun h' => h h'.1.symm), if_neg h]

theorem CacheSet.has_line_set (s : CacheSet) (k x : Nat) (b : CacheBlock)
    (hc : s.capacity = s.lines.length) (hk : k < s.capacity) (t d : Nat) :
    (CacheSet.mk (s.lines.set k b) s.capacity x).Has t d ↔
      (b.valid ≠ 0 ∧ b.tag = t ∧ b.dirty = d) ∨
      (∃ j, j < s.capacity ∧ j ≠ k ∧ s.Hit t j ∧ (s.lines.getD j default).dirty = d) := by
  unfold CacheSet.Has CacheSet.Hit
  constructor
  · rintro ⟨i, hi, hh, hd⟩
    rw [CacheSet.line_set s k x b hc hk] at hh hd
    by_cases hik : i = k
    · rw [if_pos hik] at hh hd
      exact Or.inl ⟨hh.1, hh.2, hd⟩
    · rw [if_neg hik] at hh hd
      exact Or.inr ⟨i, hi, hik, hh, hd⟩
  · rintro (⟨h1, h2, h3⟩ | ⟨j, hj, hjk, hh, hd⟩)
    · refine ⟨k, hk, ?_, ?_⟩
      · rw [CacheSet.line_set s k x b hc hk, if_pos rfl]; exact ⟨h1, h2⟩
      · rw [CacheSet.line_set s k x b hc hk, if_pos rfl]; exact h3
    · refine ⟨j, hj, ?_, ?_⟩
      · rw [CacheSet.line_set s k x b hc hk, if_neg hjk]; exact hh
      · rw [CacheSet.line_set s k x b hc hk, if_neg hjk]; exact hd

theorem CacheSet.has_others {B : Nat} (s : CacheSet) (hwf : s.WF B) (k : Nat) (hk : k < s.capacity)
    (t d : Nat) :
    (∃ j, j < s.capacity ∧ j ≠ k ∧ s.Hit t j ∧ (s.lines.getD j default).dirty = d) ↔
      (s.Has t d ∧ ¬ s.Hit t k) := by
  constructor
  · rintro ⟨j, hj, hjk, hh, hd⟩
    exact ⟨⟨j, hj, hh, hd⟩, fun hkh => hjk (hwf.nodup t j k hj hk hh hkh)⟩
  · rintro ⟨⟨j, hj, hh, hd⟩, hn⟩
    refine ⟨j, hj, ?_, hh, hd⟩
    rintro rfl
    exact hn hh

theorem CacheSet.wf_line_set {B : Nat} (s : CacheSet) (hwf : s.WF B) (k x : Nat) (b : CacheBlock)
    (hk : k < s.capacity) (hx : x < s.capacity) (hb : b.tag < B) (hd : b.dirty ≤ 1)
    (hnew : b.valid ≠ 0 → ∀ j, j < s.capacity → j ≠ k → ¬ s.Hit b.tag j) :
    (CacheSet.mk (s.lines.set k b) s.capacity x).WF B := by
  have hc := hwf.cap
  refine ⟨?_, hwf.pos, hx, ?_, ?_, ?_⟩
  · show s.capacity = (s.lines.set k b).length
    rw [List.length_set]; exact hc
  · intro t i j hi hj h1 h2
    show i = j
    unfold CacheSet.Hit at h1 h2
    rw [CacheSet.line_set s k x b hc hk] at h1 h2
    by_cases hik : i = k <;> by_cases hjk : j = k
    · rw [hik, hjk]
    · rw [if_pos hik] at h1
      rw [if_neg hjk] at h2
      exact absurd (show s.Hit b.tag j from ⟨h2.1, h2.2.trans h1.2.symm⟩) (hnew h1.1 j hj hjk)
    · rw [if_neg hik] at h1
      rw [if_pos hjk] at h2
      exact absurd (show s.Hit b.tag i from ⟨h1.1, h1.2.trans h2.2.symm⟩) (hnew h2.1 i hi hik)
    · rw [if_neg hik] at h1
      rw [if_neg hjk] at h2
      exact hwf.nodup t i j hi hj h1 h2
  · intro i hi
    rw [CacheSet.line_set s k x b hc hk]
    by_cases hik : i = k
    · rw [if_pos hik]; exact hb
    · rw [if_neg hik]; exact hwf.tag_lt i hi
  · intro i hi
    rw [CacheSet.line_set s k x b hc hk]
    by_cases hik : i = k
    · rw [if_pos hik]; exact hd
    · rw [if_neg hik]; exact hwf.dirty_le i hi

theorem CacheSet.contain_found_iff (s : CacheSet) (t : Nat) (w : Bool) :
    (s.contain t w).2.1 = true ↔ ∃ i, i < s.capacity ∧ s.Hit t i := by
  unfold CacheSet.contain
  rcases s.containLoop_cases t w s.capacity 0 with ⟨k, _, hk2, hk3, _, hk5⟩ | ⟨hno, heq⟩
  · rw [hk5]
    constructor
    · intro _
      exact ⟨k, by omega, hk3⟩
    · intro _
      cases w <;> rfl
  · rw [heq]
    constructor
    · intro h; exact absurd h Bool.false_ne_true
    · rintro ⟨i, hi, hh⟩
      exact absurd hh (hno i (Nat.zero_le i) (by omega))

theorem CacheSet.contain_read_fst (s : CacheSet) (t : Nat) : (s.contain t false).1 = s := by
  unfold CacheSet.contain
  rcases s.containLoop_cases t false s.capacity 0 with ⟨k, _, _, _, _, hk5⟩ | ⟨_, heq⟩
  · rw [hk5]; rfl
  · rw [heq]

theorem CacheSet.contain_miss_fst (s : CacheSet) (t : Nat) (w : Bool)
    (h : (s.contain t w).2.1 = false) : (s.contain t w).1 = s := by
  unfold CacheSet.contain at h ⊢
  rcases s.containLoop_cases t w s.capacity 0 with ⟨k, _, _, _, _, hk5⟩ | ⟨_, heq⟩
  · rw [hk5] at h
    cases w <;> exact absurd h Bool.true_eq_false_eq_False
  · rw [heq]

theorem CacheSet.contain_read_dirty {B : Nat} (s : CacheSet) (hwf : s.WF B) (t d : Nat)
    (h : s.Has t d) : (s.contain t false).2.2 = d := by
  obtain ⟨i, hi, hh, hd⟩ := h
  unfold CacheSet.contain
  rcases s.containLoop_cases t false s.capacity 0 with ⟨k, _, hk2, hk3, _, hk5⟩ | ⟨hno, _⟩
  · rw [hk5]
    have hki : k = i := hwf.nodup t k i (by omega) hi hk3 hh
    subst hki
    show (s.lines.getD k default).dirty % 256 = d
    rw [hd]
    have := hwf.dirty_le k hi
    omega
  · exact absurd hh (hno i (Nat.zero_le i) (by omega))

theorem CacheSet.contain_write_spec {B : Nat} (s : CacheSet) (hwf : s.WF B) (t : Nat)
    (h : ∃ i, i < s.capacity ∧ s.Hit t i) :
    (s.contain t true).1.WF B ∧
      ∀ t1 d1, (s.contain t true).1.Has t1 d1 ↔ (t1 = t ∧ d1 = 1) ∨ (t1 ≠ t ∧ s.Has t1 d1) := by
  obtain ⟨i, hi, hh⟩ := h
  unfold CacheSet.contain
  rcases s.containLoop_cases t true s.capacity 0 with ⟨k, _, hk2, hk3, _, hk5⟩ | ⟨hno, _⟩
  · rw [hk5]
    have hk : k < s.capacity := by omega
    refine ⟨?_, ?_⟩
    · refine s.wf_line_set hwf k s.idx _ hk hwf.idx_lt (hwf.tag_lt k hk) (le_refl 1) ?_
      intro _ j hj hjk hjh
      exact hjk (hwf.nodup _ j k hj hk hjh ⟨hk3.1, rfl⟩)
    · intro t1 d1
      show (CacheSet.mk _ s.capacity s.idx).Has t1 d1 ↔ _
      rw [s.has_line_set k s.idx _ hwf.cap hk, s.has_others hwf k hk]
      constructor
      · rintro (⟨_, h2, h3⟩ | ⟨h1, h2⟩)
        · exact Or.inl ⟨(hk3.2.symm.trans h2).symm, h3.symm⟩
        · refine Or.inr ⟨?_, h1⟩
          rintro rfl
          exact h2 hk3
      · rintro (⟨h1, h2⟩ | ⟨h1, h2⟩)
        · exact Or.inl ⟨hk3.1, hk3.2.trans h1.symm, h2.symm⟩
        · exact Or.inr ⟨h2, fun hc => h1 (hc.2.symm.trans hk3.2)⟩
  · exact absurd hh (hno i (Nat.zero_le i) (by omega))

theorem CacheSet.invalid_tag_spec {B : Nat} (s : CacheSet) (hwf : s.WF B) (t : Nat) :
    (s.invalid t).WF B ∧ ∀ t1 d1, (s.invalid t).Has t1 d1 ↔ (t1 ≠ t ∧ s.Has t1 d1) := by
  unfold CacheSet.invalid
  rcases s.invalidLoop_cases t s.capacity 0 with ⟨k, _, hk2, hk3, _, hk5⟩ | ⟨hno, heq⟩
  · rw [hk5]
    have hk : k < s.capacity := by omega
    refine ⟨?_, ?_⟩
    · refine s.wf_line_set hwf k s.idx _ hk hwf.idx_lt (hwf.tag_lt k hk) (hwf.dirty_le k hk) ?_
      intro h0
      exact absurd rfl h0
    · intro t1 d1
      show (CacheSet.mk _ s.capacity s.idx).Has t1 d1 ↔ _
      rw [s.has_line_set k s.idx _ hwf.cap hk, s.has_others hwf k hk]
      constructor
      · rintro (⟨h1, _, _⟩ | ⟨h1, h2⟩)
        · exact absurd rfl h1
        · refine ⟨?_, h1⟩
          rintro rfl
          exact h2 hk3
      · rintro ⟨h1, h2⟩
        exact Or.inr ⟨h2, fun hc => h1 (hc.2.symm.trans hk3.2)⟩
  · rw [heq]
    refine ⟨hwf, ?_⟩
    intro t1 d1
    constructor
    · intro h
      refine ⟨?_, h⟩
      rintro rfl
      obtain ⟨i, hi, hh, _⟩ := h
      exact hno i (Nat.zero_le i) (by omega) hh
    · exact fun h => h.2

/-- Flags reported by `CacheSet::evict` for a replaced line with dirty field `vd`. -/
theorem evict_flags (vd : Nat) (h : vd ≤ 1) :
    ((0 ||| VALID) ||| (1 <<< vd)) % 256 = if vd = 1 then 3 else 1 := by
  interval_cases vd <;> decide

theorem CacheSet.evict_tag_spec {B : Nat} (s : CacheSet) (hwf : s.WF B) (t d : Nat)
    (ht : t < B) (hd : d ≤ 1) (hmiss : ∀ i, i < s.capacity → ¬ s.Hit t i) :
    (s.evict t d).1.WF B ∧
    (((s.evict t d).2.2 = 0 ∧
        ∀ t1 d1, (s.evict t d).1.Has t1 d1 ↔ (t1 = t ∧ d1 = d) ∨ s.Has t1 d1) ∨
     (∃ vd, s.Has (s.evict t d).2.1 vd ∧ (s.evict t d).2.2 = (if vd = 1 then 3 else 1) ∧
        ∀ t1 d1, (s.evict t d).1.Has t1 d1 ↔
          (t1 = t ∧ d1 = d) ∨ (t1 ≠ (s.evict t d).2.1 ∧ s.Has t1 d1))) := by
  unfold CacheSet.evict
  rcases s.evictLoop_cases s.capacity 0 with ⟨k, _, hk2, hk3, _, hk5⟩ | ⟨hall, heq⟩
  · rw [hk5]
    have hk : k < s.capacity := by omega
    refine ⟨?_, Or.inl ⟨rfl, ?_⟩⟩
    · refine s.wf_line_set hwf k s.idx _ hk hwf.idx_lt ht hd ?_
      intro _ j hj _
      exact hmiss j hj
    · intro t1 d1
      show (CacheSet.mk _ s.capacity s.idx).Has t1 d1 ↔ _
      rw [s.has_line_set k s.idx _ hwf.cap hk, s.has_others hwf k hk]
      constructor
      · rintro (⟨_, h2, h3⟩ | ⟨h1, _⟩)
        · exact Or.inl ⟨h2.symm, h3.symm⟩
        · exact Or.inr h1
      · rintro (⟨h1, h2⟩ | h1)
        · exact Or.inl ⟨Nat.one_ne_zero, h1.symm, h2.symm⟩
        · exact Or.inr ⟨h1, fun hc => hc.1 hk3⟩
  · rw [heq]
    have hk : s.idx < s.capacity := hwf.idx_lt
    have hv : s.Hit (s.lines.getD s.idx default).tag s.idx :=
      ⟨hall s.idx (Nat.zero_le _) (by omega), rfl⟩
    refine ⟨?_, Or.inr ⟨(s.lines.getD s.idx default).dirty, ⟨s.idx, hk, hv, rfl⟩, ?_, ?_⟩⟩
    · refine s.wf_line_set hwf s.idx _ _ hk (Nat.mod_lt _ hwf.pos) ht hd ?_
      intro _ j hj _
      exact hmiss j hj
    · exact evict_flags _ (hwf.dirty_le s.idx hk)
    · intro t1 d1
      show (CacheSet.mk _ s.capacity _).Has t1 d1 ↔ _
      rw [s.has_line_set s.idx _ _ hwf.cap hk, s.has_others hwf s.idx hk]
      constructor
      · rintro (⟨_, h2, h3⟩ | ⟨h1, h2⟩)
        · exact Or.inl ⟨h2.symm, h3.symm⟩
        · refine Or.inr ⟨?_, h1⟩
          rintro rfl
          exact h2 hv
      · rintro (⟨h1, h2⟩ | ⟨h1, h2⟩)
        · exact Or.inl ⟨Nat.one_ne_zero, h1.symm, h2.symm⟩
        · exact Or.inr ⟨h2, fun hc => h1 (hc.2.symm.trans hv.2)⟩

/-! ## Address fields -/

theorem Cache.getSetIndex_eq (c : Cache) (h : c.setLen ≤ 32) (a : Nat) :
    c.getSetIndex a = (a >>> c.offset) % 2 ^ c.setLen := by
  unfold Cache.getSetIndex
  rw [Nat.one_shiftLeft]
  have h1 : 2 ^ c.setLen ≤ 2 ^ 32 := Nat.pow_le_pow_right (by decide) h
  have h2 : 0 < 2 ^ c.setLen := Nat.two_pow_pos _
  rw [Nat.mod_eq_of_lt (by omega), Nat.and_pow_two_sub_one_eq_mod]

theorem Cache.getSetIndex_lt (c : Cache) (h : c.setLen ≤ 32) (a : Nat) :
    c.getSetIndex a < 2 ^ c.setLen := by
  rw [c.getSetIndex_eq h]
  exact Nat.mod_lt _ (Nat.two_pow_pos _)

theorem Cache.getTag_eq (c : Cache) (a : Nat) :
    c.getTag a = (a >>> c.offset) / 2 ^ c.setLen := by
  unfold Cache.getTag
  rw [Nat.shiftRight_add, Nat.shiftRight_eq_div_pow (a >>> c.offset)]

theorem Cache.getTag_lt (c : Cache) (h : c.offset + c.setLen ≤ 32) (a : Nat) (ha : a < 2 ^ 32) :
    c.getTag a < 2 ^ (32 - (c.offset + c.setLen)) := by
  unfold Cache.getTag
  rw [Nat.shiftRight_eq_div_pow]
  rw [Nat.div_lt_iff_lt_mul (Nat.two_pow_pos _), ← Nat.pow_add]
  rw [Nat.sub_add_cancel h]
  exact ha

theorem Cache.sameBlock_iff (c : Cache) (h : c.setLen ≤ 32) (a b : Nat) :
    sameBlock c.offset a b ↔ (c.getSetIndex a = c.getSetIndex b ∧ c.getTag a = c.getTag b) := by
  unfold sameBlock
  rw [c.getSetIndex_eq h, c.getSetIndex_eq h, c.getTag_eq, c.getTag_eq]
  constructor
  · intro e; rw [e]; exact ⟨rfl, rfl⟩
  · rintro ⟨h1, h2⟩
    rw [← Nat.div_add_mod (a >>> c.offset) (2 ^ c.setLen),
      ← Nat.div_add_mod (b >>> c.offset) (2 ^ c.setLen), h1, h2]

/-- The address rebuilt by `Cache::evict` from a stored tag and the set index. -/
theorem Cache.victim_addr (c : Cache) (h : c.offset + c.setLen ≤ 32) (t i : Nat)
    (ht : t < 2 ^ (32 - (c.offset + c.setLen))) (hi : i < 2 ^ c.setLen) :
    ((((t <<< c.setLen) % 2 ^ 32) ||| i) <<< c.offset) % 2 ^ 32 < 2 ^ 32 ∧
    c.getSetIndex (((((t <<< c.setLen) % 2 ^ 32) ||| i) <<< c.offset) % 2 ^ 32) = i ∧
    c.getTag (((((t <<< c.setLen) % 2 ^ 32) ||| i) <<< c.offset) % 2 ^ 32) = t := by
  have hn : c.setLen ≤ 32 := by omega
  have hpn : 0 < 2 ^ c.setLen := Nat.two_pow_pos _
  have hpo : 0 < 2 ^ c.offset := Nat.two_pow_pos _
  have e32 : 2 ^ 32 = 2 ^ (32 - (c.offset + c.setLen)) * 2 ^ c.setLen * 2 ^ c.offset := by
    rw [← Nat.pow_add, ← Nat.pow_add]
    congr 1
    omega
  have hx : t * 2 ^ c.setLen + i < 2 ^ (32 - (c.offset + c.setLen)) * 2 ^ c.setLen := by
    have : (t + 1) * 2 ^ c.setLen ≤ 2 ^ (32 - (c.offset + c.setLen)) * 2 ^ c.setLen :=
      Nat.mul_le_mul_right _ ht
    rw [Nat.add_mul] at this
    omega
  have hxo : (t * 2 ^ c.setLen + i) * 2 ^ c.offset < 2 ^ 32 := by
    rw [e32]
    exact Nat.mul_lt_mul_of_pos_right hx hpo
  have h1 : (t <<< c.setLen) % 2 ^ 32 = t * 2 ^ c.setLen := by
    rw [Nat.shiftLeft_eq]
    apply Nat.mod_eq_of_lt
    have : t * 2 ^ c.setLen ≤ (t * 2 ^ c.setLen + i) * 2 ^ c.offset :=
      le_trans (Nat.le_add_right _ _) (Nat.le_mul_of_pos_right _ hpo)
    omega
  have h2 : (t * 2 ^ c.setLen) ||| i = t * 2 ^ c.setLen + i := by
    rw [Nat.mul_comm t, Nat.mul_add_lt_is_or hi]
  have h3 : ((((t <<< c.setLen) % 2 ^ 32) ||| i) <<< c.offset) % 2 ^ 32
      = (t * 2 ^ c.setLen + i) * 2 ^ c.offset := by
    rw [h1, h2, Nat.shiftLeft_eq, Nat.mod_eq_of_lt hxo]
  rw [h3]
  have h4 : ((t * 2 ^ c.setLen + i) * 2 ^ c.offset) >>> c.offset = t * 2 ^ c.setLen + i := by
    rw [Nat.shiftRight_eq_div_pow, Nat.mul_div_cancel _ hpo]
  refine ⟨hxo, ?_, ?_⟩
  · rw [c.getSetIndex_eq hn, h4, Nat.mul_comm t, Nat.mul_add_mod, Nat.mod_eq_of_lt hi]
  · rw [c.getTag_eq, h4, Nat.mul_comm t, Nat.mul_add_div hpn, Nat.div_eq_of_lt hi, Nat.add_zero]

/-! ## Levels -/

theorem Cache.access_miss_fst (c : Cache) (a : Nat) (w : Bool)
    (h : (c.access a w).2.1 = false) : (c.access a w).1 = c := by
  unfold Cache.access at h ⊢
  simp only at h ⊢
  rw [CacheSet.contain_miss_fst _ _ _ h, set_getD_self]

theorem Cache.read_access_fst (c : Cache) (a : Nat) : (c.read_access a).1 = c := by
  unfold Cache.read_access Cache.access
  simp only
  rw [CacheSet.contain_read_fst, set_getD_self]

theorem Cache.access_found (c : Cache) (a : Nat) (w : Bool) :
    (c.access a w).2.1 = c.hit a := by
  unfold Cache.hit Cache.read_access Cache.access
  simp only
  rw [Bool.eq_iff_iff, CacheSet.contain_found_iff, CacheSet.contain_found_iff]

theorem Cache.hit_iff (c : Cache) (a : Nat) : c.hit a = true ↔ ∃ d, c.Has a d := by
  unfold Cache.hit Cache.read_access Cache.access Cache.Has CacheSet.Has
  simp only
  rw [CacheSet.contain_found_iff]
  constructor
  · rintro ⟨i, hi, hh⟩
    exact ⟨_, i, hi, hh, rfl⟩
  · rintro ⟨_, i, hi, hh, _⟩
    exact ⟨i, hi, hh⟩

theorem Cache.hit_false_iff (c : Cache) (a : Nat) : c.hit a = false ↔ ∀ d, ¬ c.Has a d := by
  rw [← Bool.not_eq_true, c.hit_iff]
  exact not_exists

theorem Cache.read_dirty (c : Cache) (hwf : c.WF) (a d : Nat) (h : c.Has a d) :
    (c.read_access a).2.2 = d := by
  unfold Cache.read_access Cache.access
  simp only
  exact CacheSet.contain_read_dirty _
    (hwf.sets _ (c.getSetIndex_lt (by have := hwf.bits; omega) a)) _ _ h

theorem Cache.has_congr (c : Cache) (hwf : c.WF) (a b d : Nat) (h : sameBlock c.offset a b) :
    c.Has a d ↔ c.Has b d := by
  have hn : c.setLen ≤ 32 := by have := hwf.bits; omega
  obtain ⟨h1, h2⟩ := (c.sameBlock_iff hn a b).1 h
  unfold Cache.Has
  rw [h1, h2]

/-- Sets of a level after the set selected by `a` is replaced. -/
theorem Cache.has_set (c : Cache) (hwf : c.WF) (a : Nat) (s1 : CacheSet) (b d : Nat) :
    (Cache.mk (c.cacheSet.set (c.getSetIndex a) s1) c.offset c.setLen).Has b d ↔
      if c.getSetIndex b = c.getSetIndex a then s1.Has (c.getTag b) d else c.Has b d := by
  have hn : c.setLen ≤ 32 := by have := hwf.bits; omega
  unfold Cache.Has
  show ((c.cacheSet.set (c.getSetIndex a) s1).getD (c.getSetIndex b) default).Has (c.getTag b) d ↔ _
  rw [getD_set']
  by_cases h : c.getSetIndex b = c.getSetIndex a
  · rw [if_pos h, if_pos ⟨h.symm, by rw [hwf.len]; exact c.getSetIndex_lt hn b⟩]
  · rw [if_neg h, if_neg (fun hc => h hc.1.symm)]

theorem Cache.wf_set (c : Cache) (hwf : c.WF) (i : Nat) (s1 : CacheSet)
    (h1 : s1.WF (2 ^ (32 - (c.offset + c.setLen)))) :
    (Cache.mk (c.cacheSet.set i s1) c.offset c.setLen).WF := by
  refine ⟨hwf.bits, ?_, ?_⟩
  · show (c.cacheSet.set i s1).length = _
    rw [List.length_set]; exact hwf.len
  · intro j hj
    show ((c.cacheSet.set i s1).getD j default).WF _
    rw [getD_set']
    split
    · exact h1
    · exact hwf.sets j hj

theorem Cache.write_access_spec (c : Cache) (hwf : c.WF) (a : Nat) (h : c.hit a = true) :
    (c.write_access a).1.WF ∧ (c.write_access a).1.offset = c.offset ∧
      (c.write_access a).1.setLen = c.setLen ∧
      ∀ b d, (c.write_access a).1.Has b d ↔
        (sameBlock c.offset b a ∧ d = 1) ∨ (¬ sameBlock c.offset b a ∧ c.Has b d) := by
  have hn : c.setLen ≤ 32 := by have := hwf.bits; omega
  have hs := hwf.sets _ (c.getSetIndex_lt hn a)
  have hf : ∃ i, i < (c.cacheSet.getD (c.getSetIndex a) default).capacity ∧
      (c.cacheSet.getD (c.getSetIndex a) default).Hit (c.getTag a) i := by
    obtain ⟨d, i, hi, hh, _⟩ := (c.hit_iff a).1 h
    exact ⟨i, hi, hh⟩
  obtain ⟨w1, w2⟩ := CacheSet.contain_write_spec _ hs (c.getTag a) hf
  refine ⟨c.wf_set hwf _ _ w1, rfl, rfl, ?_⟩
  intro b d
  show (Cache.mk _ c.offset c.setLen).Has b d ↔ _
  rw [c.has_set hwf, c.sameBlock_iff hn]
  by_cases hi : c.getSetIndex b = c.getSetIndex a
  · rw [if_pos hi, w2]
    have : c.Has b d ↔ (c.cacheSet.getD (c.getSetIndex a) default).Has (c.getTag b) d := by
      unfold Cache.Has; rw [hi]
    rw [this]
    tauto
  · rw [if_neg hi]
    tauto

theorem Cache.invalid_spec (c : Cache) (hwf : c.WF) (a : Nat) :
    (c.invalid a).WF ∧ (c.invalid a).offset = c.offset ∧ (c.invalid a).setLen = c.setLen ∧
      ∀ b d, (c.invalid a).Has b d ↔ (¬ sameBlock c.offset b a ∧ c.Has b d) := by
  have hn : c.setLen ≤ 32 := by have := hwf.bits; omega
  have hs := hwf.sets _ (c.getSetIndex_lt hn a)
  obtain ⟨w1, w2⟩ := CacheSet.invalid_tag_spec _ hs (c.getTag a)
  refine ⟨c.wf_set hwf _ _ w1, rfl, rfl, ?_⟩
  intro b d
  show (Cache.mk _ c.offset c.setLen).Has b d ↔ _
  rw [c.has_set hwf, c.sameBlock_iff hn]
  by_cases hi : c.getSetIndex b = c.getSetIndex a
  · rw [if_pos hi, w2]
    have : c.Has b d ↔ (c.cacheSet.getD (c.getSetIndex a) default).Has (c.getTag b) d := by
      unfold Cache.Has; rw [hi]
    rw [this]
    tauto
  · rw [if_neg hi]
    tauto

theorem Cache.evict_spec (c : Cache) (hwf : c.WF) (a d : Nat) (ha : a < 2 ^ 32) (hd : d ≤ 1)
    (hmiss : c.hit a = false) :
    ∃ c1 va vf, c.evict a d = some (c1, va, vf) ∧ c1.WF ∧ c1.offset = c.offset ∧
      c1.setLen = c.setLen ∧
      ((vf = 0 ∧ ∀ b e, c1.Has b e ↔ (sameBlock c.offset b a ∧ e = d) ∨ c.Has b e) ∨
       (∃ vd, c.Has va vd ∧ va < 2 ^ 32 ∧ vf = (if vd = 1 then 3 else 1) ∧
          ∀ b e, c1.Has b e ↔
            (sameBlock c.offset b a ∧ e = d) ∨ (¬ sameBlock c.offset b va ∧ c.Has b e))) := by
  have hn : c.setLen ≤ 32 := by have := hwf.bits; omega
  have hidx := c.getSetIndex_lt hn a
  have hs := hwf.sets _ hidx
  have hr : (c.read_access a).2.1 = false := hmiss
  have hfst := c.read_access_fst a
  have hm : ∀ i, i < (c.cacheSet.getD (c.getSetIndex a) default).capacity →
      ¬ (c.cacheSet.getD (c.getSetIndex a) default).Hit (c.getTag a) i := by
    intro i hi hh
    exact (c.hit_false_iff a).1 hmiss _ ⟨i, hi, hh, rfl⟩
  obtain ⟨w1, w2⟩ := CacheSet.evict_tag_spec _ hs (c.getTag a) d (c.getTag_lt hwf.bits a ha) hd hm
  have hloc : ∀ b e, c.getSetIndex b = c.getSetIndex a →
      (c.Has b e ↔ (c.cacheSet.getD (c.getSetIndex a) default).Has (c.getTag b) e) := by
    intro b e hi
    unfold Cache.Has; rw [hi]
  unfold Cache.evict
  simp only [hr, hfst, Bool.false_eq_true, if_false]
  rcases w2 with ⟨f0, hh⟩ | ⟨vd, hv, f1, hh⟩
  · rw [f0]
    refine ⟨_, _, _, rfl, c.wf_set hwf _ _ w1, rfl, rfl, Or.inl ⟨rfl, ?_⟩⟩
    intro b e
    show (Cache.mk _ c.offset c.setLen).Has b e ↔ _
    rw [c.has_set hwf, c.sameBlock_iff hn]
    by_cases hi : c.getSetIndex b = c.getSetIndex a
    · rw [if_pos hi, hh, hloc b e hi]
      tauto
    · rw [if_neg hi]
      tauto
  · have hvalid : ((c.cacheSet.getD (c.getSetIndex a) default).evict (c.getTag a) d).2.2 &&& VALID ≠ 0 := by
      rw [f1]
      split <;> decide
    rw [if_pos hvalid]
    have hvt : ((c.cacheSet.getD (c.getSetIndex a) default).evict (c.getTag a) d).2.1
        < 2 ^ (32 - (c.offset + c.setLen)) := by
      obtain ⟨i, hi, hit, _⟩ := hv
      rw [← hit.2]
      exact hs.tag_lt i hi
    obtain ⟨v1, v2, v3⟩ := c.victim_addr hwf.bits _ _ hvt hidx
    refine ⟨_, _, _, rfl, c.wf_set hwf _ _ w1, rfl, rfl, Or.inr ⟨vd, ?_, v1, f1, ?_⟩⟩
    · unfold Cache.Has
      show ((c.cacheSet.getD (c.getSetIndex _) default).Has (c.getTag _) vd)
      rw [v2, v3]
      exact hv
    · intro b e
      show (Cache.mk _ c.offset c.setLen).Has b e ↔ _
      rw [c.has_set hwf, c.sameBlock_iff hn, c.sameBlock_iff hn]
      show _ ↔ _ ∨ (¬ (c.getSetIndex b = c.getSetIndex _ ∧ c.getTag b = c.getTag _) ∧ _)
      rw [v2, v3]
      by_cases hi : c.getSetIndex b = c.getSetIndex a
      · rw [if_pos hi, hh, hloc b e hi]
        tauto
      · rw [if_neg hi]
        tauto

theorem Cache.has_dirty_le (c : Cache) (hwf : c.WF) (a d : Nat) (h : c.Has a d) : d ≤ 1 := by
  have hn : c.setLen ≤ 32 := by have := hwf.bits; omega
  obtain ⟨i, hi, _, hd⟩ := h
  rw [← hd]
  exact (hwf.sets _ (c.getSetIndex_lt hn a)).dirty_le i hi

/-! ## The hierarchy -/

theorem CacheSet.new_wf (B cap : Nat) (hB : 0 < B) (hc : 0 < cap) : (CacheSet.new cap).WF B := by
  have hl : ∀ i, (CacheSet.new cap).lines.getD i default = ⟨0, 0, 0⟩ := by
    intro i
    exact getD_replicate' cap i _
  refine ⟨?_, hc, hc, ?_, ?_, ?_⟩
  · show cap = (List.replicate cap _).length
    rw [List.length_replicate]
  · intro t i j _ _ h1
    unfold CacheSet.Hit at h1
    rw [hl] at h1
    exact absurd rfl h1.1
  · intro i _
    rw [hl]; exact hB
  · intro i _
    rw [hl]; exact Nat.zero_le 1

theorem CacheSet.new_has (cap t d : Nat) : ¬ (CacheSet.new cap).Has t d := by
  rintro ⟨i, _, h1, _⟩
  unfold CacheSet.Hit at h1
  have hl : (CacheSet.new cap).lines.getD i default = ⟨0, 0, 0⟩ := getD_replicate' cap i _
  rw [hl] at h1
  exact absurd rfl h1.1

theorem CacheSet.default_has (t d : Nat) : ¬ (default : CacheSet).Has t d := by
  rintro ⟨i, hi, _, _⟩
  exact absurd hi (Nat.not_lt_zero i)

theorem Cache.empty_getD (o n cap i : Nat) :
    (Cache.empty o n cap).cacheSet.getD i default =
      if i < 2 ^ n then CacheSet.new cap else default := by
  show (List.replicate (1 <<< n) (CacheSet.new cap)).getD i default = _
  rw [Nat.one_shiftLeft, List.getD_eq_getElem?_getD, List.getElem?_replicate]
  split <;> rfl

theorem Cache.empty_wf (o n cap : Nat) (h : o + n ≤ 32) (hc : 0 < cap) :
    (Cache.empty o n cap).WF := by
  refine ⟨h, ?_, ?_⟩
  · show (List.replicate (1 <<< n) (CacheSet.new cap)).length = 2 ^ n
    rw [List.length_replicate, Nat.one_shiftLeft]
  · intro i hi
    rw [Cache.empty_getD]
    have hi2 : i < 2 ^ n := hi
    rw [if_pos hi2]
    exact CacheSet.new_wf _ cap (Nat.two_pow_pos _) hc

theorem Cache.empty_has (o n cap a d : Nat) : ¬ (Cache.empty o n cap).Has a d := by
  unfold Cache.Has
  rw [Cache.empty_getD]
  split
  · exact CacheSet.new_has cap _ d
  · exact CacheSet.default_has _ d

theorem CacheSystem.empty_inv (o n1 c1 n2 c2 : Nat) (h1 : o + n1 ≤ 32) (h2 : o + n2 ≤ 32)
    (hc1 : 0 < c1) (hc2 : 0 < c2) : (CacheSystem.empty o n1 c1 n2 c2).Inv :=
  ⟨Cache.empty_wf o n1 c1 h1 hc1, Cache.empty_wf o n2 c2 h2 hc2, rfl,
    fun a d1 _ h => absurd h (Cache.empty_has o n1 c1 a d1)⟩

theorem demote_dirty (vd : Nat) (h : vd ≤ 1) :
    (((if vd = 1 then 3 else 1) &&& DIRTY) >>> 1) % 256 = vd := by
  interval_cases vd <;> decide

theorem CacheSystem.load_spec (l1 l2 : Cache) (wf1 : l1.WF) (wf2 : l2.WF)
    (off : l2.offset = l1.offset) (code2 a d : Nat) (ha : a < 2 ^ 32) (hd : d ≤ 1)
    (hm1 : l1.hit a = false) (excl : ∀ b d1 d2, l1.Has b d1 → ¬ l2.Has b d2) :
    ∃ sys1 mem, CacheSystem.load l1 l2 ⟨RM, code2, NOWRITEMEM⟩ a d
        = some (sys1, ⟨RM, code2, mem⟩) ∧
      sys1.L1.WF ∧ sys1.L2.WF ∧ sys1.L1.offset = l1.offset ∧ sys1.L1.setLen = l1.setLen ∧
      sys1.L2.offset = l2.offset ∧ sys1.L2.setLen = l2.setLen ∧
      Loaded l1 l2 a d sys1 mem := by
  obtain ⟨m1, va, vf, e1, w1, o1, n1, hcase⟩ := l1.evict_spec wf1 a d ha hd hm1
  unfold CacheSystem.load
  simp only [if_true, e1]
  rcases hcase with ⟨f0, h1⟩ | ⟨vd, hv, hva, f1, h1⟩
  · subst f0
    refine ⟨⟨m1, l2⟩, NOWRITEMEM, ?_, w1, wf2, o1, n1, rfl, rfl, Loaded.free m1 h1⟩
    rfl
  · have hvd : vd ≤ 1 := l1.has_dirty_le wf1 va vd hv
    have hvalid : vf &&& VALID ≠ 0 := by
      rw [f1]; split <;> decide
    have hm2 : l2.hit va = false := by
      rw [l2.hit_false_iff]
      intro e
      exact excl va vd e hv
    obtain ⟨m2, wa, wf, e2, w2, o2, n2, hcase2⟩ := l2.evict_spec wf2 va vd hva hvd hm2
    rw [if_pos hvalid, f1, demote_dirty vd hvd]
    simp only [e2]
    rw [off] at hcase2
    rcases hcase2 with ⟨g0, h2⟩ | ⟨wd, hw, _, g1, h2⟩
    · subst g0
      refine ⟨⟨m1, m2⟩, NOWRITEMEM, ?_, w1, w2, o1, n1, o2, n2,
        Loaded.demote m1 m2 va vd hv h1 h2⟩
      rfl
    · refine ⟨⟨m1, m2⟩, (if wd = 1 then WRITEMEM else NOWRITEMEM), ?_, w1, w2, o1, n1, o2, n2,
        Loaded.spill m1 m2 va vd wa wd hv hw h1 h2⟩
      subst g1
      by_cases hwd : wd = 1
      · simp only [hwd, if_true]
        rfl
      · simp only [hwd, if_false]
        rfl

theorem Cache.has_unique (c : Cache) (hwf : c.WF) (a d e : Nat) (h1 : c.Has a d)
    (h2 : c.Has a e) : d = e := by
  have hn : c.setLen ≤ 32 := by have := hwf.bits; omega
  obtain ⟨i, hi, hh, hd⟩ := h1
  obtain ⟨j, hj, hh2, he⟩ := h2
  have := (hwf.sets _ (c.getSetIndex_lt hn a)).nodup _ i j hi hj hh hh2
  subst this
  exact hd.symm.trans he

theorem Cache.has_same (c : Cache) (hwf : c.WF) (o a b d : Nat) (ho : c.offset = o)
    (h : sameBlock o a b) (h1 : c.Has a d) : c.Has b d := by
  subst ho
  exact (c.has_congr hwf a b d h).1 h1

theorem sameBlock_symm {o a b : Nat} (h : sameBlock o a b) : sameBlock o b a := Eq.symm h

theorem sameBlock_trans {o a b c : Nat} (h : sameBlock o a b) (h2 : sameBlock o b c) :
    sameBlock o a c := Eq.trans h h2

theorem sameBlock_refl (o a : Nat) : sameBlock o a a := rfl

theorem Loaded.has_new {l1 l2 : Cache} {a d : Nat} {sys1 : CacheSystem} {mem : Nat}
    (h : Loaded l1 l2 a d sys1 mem) : sys1.L1.Has a d := by
  cases h with
  | free m1 h1 => exact (h1 a d).2 (Or.inl ⟨sameBlock_refl _ _, rfl⟩)
  | demote m1 m2 va vd hv h1 h2 => exact (h1 a d).2 (Or.inl ⟨sameBlock_refl _ _, rfl⟩)
  | spill m1 m2 va vd wa wd hv hw h1 h2 => exact (h1 a d).2 (Or.inl ⟨sameBlock_refl _ _, rfl⟩)

theorem Loaded.exclusive {l1 l2 : Cache} {a d : Nat} {sys1 : CacheSystem} {mem : Nat}
    (wf1 : l1.WF) (wf2 : l2.WF) (off : l2.offset = l1.offset) (hm1 : ∀ e, ¬ l1.Has a e) (hm2 : ∀ e, ¬ l2.Has a e) (hx : ∀ b d1 d2, l1.Has b d1 → ¬ l2.Has b d2)
    (h : Loaded l1 l2 a d sys1 mem) :
    ∀ b d1 d2, sys1.L1.Has b d1 → ¬ sys1.L2.Has b d2 := by
  intro b d1 d2 k1 k2
  cases h with
  | free m1 h1 =>
    rcases (h1 b d1).1 k1 with ⟨s, _⟩ | k
    · exact hm2 d2 (l2.has_same wf2 _ b a d2 off s k2)
    · exact hx b d1 d2 k k2
  | demote m1 m2 va vd hv h1 h2 =>
    rcases (h1 b d1).1 k1 with ⟨s, _⟩ | ⟨ns, k⟩ <;> rcases (h2 b d2).1 k2 with ⟨s2, _⟩ | k3
    · exact hm1 vd (l1.has_same wf1 _ va a vd rfl (sameBlock_trans (sameBlock_symm s2) s) hv)
    · exact hm2 d2 (l2.has_same wf2 _ b a d2 off s k3)
    · exact ns s2
    · exact hx b d1 d2 k k3
  | spill m1 m2 va vd wa wd hv hw h1 h2 =>
    rcases (h1 b d1).1 k1 with ⟨s, _⟩ | ⟨ns, k⟩ <;> rcases (h2 b d2).1 k2 with ⟨s2, _⟩ | ⟨_, k3⟩
    · exact hm1 vd (l1.has_same wf1 _ va a vd rfl (sameBlock_trans (sameBlock_symm s2) s) hv)
    · exact hm2 d2 (l2.has_same wf2 _ b a d2 off s k3)
    · exact ns s2
    · exact hx b d1 d2 k k3

theorem Loaded.l2_miss {l1 l2 : Cache} {a d : Nat} {sys1 : CacheSystem} {mem : Nat}
    (wf1 : l1.WF) (hm1 : ∀ e, ¬ l1.Has a e) (hm2 : ∀ e, ¬ l2.Has a e)
    (h : Loaded l1 l2 a d sys1 mem) : ∀ e, ¬ sys1.L2.Has a e := by
  intro e k
  cases h with
  | free m1 h1 => exact hm2 e k
  | demote m1 m2 va vd hv h1 h2 =>
    rcases (h2 a e).1 k with ⟨s, _⟩ | k3
    · exact hm1 vd (l1.has_same wf1 _ va a vd rfl (sameBlock_symm s) hv)
    · exact hm2 e k3
  | spill m1 m2 va vd wa wd hv hw h1 h2 =>
    rcases (h2 a e).1 k with ⟨s, _⟩ | ⟨_, k3⟩
    · exact hm1 vd (l1.has_same wf1 _ va a vd rfl (sameBlock_symm s) hv)
    · exact hm2 e k3

theorem Loaded.mem_cases {l1 l2 : Cache} {a d : Nat} {sys1 : CacheSystem} {mem : Nat}
    (h : Loaded l1 l2 a d sys1 mem) :
    mem = NOWRITEMEM ∨ mem = WRITEMEM := by
  cases h with
  | free m1 h1 => exact Or.inl rfl
  | demote m1 m2 va vd hv h1 h2 => exact Or.inl rfl
  | spill m1 m2 va vd wa wd hv hw h1 h2 =>
    by_cases hwd : wd = 1
    · rw [if_pos hwd]; exact Or.inr rfl
    · rw [if_neg hwd]; exact Or.inl rfl

/-- A block that was dirty before is dirty after, or memory is written. -/
theorem Loaded.dirty_kept {l1 l2 : Cache} {a d : Nat} {sys1 : CacheSystem} {mem : Nat}
    (wf1 : l1.WF) (wf2 : l2.WF) (off : l2.offset = l1.offset)
    (h : Loaded l1 l2 a d sys1 mem) (b : Nat)
    (hb : l1.Has b 1 ∨ l2.Has b 1) :
    sys1.L1.Has b 1 ∨ sys1.L2.Has b 1 ∨ mem = WRITEMEM := by
  cases h with
  | free m1 h1 =>
    rcases hb with k | k
    · exact Or.inl ((h1 b 1).2 (Or.inr k))
    · exact Or.inr (Or.inl k)
  | demote m1 m2 va vd hv h1 h2 =>
    rcases hb with k | k
    · by_cases s : sameBlock l1.offset b va
      · have e : 1 = vd := l1.has_unique wf1 va 1 vd (l1.has_same wf1 _ b va 1 rfl s k) hv
        exact Or.inr (Or.inl ((h2 b 1).2 (Or.inl ⟨s, e⟩)))
      · exact Or.inl ((h1 b 1).2 (Or.inr ⟨s, k⟩))
    · exact Or.inr (Or.inl ((h2 b 1).2 (Or.inr k)))
  | spill m1 m2 va vd wa wd hv hw h1 h2 =>
    rcases hb with k | k
    · by_cases s : sameBlock l1.offset b va
      · have e : 1 = vd := l1.has_unique wf1 va 1 vd (l1.has_same wf1 _ b va 1 rfl s k) hv
        exact Or.inr (Or.inl ((h2 b 1).2 (Or.inl ⟨s, e⟩)))
      · exact Or.inl ((h1 b 1).2 (Or.inr ⟨s, k⟩))
    · by_cases s : sameBlock l1.offset b wa
      · have e : 1 = wd := l2.has_unique wf2 wa 1 wd (l2.has_same wf2 _ b wa 1 off s k) hw
        rw [if_pos e.symm]
        exact Or.inr (Or.inr rfl)
      · exact Or.inr (Or.inl ((h2 b 1).2 (Or.inr ⟨s, k⟩)))

/-- A block that is dirty after was dirty before, or is the loaded block. -/
theorem Loaded.dirty_origin {l1 l2 : Cache} {a d : Nat} {sys1 : CacheSystem} {mem : Nat}
    (wf1 : l1.WF)
    (h : Loaded l1 l2 a d sys1 mem) (b : Nat)
    (hb : sys1.L1.Has b 1 ∨ sys1.L2.Has b 1) :
    (sameBlock l1.offset b a ∧ d = 1) ∨ l1.Has b 1 ∨ l2.Has b 1 := by
  cases h with
  | free m1 h1 =>
    rcases hb with k | k
    · rcases (h1 b 1).1 k with ⟨s, e⟩ | k1
      · exact Or.inl ⟨s, e.symm⟩
      · exact Or.inr (Or.inl k1)
    · exact Or.inr (Or.inr k)
  | demote m1 m2 va vd hv h1 h2 =>
    rcases hb with k | k
    · rcases (h1 b 1).1 k with ⟨s, e⟩ | ⟨_, k1⟩
      · exact Or.inl ⟨s, e.symm⟩
      · exact Or.inr (Or.inl k1)
    · rcases (h2 b 1).1 k with ⟨s, e⟩ | k1
      · subst e
        exact Or.inr (Or.inl (l1.has_same wf1 _ va b 1 rfl (sameBlock_symm s) hv))
      · exact Or.inr (Or.inr k1)
  | spill m1 m2 va vd wa wd hv hw h1 h2 =>
    rcases hb with k | k
    · rcases (h1 b 1).1 k with ⟨s, e⟩ | ⟨_, k1⟩
      · exact Or.inl ⟨s, e.symm⟩
      · exact Or.inr (Or.inl k1)
    · rcases (h2 b 1).1 k with ⟨s, e⟩ | ⟨_, k1⟩
      · subst e
        exact Or.inr (Or.inl (l1.has_same wf1 _ va b 1 rfl (sameBlock_symm s) hv))
      · exact Or.inr (Or.inr k1)

/-- Memory is written exactly when L1 replaced a block and L2 replaced a dirty one. -/
theorem Loaded.mem_iff {l1 l2 : Cache} {a d : Nat} {sys1 : CacheSystem} {mem : Nat}
    (wf1 : l1.WF) (wf2 : l2.WF) (off : l2.offset = l1.offset) (hm1 : ∀ e, ¬ l1.Has a e) (hx : ∀ b d1 d2, l1.Has b d1 → ¬ l2.Has b d2)
    (h : Loaded l1 l2 a d sys1 mem) :
    mem = WRITEMEM ↔
      (∃ va vd, l1.Has va vd ∧ ∀ e, ¬ sys1.L1.Has va e) ∧
      (∃ wa, l2.Has wa 1 ∧ ∀ e, ¬ sys1.L2.Has wa e) := by
  cases h with
  | free m1 h1 =>
    constructor
    · intro e; exact absurd e (by decide)
    · rintro ⟨⟨va, vd, k, nk⟩, _⟩
      exact absurd ((h1 va vd).2 (Or.inr k)) (nk vd)
  | demote m1 m2 va vd hv h1 h2 =>
    constructor
    · intro e; exact absurd e (by decide)
    · rintro ⟨_, ⟨wa, k, nk⟩⟩
      exact absurd ((h2 wa 1).2 (Or.inr k)) (nk 1)
  | spill m1 m2 va vd wa wd hv hw h1 h2 =>
    constructor
    · intro e
      have hwd : wd = 1 := by
        by_contra hne
        rw [if_neg hne] at e
        exact absurd e (by decide)
      subst hwd
      refine ⟨⟨va, vd, hv, ?_⟩, ⟨wa, hw, ?_⟩⟩
      · intro e1 k
        rcases (h1 va e1).1 k with ⟨s, _⟩ | ⟨ns, _⟩
        · exact hm1 vd (l1.has_same wf1 _ va a vd rfl s hv)
        · exact ns (sameBlock_refl _ _)
      · intro e1 k
        rcases (h2 wa e1).1 k with ⟨s, _⟩ | ⟨ns, _⟩
        · exact hx va vd 1 hv (l2.has_same wf2 _ wa va 1 off s hw)
        · exact ns (sameBlock_refl _ _)
    · rintro ⟨_, ⟨wb, k, nk⟩⟩
      by_cases s : sameBlock l1.offset wb wa
      · have e : 1 = wd := l2.has_unique wf2 wa 1 wd (l2.has_same wf2 _ wb wa 1 off s k) hw
        rw [if_pos e.symm]
      · exact absurd ((h2 wb 1).2 (Or.inr ⟨s, k⟩)) (nk 1)

theorem Cache.dirtyHit_iff (c : Cache) (hwf : c.WF) (a : Nat) : c.dirtyHit a ↔ c.Has a 1 := by
  unfold Cache.dirtyHit
  constructor
  · rintro ⟨h1, h2⟩
    obtain ⟨d, hd⟩ := (c.hit_iff a).1 h1
    rw [c.read_dirty hwf a d hd] at h2
    subst h2
    exact hd
  · intro h
    exact ⟨(c.hit_iff a).2 ⟨1, h⟩, c.read_dirty hwf a 1 h⟩

theorem CacheSystem.holdsDirty_iff (sys : CacheSystem) (inv : sys.Inv) (b : Nat) :
    sys.holdsDirty b ↔ (sys.L1.Has b 1 ∨ sys.L2.Has b 1) := by
  unfold CacheSystem.holdsDirty
  rw [sys.L1.dirtyHit_iff inv.wf1, sys.L2.dirtyHit_iff inv.wf2]

theorem CacheSystem.read_hit (sys : CacheSystem) (a : Nat) (h : sys.L1.hit a = true) :
    sys.read a = some (sys, ⟨RH, NA, NOWRITEMEM⟩) := by
  have h1 : (sys.L1.read_access a).2.1 = true := h
  unfold CacheSystem.read
  simp only [h1, sys.L1.read_access_fst a, if_true]
  rfl

theorem CacheSystem.read_miss_eq (sys : CacheSystem) (a : Nat) (h : sys.L1.hit a = false) :
    sys.read a = CacheSystem.load sys.L1 (sys.lookupL2 a)
      ⟨RM, sys.lookupCode a, NOWRITEMEM⟩ a (sys.lookupDirty a) := by
  have h1 : (sys.L1.read_access a).2.1 = false := h
  unfold CacheSystem.read CacheSystem.lookupL2 CacheSystem.lookupCode CacheSystem.lookupDirty
  simp only [h1, sys.L1.read_access_fst a, sys.L2.read_access_fst a, Bool.false_eq_true, if_false]
  by_cases h2 : sys.L2.hit a = true
  · have h3 : (sys.L2.read_access a).2.1 = true := h2
    simp only [h2, h3, if_true]
  · have h3 : ¬ (sys.L2.read_access a).2.1 = true := h2
    simp only [h2, h3, if_false, Bool.false_eq_true]

theorem CacheSystem.lookupL2_spec (sys : CacheSystem) (inv : sys.Inv) (a : Nat) :
    (sys.lookupL2 a).WF ∧ (sys.lookupL2 a).offset = sys.L1.offset ∧
      (sys.lookupL2 a).setLen = sys.L2.setLen ∧
      ∀ b e, (sys.lookupL2 a).Has b e ↔ (¬ sameBlock sys.L1.offset b a ∧ sys.L2.Has b e) := by
  unfold CacheSystem.lookupL2
  by_cases h2 : sys.L2.hit a = true
  · rw [if_pos h2]
    obtain ⟨w, o, n, hh⟩ := sys.L2.invalid_spec inv.wf2 a
    rw [inv.off] at hh
    exact ⟨w, o.trans inv.off, n, hh⟩
  · rw [if_neg h2]
    refine ⟨inv.wf2, inv.off, rfl, ?_⟩
    intro b e
    constructor
    · intro k
      refine ⟨?_, k⟩
      intro s
      exact h2 ((sys.L2.hit_iff a).2 ⟨e, sys.L2.has_same inv.wf2 _ b a e inv.off s k⟩)
    · exact fun k => k.2

theorem CacheSystem.lookupDirty_spec (sys : CacheSystem) (inv : sys.Inv) (a : Nat) :
    sys.lookupDirty a ≤ 1 ∧ (∀ e, sys.L2.Has a e → sys.lookupDirty a = e) ∧
      (sys.lookupDirty a = 1 → sys.L2.Has a 1) := by
  unfold CacheSystem.lookupDirty
  by_cases h2 : sys.L2.hit a = true
  · rw [if_pos h2]
    obtain ⟨d, hd⟩ := (sys.L2.hit_iff a).1 h2
    rw [sys.L2.read_dirty inv.wf2 a d hd]
    refine ⟨sys.L2.has_dirty_le inv.wf2 a d hd, ?_, ?_⟩
    · intro e he
      exact sys.L2.has_unique inv.wf2 a d e hd he
    · intro e1
      rw [← e1]; exact hd
  · rw [if_neg h2]
    refine ⟨Nat.zero_le 1, ?_, ?_⟩
    · intro e he
      exact absurd ((sys.L2.hit_iff a).2 ⟨e, he⟩) h2
    · intro e1
      exact absurd e1 (by decide)

/-- A read that misses L1: it returns, and the state after is described by `Loaded`. -/
theorem CacheSystem.read_miss_spec (sys : CacheSystem) (inv : sys.Inv) (a : Nat)
    (ha : a < 2 ^ 32) (hm : sys.L1.hit a = false) :
    ∃ sys1 mem, sys.read a = some (sys1, ⟨RM, sys.lookupCode a, mem⟩) ∧ sys1.Inv ∧
      sys1.L1.offset = sys.L1.offset ∧ sys1.L1.setLen = sys.L1.setLen ∧
      sys1.L2.setLen = sys.L2.setLen ∧
      Loaded sys.L1 (sys.lookupL2 a) a (sys.lookupDirty a) sys1 mem := by
  obtain ⟨w2, o2, n2, hh⟩ := sys.lookupL2_spec inv a
  obtain ⟨dle, _, _⟩ := sys.lookupDirty_spec inv a
  have hx : ∀ b d1 d2, sys.L1.Has b d1 → ¬ (sys.lookupL2 a).Has b d2 := by
    intro b d1 d2 k1 k2
    exact inv.excl b d1 d2 k1 ((hh b d2).1 k2).2
  have hm1 : ∀ e, ¬ sys.L1.Has a e := (sys.L1.hit_false_iff a).1 hm
  have hm2 : ∀ e, ¬ (sys.lookupL2 a).Has a e := by
    intro e k
    exact ((hh a e).1 k).1 (sameBlock_refl _ _)
  obtain ⟨sys1, mem, e1, v1, v2, p1, q1, p2, q2, hl⟩ :=
    CacheSystem.load_spec sys.L1 (sys.lookupL2 a) inv.wf1 w2 o2 (sys.lookupCode a) a
      (sys.lookupDirty a) ha dle hm hx
  refine ⟨sys1, mem, ?_, ⟨v1, v2, ?_, ?_⟩, p1, q1, q2.trans n2, hl⟩
  · rw [sys.read_miss_eq a hm, e1]
  · rw [p2, o2, p1]
  · exact Loaded.exclusive inv.wf1 w2 o2 hm1 hm2 hx hl

theorem CacheSystem.write_eq (sys : CacheSystem) (a : Nat) :
    sys.write a =
      if sys.L1.hit a then (⟨(sys.L1.write_access a).1, sys.L2⟩, ⟨WH, NA, NOWRITEMEM⟩)
      else if sys.L2.hit a then (⟨sys.L1, (sys.L2.write_access a).1⟩, ⟨WM, WH, NOWRITEMEM⟩)
      else (sys, ⟨WM, WM, WRITEMEM⟩) := by
  have f1 : (sys.L1.write_access a).2.1 = sys.L1.hit a := sys.L1.access_found a true
  have f2 : (sys.L2.write_access a).2.1 = sys.L2.hit a := sys.L2.access_found a true
  unfold CacheSystem.write
  simp only [f1, f2]
  by_cases h1 : sys.L1.hit a = true
  · simp only [h1, if_true]
  · have e1 : (sys.L1.write_access a).1 = sys.L1 :=
      sys.L1.access_miss_fst a true (by rw [← Bool.not_eq_true]; rw [← f1] at h1; exact h1)
    simp only [h1, if_false, e1, Bool.false_eq_true]
    by_cases h2 : sys.L2.hit a = true
    · simp only [h2, if_true]
    · have e2 : (sys.L2.write_access a).1 = sys.L2 :=
        sys.L2.access_miss_fst a true (by rw [← Bool.not_eq_true]; rw [← f2] at h2; exact h2)
      simp only [h2, if_false, e2, Bool.false_eq_true]

theorem CacheSystem.write_spec (sys : CacheSystem) (inv : sys.Inv) (a : Nat) :
    (sys.write a).1.Inv ∧ (sys.write a).1.L1.offset = sys.L1.offset ∧
      (sys.write a).1.L1.setLen = sys.L1.setLen ∧ (sys.write a).1.L2.setLen = sys.L2.setLen ∧
      (∀ b, sys.L1.Has b 1 ∨ sys.L2.Has b 1 →
        (sys.write a).1.L1.Has b 1 ∨ (sys.write a).1.L2.Has b 1) ∧
      (∀ b, (sys.write a).1.L1.Has b 1 ∨ (sys.write a).1.L2.Has b 1 →
        sameBlock sys.L1.offset b a ∨ sys.L1.Has b 1 ∨ sys.L2.Has b 1) := by
  rw [sys.write_eq a]
  by_cases h1 : sys.L1.hit a = true
  · rw [if_pos h1]
    obtain ⟨w, o, n, hh⟩ := sys.L1.write_access_spec inv.wf1 a h1
    obtain ⟨d0, hd0⟩ := (sys.L1.hit_iff a).1 h1
    refine ⟨⟨w, inv.wf2, inv.off.trans o.symm, ?_⟩, o, n, rfl, ?_, ?_⟩
    · intro b d1 d2 k1 k2
      rcases (hh b d1).1 k1 with ⟨s, _⟩ | ⟨_, k⟩
      · exact inv.excl b d0 d2 (sys.L1.has_same inv.wf1 _ a b d0 rfl (sameBlock_symm s) hd0) k2
      · exact inv.excl b d1 d2 k k2
    · intro b hb
      rcases hb with k | k
      · by_cases s : sameBlock sys.L1.offset b a
        · exact Or.inl ((hh b 1).2 (Or.inl ⟨s, rfl⟩))
        · exact Or.inl ((hh b 1).2 (Or.inr ⟨s, k⟩))
      · exact Or.inr k
    · intro b hb
      rcases hb with k | k
      · rcases (hh b 1).1 k with ⟨s, _⟩ | ⟨_, k1⟩
        · exact Or.inl s
        · exact Or.inr (Or.inl k1)
      · exact Or.inr (Or.inr k)
  · rw [if_neg h1]
    by_cases h2 : sys.L2.hit a = true
    · rw [if_pos h2]
      obtain ⟨w, o, n, hh⟩ := sys.L2.write_access_spec inv.wf2 a h2
      rw [inv.off] at hh
      obtain ⟨d0, hd0⟩ := (sys.L2.hit_iff a).1 h2
      refine ⟨⟨inv.wf1, w, o.trans inv.off, ?_⟩, rfl, rfl, n, ?_, ?_⟩
      · intro b d1 d2 k1 k2
        rcases (hh b d2).1 k2 with ⟨s, _⟩ | ⟨_, k⟩
        · exact inv.excl b d1 d0 k1 (sys.L2.has_same inv.wf2 _ a b d0 inv.off (sameBlock_symm s) hd0)
        · exact inv.excl b d1 d2 k1 k
      · intro b hb
        rcases hb with k | k
        · exact Or.inl k
        · by_cases s : sameBlock sys.L1.offset b a
          · exact Or.inr ((hh b 1).2 (Or.inl ⟨s, rfl⟩))
          · exact Or.inr ((hh b 1).2 (Or.inr ⟨s, k⟩))
      · intro b hb
        rcases hb with k | k
        · exact Or.inr (Or.inl k)
        · rcases (hh b 1).1 k with ⟨s, _⟩ | ⟨_, k1⟩
          · exact Or.inl s
          · exact Or.inr (Or.inr k1)
    · rw [if_neg h2]
      exact ⟨inv, rfl, rfl, rfl, fun b hb => hb, fun b hb => Or.inr hb⟩

/-- Every step from a state satisfying the invariant returns and keeps it. -/
theorem step_inv (sys : CacheSystem) (inv : sys.Inv) (op : Op) (ha : op.addr < 2 ^ 32) :
    ∃ sys1 r, step sys op = some (sys1, r) ∧ sys1.Inv ∧ sys1.L1.offset = sys.L1.offset := by
  cases op with
  | R a =>
    by_cases h : sys.L1.hit a = true
    · exact ⟨sys, _, sys.read_hit a h, inv, rfl⟩
    · obtain ⟨sys1, mem, e, i1, o1, _⟩ :=
        sys.read_miss_spec inv a ha (by rw [← Bool.not_eq_true]; exact h)
      exact ⟨sys1, _, e, i1, o1⟩
  | W a =>
    obtain ⟨i1, o1, _⟩ := sys.write_spec inv a
    exact ⟨(sys.write a).1, (sys.write a).2, rfl, i1, o1⟩

theorem Trace32.cons {op : Op} {tr : List Op} (h : Trace32 (op :: tr)) :
    op.addr < 2 ^ 32 ∧ Trace32 tr :=
  ⟨h op (List.mem_cons_self op tr), fun x hx => h x (List.mem_cons_of_mem op hx)⟩

/-- Every run from a state satisfying the invariant returns and keeps it. -/
theorem run_inv (tr : List Op) (sys : CacheSystem) (inv : sys.Inv) (htr : Trace32 tr) :
    ∃ sys1 outs, run sys tr = some (sys1, outs) ∧ sys1.Inv ∧
      sys1.L1.offset = sys.L1.offset := by
  induction tr generalizing sys with
  | nil => exact ⟨sys, [], rfl, inv, rfl⟩
  | cons op rest ih =>
    obtain ⟨h1, h2⟩ := htr.cons
    obtain ⟨s1, r, e1, i1, o1⟩ := step_inv sys inv op h1
    obtain ⟨s2, rs, e2, i2, o2⟩ := ih s1 i1 h2
    refine ⟨s2, r :: rs, ?_, i2, o2.trans o1⟩
    simp only [run, e1, e2]

theorem Reachable.inv {s : CacheSystem} (h : Reachable s) : s.Inv := by
  obtain ⟨o, n1, c1, n2, c2, tr, outs, h1, h2, h3, h4, htr, e⟩ := h
  obtain ⟨s1, outs1, e1, i1, _⟩ :=
    run_inv tr _ (CacheSystem.empty_inv o n1 c1 n2 c2 h1 h2 h3 h4) htr
  rw [e1] at e
  cases e
  exact i1

theorem ShiftsDefined.le {o n : Nat} (h : ShiftsDefined o n) : o + n ≤ 32 :=
  Nat.le_of_lt h.1

/-- A state reachable on a geometry with defined shifts is reachable. -/
theorem ReachableDefined.reachable {s : CacheSystem} (h : ReachableDefined s) : Reachable s := by
  obtain ⟨o, n1, c1, n2, c2, tr, outs, h1, h2, h3, h4, htr, e⟩ := h
  exact ⟨o, n1, c1, n2, c2, tr, outs, h1.le, h2.le, h3, h4, htr, e⟩

theorem flags_valid_dirty (wd : Nat) :
    ((if wd = 1 then 3 else 1) &&& VALID ≠ 0 ∧ (if wd = 1 then 3 else 1) &&& DIRTY ≠ 0) ↔
      wd = 1 := by
  by_cases h : wd = 1
  · rw [if_pos h]; exact ⟨fun _ => h, fun _ => by decide⟩
  · rw [if_neg h]
    constructor
    · rintro ⟨_, h2⟩
      exact absurd rfl h2
    · intro h1; exact absurd h1 h

/-- The memory code of the second half of `read`, in terms of the flags the two
`Cache::evict` calls return. -/
theorem CacheSystem.load_mem_flags (l1 l2 : Cache) (wf1 : l1.WF) (wf2 : l2.WF)
    (code2 a d : Nat) (ha : a < 2 ^ 32) (hd : d ≤ 1)
    (hm1 : l1.hit a = false) (hx : ∀ b d1 d2, l1.Has b d1 → ¬ l2.Has b d2)
    (sys1 : CacheSystem) (mem : Nat)
    (e : CacheSystem.load l1 l2 ⟨RM, code2, NOWRITEMEM⟩ a d = some (sys1, ⟨RM, code2, mem⟩)) :
    mem = WRITEMEM ↔
      ∃ m1 va vf m2 wa wf, l1.evict a d = some (m1, va, vf) ∧ vf &&& VALID ≠ 0 ∧
        l2.evict va (((vf &&& DIRTY) >>> 1) % 256) = some (m2, wa, wf) ∧
        wf &&& VALID ≠ 0 ∧ wf &&& DIRTY ≠ 0 := by
  obtain ⟨m1, va, vf, e1, w1, o1, n1, hcase⟩ := l1.evict_spec wf1 a d ha hd hm1
  unfold CacheSystem.load at e
  simp only [if_true, e1] at e
  rcases hcase with ⟨f0, h1⟩ | ⟨vd, hv, hva, f1, h1⟩
  · subst f0
    have e' : mem = NOWRITEMEM := by
      have := (Option.some.inj e)
      exact (congrArg (fun p => p.2.MemAcceState) this).symm
    constructor
    · intro h; rw [e'] at h; exact absurd h (by decide)
    · rintro ⟨m1', va', vf', m2, wa, wf, g1, g2, _⟩
      rw [e1] at g1
      cases g1
      exact absurd rfl g2
  · have hvd : vd ≤ 1 := l1.has_dirty_le wf1 va vd hv
    have hvalid : vf &&& VALID ≠ 0 := by
      rw [f1]; split <;> decide
    have hm2 : l2.hit va = false := by
      rw [l2.hit_false_iff]
      intro e2
      exact hx va vd e2 hv
    obtain ⟨m2, wa, wf, e2, w2, o2, n2, hcase2⟩ := l2.evict_spec wf2 va vd hva hvd hm2
    have earg : (((vf &&& DIRTY) >>> 1) % 256) = vd := by rw [f1]; exact demote_dirty vd hvd
    rw [if_pos hvalid, earg] at e
    simp only [e2] at e
    have key : mem = WRITEMEM ↔ (wf &&& VALID ≠ 0 ∧ wf &&& DIRTY ≠ 0) := by
      rcases hcase2 with ⟨g0, _⟩ | ⟨wd, _, _, g1, _⟩
      · subst g0
        have e' : mem = NOWRITEMEM :=
          (congrArg (fun p => p.2.MemAcceState) (Option.some.inj e)).symm
        constructor
        · intro h; rw [e'] at h; exact absurd h (by decide)
        · rintro ⟨g2, _⟩
          exact absurd rfl g2
      · subst g1
        rw [flags_valid_dirty wd]
        by_cases hwd : wd = 1
        · simp only [hwd, if_true] at e
          have e' : mem = WRITEMEM :=
            (congrArg (fun p => p.2.MemAcceState) (Option.some.inj e)).symm
          exact ⟨fun _ => hwd, fun _ => e'⟩
        · simp only [hwd, if_false] at e
          have e' : mem = NOWRITEMEM :=
            (congrArg (fun p => p.2.MemAcceState) (Option.some.inj e)).symm
          constructor
          · intro h; rw [e'] at h; exact absurd h (by decide)
          · intro h; exact absurd h hwd
    rw [key]
    constructor
    · rintro ⟨g1, g2⟩
      exact ⟨m1, va, vf, m2, wa, wf, e1, hvalid, by rw [earg]; exact e2, g1, g2⟩
    · rintro ⟨m1', va', vf', m2', wa', wf', g1, _, g3, g4, g5⟩
      rw [e1] at g1
      cases g1
      rw [earg, e2] at g3
      cases g3
      exact ⟨g4, g5⟩

/-- A read that misses both levels classifies as miss, miss whenever it returns. -/
theorem CacheSystem.read_miss_codes (sys : CacheSystem) (a : Nat)
    (h1 : sys.L1.hit a = false) (h2 : sys.L2.hit a = false)
    (s1 : CacheSystem) (res : OpRes) (e : sys.read a = some (s1, res)) :
    res.L1AcceState = 2 ∧ res.L2AcceState = 2 := by
  rw [sys.read_miss_eq a h1] at e
  have hc : sys.lookupCode a = RM := by
    unfold CacheSystem.lookupCode
    rw [h2]; rfl
  rw [hc] at e
  unfold CacheSystem.load at e
  simp only [if_true] at e
  split at e
  · exact absurd e (by simp)
  · split at e
    · split at e
      · exact absurd e (by simp)
      · split at e
        · cases e; exact ⟨rfl, rfl⟩
        · cases e; exact ⟨rfl, rfl⟩
    · cases e; exact ⟨rfl, rfl⟩

/-- One step keeps every dirty block dirty, or writes memory. -/
theorem step_dirty_kept (s : CacheSystem) (inv : s.Inv) (op : Op) (ha : op.addr < 2 ^ 32) :
    ∃ s1 res, step s op = some (s1, res) ∧ s1.Inv ∧
      ∀ b, s.L1.Has b 1 ∨ s.L2.Has b 1 →
        s1.L1.Has b 1 ∨ s1.L2.Has b 1 ∨ res.MemAcceState = WRITEMEM := by
  cases op with
  | R a =>
    by_cases h : s.L1.hit a = true
    · refine ⟨s, _, s.read_hit a h, inv, ?_⟩
      intro b hb
      rcases hb with k | k
      · exact Or.inl k
      · exact Or.inr (Or.inl k)
    · have hm : s.L1.hit a = false := by rw [← Bool.not_eq_true]; exact h
      obtain ⟨s1, mem, e, i1, _, _, _, hl⟩ := s.read_miss_spec inv a ha hm
      obtain ⟨w2, o2, _, hL2⟩ := s.lookupL2_spec inv a
      obtain ⟨_, hd, _⟩ := s.lookupDirty_spec inv a
      refine ⟨s1, _, e, i1, ?_⟩
      intro b hb
      show _ ∨ _ ∨ mem = WRITEMEM
      rcases hb with k | k
      · exact Loaded.dirty_kept inv.wf1 w2 o2 hl b (Or.inl k)
      · by_cases sb : sameBlock s.L1.offset b a
        · have k2 : s.L2.Has a 1 := s.L2.has_same inv.wf2 _ b a 1 inv.off sb k
          have e1 : s.lookupDirty a = 1 := hd 1 k2
          have hn := hl.has_new
          rw [e1] at hn
          exact Or.inl (s1.L1.has_same i1.wf1 _ a b 1 (by assumption) (sameBlock_symm sb) hn)
        · exact Loaded.dirty_kept inv.wf1 w2 o2 hl b (Or.inr ((hL2 b 1).2 ⟨sb, k⟩))
  | W a =>
    obtain ⟨i1, _, _, _, hk, _⟩ := s.write_spec inv a
    refine ⟨(s.write a).1, (s.write a).2, rfl, i1, ?_⟩
    intro b hb
    rcases hk b hb with k | k
    · exact Or.inl k
    · exact Or.inr (Or.inl k)

/-- A block that is dirty after a step was dirty before it, or the step is a
write to that block. -/
theorem step_dirty_origin (s : CacheSystem) (inv : s.Inv) (op : Op) (s1 : CacheSystem)
    (res : OpRes) (ha : op.addr < 2 ^ 32) (e : step s op = some (s1, res)) (b : Nat)
    (hb : s1.L1.Has b 1 ∨ s1.L2.Has b 1) :
    (s.L1.Has b 1 ∨ s.L2.Has b 1) ∨ ∃ w, op = Op.W w ∧ sameBlock s.L1.offset b w := by
  cases op with
  | R a =>
    left
    by_cases h : s.L1.hit a = true
    · have e0 : step s (Op.R a) = some (s, ⟨RH, NA, NOWRITEMEM⟩) := s.read_hit a h
      rw [e0] at e
      cases e
      exact hb
    · have hm : s.L1.hit a = false := by rw [← Bool.not_eq_true]; exact h
      obtain ⟨s2, mem, e2, _, _, _, _, hl⟩ := s.read_miss_spec inv a ha hm
      have e3 : step s (Op.R a) = some (s2, ⟨RM, s.lookupCode a, mem⟩) := e2
      rw [e3] at e
      cases e
      obtain ⟨_, _, _, hL2⟩ := s.lookupL2_spec inv a
      obtain ⟨_, _, hd⟩ := s.lookupDirty_spec inv a
      rcases Loaded.dirty_origin inv.wf1 hl b hb with ⟨sb, d1⟩ | k | k
      · exact Or.inr (s.L2.has_same inv.wf2 _ a b 1 inv.off (sameBlock_symm sb) (hd d1))
      · exact Or.inl k
      · exact Or.inr ((hL2 b 1).1 k).2
  | W a =>
    have e0 : s.write a = (s1, res) := Option.some.inj e
    have hs : s1 = (s.write a).1 := by rw [e0]
    subst hs
    obtain ⟨_, _, _, _, _, ho⟩ := s.write_spec inv a
    rcases ho b hb with k | k
    · exact Or.inr ⟨a, rfl, k⟩
    · exact Or.inl k

/-- Dirty blocks after a run were dirty before it or were written by it. -/
theorem run_dirty_origin (tr : List Op) (s : CacheSystem) (inv : s.Inv) (htr : Trace32 tr)
    (s1 : CacheSystem) (outs : List OpRes) (e : run s tr = some (s1, outs)) (b : Nat)
    (hb : s1.L1.Has b 1 ∨ s1.L2.Has b 1) :
    (s.L1.Has b 1 ∨ s.L2.Has b 1) ∨ ∃ w, Op.W w ∈ tr ∧ sameBlock s.L1.offset b w := by
  induction tr generalizing s outs with
  | nil =>
    cases e
    exact Or.inl hb
  | cons op rest ih =>
    obtain ⟨h1, h2⟩ := htr.cons
    obtain ⟨s2, r, e1, i2, o2⟩ := step_inv s inv op h1
    obtain ⟨s3, rs, e2, _, _⟩ := run_inv rest s2 i2 h2
    have e3 : run s (op :: rest) = some (s3, r :: rs) := by simp only [run, e1, e2]
    rw [e3] at e
    cases e
    rcases ih s2 i2 h2 rs e2 with k | ⟨w, hw, sw⟩
    · rcases step_dirty_origin s inv op s2 r h1 e1 b k with k2 | ⟨w, hw, sw⟩
      · exact Or.inl k2
      · exact Or.inr ⟨w, by rw [hw]; exact List.mem_cons_self _ _, sw⟩
    · rw [o2] at sw
      exact Or.inr ⟨w, List.mem_cons_of_mem _ hw, sw⟩

/-- A read of a hierarchy without dirty blocks returns memory code 5. -/
theorem read_clean (s : CacheSystem) (inv : s.Inv) (a : Nat) (ha : a < 2 ^ 32)
    (hc : ∀ b, ¬ (s.L1.Has b 1 ∨ s.L2.Has b 1)) (s1 : CacheSystem) (res : OpRes)
    (e : s.read a = some (s1, res)) : res.MemAcceState = NOWRITEMEM := by
  by_cases h : s.L1.hit a = true
  · rw [s.read_hit a h] at e
    cases e
    rfl
  · have hm : s.L1.hit a = false := by rw [← Bool.not_eq_true]; exact h
    obtain ⟨s2, mem, e2, _, _, _, _, hl⟩ := s.read_miss_spec inv a ha hm
    rw [e2] at e
    cases e
    obtain ⟨w2, o2, _, hL2⟩ := s.lookupL2_spec inv a
    have hx : ∀ b d1 d2, s.L1.Has b d1 → ¬ (s.lookupL2 a).Has b d2 := by
      intro b d1 d2 k1 k2
      exact inv.excl b d1 d2 k1 ((hL2 b d2).1 k2).2
    have hm1 : ∀ e, ¬ s.L1.Has a e := (s.L1.hit_false_iff a).1 hm
    rcases hl.mem_cases with k | k
    · exact k
    · obtain ⟨_, ⟨wa, kw, _⟩⟩ := (Loaded.mem_iff inv.wf1 w2 o2 hm1 hx hl).1 k
      exact absurd (Or.inr ((hL2 wa 1).1 kw).2) (hc wa)

/-- A run without writes from a hierarchy without dirty blocks only returns
memory code 5. -/
theorem run_clean (tr : List Op) (s : CacheSystem) (inv : s.Inv) (htr : Trace32 tr)
    (hw : ∀ w, Op.W w ∉ tr) (hc : ∀ b, ¬ (s.L1.Has b 1 ∨ s.L2.Has b 1))
    (s1 : CacheSystem) (outs : List OpRes) (e : run s tr = some (s1, outs)) :
    ∀ r, r ∈ outs → r.MemAcceState = NOWRITEMEM := by
  induction tr generalizing s outs with
  | nil =>
    cases e
    intro r hr
    exact absurd hr (List.not_mem_nil r)
  | cons op rest ih =>
    obtain ⟨h1, h2⟩ := htr.cons
    obtain ⟨s2, r, e1, i2, _⟩ := step_inv s inv op h1
    obtain ⟨s3, rs, e2, _, _⟩ := run_inv rest s2 i2 h2
    have e3 : run s (op :: rest) = some (s3, r :: rs) := by simp only [run, e1, e2]
    rw [e3] at e
    cases e
    have hw2 : ∀ w, Op.W w ∉ rest := fun w hm => hw w (List.mem_cons_of_mem _ hm)
    have hc2 : ∀ b, ¬ (s2.L1.Has b 1 ∨ s2.L2.Has b 1) := by
      intro b hb
      rcases step_dirty_origin s inv op s2 r h1 e1 b hb with k | ⟨w, hop, _⟩
      · exact hc b k
      · exact hw w (by rw [hop]; exact List.mem_cons_self _ _)
    intro x hx
    rcases List.mem_cons.1 hx with k | k
    · subst k
      cases op with
      | R a => exact read_clean s inv a h1 hc s2 x e1
      | W a => exact absurd (List.mem_cons_self _ _) (hw a)
    · exact ih s2 i2 h2 hw2 hc2 rs e2 x k

/-! ## The claims -/

theorem Cache.evict_some (c : Cache) (a d : Nat) (h : c.hit a = false) :
    ∃ r, c.evict a d = some r := by
  have h1 : (c.read_access a).2.1 = false := h
  unfold Cache.evict
  simp only [h1, Bool.false_eq_true, if_false]
  split
  · exact ⟨_, rfl⟩
  · exact ⟨_, rfl⟩

theorem reachable_empty (o n1 c1 n2 c2 : Nat) (h1 : o + n1 ≤ 32) (h2 : o + n2 ≤ 32)
    (hc1 : 1 ≤ c1) (hc2 : 1 ≤ c2) : Reachable (CacheSystem.empty o n1 c1 n2 c2) :=
  ⟨o, n1, c1, n2, c2, [], [], h1, h2, hc1, hc2, fun _ h => absurd h (List.not_mem_nil _), rfl⟩

/-- C1. Exclusivity, on the geometries on which the shifts of the source are
defined: on a hierarchy with one block size for both levels (`o` offset bits),
`o + n1 < 32`, `o + n2 < 32`, at most `2 ^ 30` sets per level and set
capacities at least 1, started empty, every trace of reads and writes of
32-bit addresses runs to the end, and in the state it reaches no address is
reported as a hit by both `L1.read_access` and `L2.read_access`. -/
theorem exclusivity (o n1 c1 n2 c2 : Nat) (h1 : ShiftsDefined o n1) (h2 : ShiftsDefined o n2)
    (hc1 : 1 ≤ c1) (hc2 : 1 ≤ c2) (tr : List Op) (htr : Trace32 tr) :
    ∃ s outs, run (CacheSystem.empty o n1 c1 n2 c2) tr = some (s, outs) ∧
      ∀ a, ¬ ((s.L1.read_access a).2.1 = true ∧ (s.L2.read_access a).2.1 = true) := by
  obtain ⟨s, outs, e, inv, _⟩ :=
    run_inv tr _ (CacheSystem.empty_inv o n1 c1 n2 c2 h1.le h2.le hc1 hc2) htr
  refine ⟨s, outs, e, ?_⟩
  rintro a ⟨k1, k2⟩
  obtain ⟨d1, g1⟩ := (s.L1.hit_iff a).1 k1
  obtain ⟨d2, g2⟩ := (s.L2.hit_iff a).1 k2
  exact inv.excl a d1 d2 g1 g2

theorem exclusivity_witness :
    ∃ s outs, run (CacheSystem.empty 4 4 1 4 1) [Op.R 0, Op.W 0, Op.R 256, Op.R 0] = some (s, outs) ∧
      ∀ a, ¬ ((s.L1.read_access a).2.1 = true ∧ (s.L2.read_access a).2.1 = true) :=
  exclusivity 4 4 1 4 1 (by decide) (by decide) (by decide) (by decide)
    [Op.R 0, Op.W 0, Op.R 256, Op.R 0] (by decide)

/-- C2. The assertion of `Cache::evict` never fails, on the geometries on which
the shifts of the source are defined: on a hierarchy with one block size,
`o + n1 < 32`, `o + n2 < 32`, at most `2 ^ 30` sets per level and capacities
at least 1, started empty, every trace runs to the end (`run` is `none`
exactly when an assertion fails),
and from the state reached every read returns; when it misses L1, the call
`L1.evict(addr, dirty)` succeeds, and if it reports a valid victim, that victim
is not a hit in L2 (as left by the lookup) and the call `L2.evict` on it
succeeds. -/
theorem evict_assert_never_fails (o n1 c1 n2 c2 : Nat) (h1 : ShiftsDefined o n1)
    (h2 : ShiftsDefined o n2) (hc1 : 1 ≤ c1) (hc2 : 1 ≤ c2) (tr : List Op)
    (htr : Trace32 tr) :
    ∃ s outs, run (CacheSystem.empty o n1 c1 n2 c2) tr = some (s, outs) ∧
      ∀ a, a < 2 ^ 32 →
        (∃ r, s.read a = some r) ∧
        ((s.L1.read_access a).2.1 = false →
          ∃ m1 va vf, s.L1.evict a (s.lookupDirty a) = some (m1, va, vf) ∧
            (vf &&& VALID ≠ 0 →
              ((s.lookupL2 a).read_access va).2.1 = false ∧
              ∃ r2, (s.lookupL2 a).evict va (((vf &&& DIRTY) >>> 1) % 256) = some r2)) := by
  obtain ⟨s, outs, e, inv, _⟩ :=
    run_inv tr _ (CacheSystem.empty_inv o n1 c1 n2 c2 h1.le h2.le hc1 hc2) htr
  refine ⟨s, outs, e, ?_⟩
  intro a ha
  refine ⟨?_, ?_⟩
  · obtain ⟨s1, r, e1, _⟩ := step_inv s inv (Op.R a) ha
    exact ⟨_, e1⟩
  · intro hm
    obtain ⟨dle, _, _⟩ := s.lookupDirty_spec inv a
    obtain ⟨w2, o2, n2', hh⟩ := s.lookupL2_spec inv a
    obtain ⟨m1, va, vf, e1, _, _, _, hcase⟩ :=
      s.L1.evict_spec inv.wf1 a (s.lookupDirty a) ha dle hm
    refine ⟨m1, va, vf, e1, ?_⟩
    intro hv
    rcases hcase with ⟨f0, _⟩ | ⟨vd, hvd, _, _, _⟩
    · subst f0
      exact absurd rfl hv
    · have hmiss : (s.lookupL2 a).hit va = false := by
        rw [Cache.hit_false_iff]
        intro e2 k
        exact inv.excl va vd e2 hvd ((hh va e2).1 k).2
      exact ⟨hmiss, Cache.evict_some _ va _ hmiss⟩

theorem evict_assert_never_fails_witness :
    ∃ s outs, run (CacheSystem.empty 4 4 1 4 1) [Op.R 0, Op.W 0, Op.R 256] = some (s, outs) ∧
      ∀ a, a < 2 ^ 32 →
        (∃ r, s.read a = some r) ∧
        ((s.L1.read_access a).2.1 = false →
          ∃ m1 va vf, s.L1.evict a (s.lookupDirty a) = some (m1, va, vf) ∧
            (vf &&& VALID ≠ 0 →
              ((s.lookupL2 a).read_access va).2.1 = false ∧
              ∃ r2, (s.lookupL2 a).evict va (((vf &&& DIRTY) >>> 1) % 256) = some r2)) :=
  evict_assert_never_fails 4 4 1 4 1 (by decide) (by decide) (by decide) (by decide)
    [Op.R 0, Op.W 0, Op.R 256] (by decide)

/-- C3. Read, L1 hit: in every hierarchy state, when `addr` is a hit in L1,
`CacheSystem::read(addr)` returns `(1, 0, 5)` and the hierarchy after the call
is the hierarchy before it (all blocks and cursors of both levels). -/
theorem read_l1_hit (sys : CacheSystem) (addr : Nat)
    (h : (sys.L1.read_access addr).2.1 = true) :
    sys.read addr = some (sys, ⟨1, 0, 5⟩) :=
  sys.read_hit addr h

theorem read_l1_hit_witness :
    (exampleL1Hit.L1.read_access 5).2.1 = true ∧
      exampleL1Hit.read 5 = some (exampleL1Hit, ⟨1, 0, 5⟩) :=
  ⟨by decide, read_l1_hit exampleL1Hit 5 (by decide)⟩

theorem reachable_exampleDemoted : Reachable exampleDemoted :=
  ⟨4, 0, 1, 0, 1, [Op.R 0, Op.W 0, Op.R 16], [⟨2, 2, 5⟩, ⟨3, 0, 5⟩, ⟨2, 2, 5⟩],
    by decide, by decide, by decide, by decide, by decide, by decide⟩

theorem reachableDefined_exampleDemoted : ReachableDefined exampleDemoted :=
  ⟨4, 0, 1, 0, 1, [Op.R 0, Op.W 0, Op.R 16], [⟨2, 2, 5⟩, ⟨3, 0, 5⟩, ⟨2, 2, 5⟩],
    by decide, by decide, by decide, by decide, by decide, by decide⟩

theorem reachable_exampleL1Hit : Reachable exampleL1Hit :=
  ⟨4, 0, 1, 0, 1, [Op.R 0], [⟨2, 2, 5⟩],
    by decide, by decide, by decide, by decide, by decide, by decide⟩

/-- C4. Read, L1 miss (promotion), on the geometries on which the shifts of the
source are defined (`o + n < 32`, at most `2 ^ 30` sets): in every reachable
state, for every 32-bit address that misses L1, `CacheSystem::read` returns L1
code 2 and L2 code 1 if the address was a hit in L2, else L2 code 2; afterwards the address is a hit in
L1 with the dirty bit L2 reported before the read (0 when L2 missed), and it is
not a hit in L2. -/
theorem read_l1_miss (s : CacheSystem) (hr : ReachableDefined s) (addr : Nat)
    (ha : addr < 2 ^ 32)
    (hm : (s.L1.read_access addr).2.1 = false) :
    ∃ s1 res, s.read addr = some (s1, res) ∧
      res.L1AcceState = 2 ∧
      res.L2AcceState = (if (s.L2.read_access addr).2.1 then 1 else 2) ∧
      (s1.L1.read_access addr).2.1 = true ∧
      (s1.L1.read_access addr).2.2 =
        (if (s.L2.read_access addr).2.1 then (s.L2.read_access addr).2.2 else 0) ∧
      (s1.L2.read_access addr).2.1 = false := by
  have inv := hr.reachable.inv
  obtain ⟨s1, mem, e, inv1, _, _, _, hl⟩ := s.read_miss_spec inv addr ha hm
  obtain ⟨w2, o2, _, hh⟩ := s.lookupL2_spec inv addr
  have hm1 : ∀ e, ¬ s.L1.Has addr e := (s.L1.hit_false_iff addr).1 hm
  have hm2 : ∀ e, ¬ (s.lookupL2 addr).Has addr e := by
    intro e k
    exact ((hh addr e).1 k).1 (sameBlock_refl _ _)
  have hnew := hl.has_new
  refine ⟨s1, _, e, rfl, ?_, (s1.L1.hit_iff addr).2 ⟨_, hnew⟩, ?_, ?_⟩
  · show s.lookupCode addr = _
    unfold CacheSystem.lookupCode Cache.hit
    split <;> rfl
  · rw [s1.L1.read_dirty inv1.wf1 addr _ hnew]
    rfl
  · exact (s1.L2.hit_false_iff addr).2 (Loaded.l2_miss inv.wf1 hm1 hm2 hl)

theorem read_l1_miss_witness :
    (exampleDemoted.L1.read_access 0).2.1 = false ∧
    ∃ s1 res, exampleDemoted.read 0 = some (s1, res) ∧
      res.L1AcceState = 2 ∧
      res.L2AcceState = (if (exampleDemoted.L2.read_access 0).2.1 then 1 else 2) ∧
      (s1.L1.read_access 0).2.1 = true ∧
      (s1.L1.read_access 0).2.2 =
        (if (exampleDemoted.L2.read_access 0).2.1
          then (exampleDemoted.L2.read_access 0).2.2 else 0) ∧
      (s1.L2.read_access 0).2.1 = false :=
  ⟨by decide,
    read_l1_miss exampleDemoted reachableDefined_exampleDemoted 0 (by decide) (by decide)⟩

/-- C5. Read, memory code: in every state reachable on a geometry on which the
shifts of the source are defined (`o + n < 32`, at most `2 ^ 30` sets) and for
every 32-bit address, `CacheSystem::read` returns with memory code 6 or 5, and
the code is 6 exactly when the access missed L1, `L1.evict` reported a valid victim and
`L2.evict` of that victim reported a block with both the VALID and the DIRTY
flag; equivalently, exactly when the access missed L1, some block that was a
hit in L1 is no longer one, and some block that L2 held valid and dirty (after
the lookup) is no longer a hit in L2. -/
theorem read_mem_code (s : CacheSystem) (hr : ReachableDefined s) (addr : Nat)
    (ha : addr < 2 ^ 32) :
    ∃ s1 res, s.read addr = some (s1, res) ∧
      (res.MemAcceState = 6 ∨ res.MemAcceState = 5) ∧
      (res.MemAcceState = 6 ↔
        (s.L1.read_access addr).2.1 = false ∧
        ∃ m1 va vf m2 wa wf,
          s.L1.evict addr (s.lookupDirty addr) = some (m1, va, vf) ∧ vf &&& VALID ≠ 0 ∧
          (s.lookupL2 addr).evict va (((vf &&& DIRTY) >>> 1) % 256) = some (m2, wa, wf) ∧
          wf &&& VALID ≠ 0 ∧ wf &&& DIRTY ≠ 0) ∧
      (res.MemAcceState = 6 ↔
        (s.L1.read_access addr).2.1 = false ∧
        (∃ va, (s.L1.read_access va).2.1 = true ∧ (s1.L1.read_access va).2.1 = false) ∧
        (∃ wa, (s.lookupL2 addr).dirtyHit wa ∧ (s1.L2.read_access wa).2.1 = false)) := by
  have inv := hr.reachable.inv
  by_cases hh : s.L1.hit addr = true
  · have hh' : (s.L1.read_access addr).2.1 = true := hh
    refine ⟨s, _, s.read_hit addr hh, Or.inr rfl, ?_, ?_⟩
    · constructor
      · intro h; exact absurd h (by decide)
      · rintro ⟨h, _⟩
        rw [hh'] at h
        exact absurd h (by decide)
    · constructor
      · intro h; exact absurd h (by decide)
      · rintro ⟨h, _⟩
        rw [hh'] at h
        exact absurd h (by decide)
  · have hm : s.L1.hit addr = false := by rw [← Bool.not_eq_true]; exact hh
    have hm' : (s.L1.read_access addr).2.1 = false := hm
    obtain ⟨s1, mem, e, inv1, _, _, _, hl⟩ := s.read_miss_spec inv addr ha hm
    obtain ⟨w2, o2, _, hL2⟩ := s.lookupL2_spec inv addr
    obtain ⟨dle, _, _⟩ := s.lookupDirty_spec inv addr
    have hx : ∀ b d1 d2, s.L1.Has b d1 → ¬ (s.lookupL2 addr).Has b d2 := by
      intro b d1 d2 k1 k2
      exact inv.excl b d1 d2 k1 ((hL2 b d2).1 k2).2
    have hm1 : ∀ e, ¬ s.L1.Has addr e := (s.L1.hit_false_iff addr).1 hm
    have el : CacheSystem.load s.L1 (s.lookupL2 addr) ⟨RM, s.lookupCode addr, NOWRITEMEM⟩ addr
        (s.lookupDirty addr) = some (s1, ⟨RM, s.lookupCode addr, mem⟩) := by
      rw [← s.read_miss_eq addr hm]; exact e
    refine ⟨s1, _, e, ?_, ?_, ?_⟩
    · rcases hl.mem_cases with h | h
      · exact Or.inr h
      · exact Or.inl h
    · show mem = WRITEMEM ↔ _
      rw [CacheSystem.load_mem_flags s.L1 (s.lookupL2 addr) inv.wf1 w2 _ addr _ ha dle hm hx
        s1 mem el]
      exact ⟨fun h => ⟨hm', h⟩, fun h => h.2⟩
    · show mem = WRITEMEM ↔ _
      rw [Loaded.mem_iff inv.wf1 w2 o2 hm1 hx hl]
      constructor
      · rintro ⟨⟨va, vd, k1, k2⟩, ⟨wa, k3, k4⟩⟩
        exact ⟨hm', ⟨va, (s.L1.hit_iff va).2 ⟨vd, k1⟩, (s1.L1.hit_false_iff va).2 k2⟩,
          ⟨wa, ((s.lookupL2 addr).dirtyHit_iff w2 wa).2 k3, (s1.L2.hit_false_iff wa).2 k4⟩⟩
      · rintro ⟨_, ⟨va, k1, k2⟩, ⟨wa, k3, k4⟩⟩
        obtain ⟨vd, k1'⟩ := (s.L1.hit_iff va).1 k1
        exact ⟨⟨va, vd, k1', (s1.L1.hit_false_iff va).1 k2⟩,
          ⟨wa, ((s.lookupL2 addr).dirtyHit_iff w2 wa).1 k3, (s1.L2.hit_false_iff wa).1 k4⟩⟩

theorem read_mem_code_witness :
    ∃ s1 res, exampleDemoted.read 32 = some (s1, res) ∧
      (res.MemAcceState = 6 ∨ res.MemAcceState = 5) ∧
      (res.MemAcceState = 6 ↔
        (exampleDemoted.L1.read_access 32).2.1 = false ∧
        ∃ m1 va vf m2 wa wf,
          exampleDemoted.L1.evict 32 (exampleDemoted.lookupDirty 32) = some (m1, va, vf) ∧
          vf &&& VALID ≠ 0 ∧
          (exampleDemoted.lookupL2 32).evict va (((vf &&& DIRTY) >>> 1) % 256)
            = some (m2, wa, wf) ∧
          wf &&& VALID ≠ 0 ∧ wf &&& DIRTY ≠ 0) ∧
      (res.MemAcceState = 6 ↔
        (exampleDemoted.L1.read_access 32).2.1 = false ∧
        (∃ va, (exampleDemoted.L1.read_access va).2.1 = true ∧
          (s1.L1.read_access va).2.1 = false) ∧
        (∃ wa, (exampleDemoted.lookupL2 32).dirtyHit wa ∧
          (s1.L2.read_access wa).2.1 = false)) :=
  read_mem_code exampleDemoted reachableDefined_exampleDemoted 32 (by decide)

/-- C6. Write outcome classification: in every hierarchy state and for every
address, `CacheSystem::write` returns `(3, 0, 5)` if the address is a hit in
L1, otherwise `(4, 3, 5)` if it is a hit in L2, otherwise `(4, 4, 6)`. -/
theorem write_outcome (sys : CacheSystem) (addr : Nat) :
    (sys.write addr).2 =
      if (sys.L1.read_access addr).2.1 then ⟨3, 0, 5⟩
      else if (sys.L2.read_access addr).2.1 then ⟨4, 3, 5⟩
      else ⟨4, 4, 6⟩ := by
  rw [sys.write_eq addr]
  show _ = (if sys.L1.hit addr then _ else if sys.L2.hit addr then _ else _)
  by_cases h1 : sys.L1.hit addr = true
  · rw [if_pos h1, if_pos h1]; rfl
  · rw [if_neg h1, if_neg h1]
    by_cases h2 : sys.L2.hit addr = true
    · rw [if_pos h2, if_pos h2]; rfl
    · rw [if_neg h2, if_neg h2]; rfl

/-- C7. No write-allocation: in every hierarchy state, a write to an address
that is a hit in neither level returns the hierarchy unchanged, so the address
is still a hit in neither level, and a read of it that follows classifies as
L1 miss, L2 miss (codes 2 and 2) whenever it returns; it does return, for a
32-bit address, in every state reachable on a geometry on which the shifts of
the source are defined (`o + n < 32`, at most `2 ^ 30` sets). -/
theorem write_no_allocate (sys : CacheSystem) (addr : Nat)
    (h1 : (sys.L1.read_access addr).2.1 = false) (h2 : (sys.L2.read_access addr).2.1 = false) :
    (sys.write addr).1 = sys ∧
      ((sys.write addr).1.L1.read_access addr).2.1 = false ∧
      ((sys.write addr).1.L2.read_access addr).2.1 = false ∧
      (∀ s1 res, (sys.write addr).1.read addr = some (s1, res) →
        res.L1AcceState = 2 ∧ res.L2AcceState = 2) ∧
      (ReachableDefined sys → addr < 2 ^ 32 →
        ∃ s1 res, (sys.write addr).1.read addr = some (s1, res) ∧
          res.L1AcceState = 2 ∧ res.L2AcceState = 2) := by
  have g1 : sys.L1.hit addr = false := h1
  have g2 : sys.L2.hit addr = false := h2
  have e : (sys.write addr).1 = sys := by
    rw [sys.write_eq addr, g1, g2]; rfl
  rw [e]
  refine ⟨rfl, h1, h2, fun s1 res er => sys.read_miss_codes addr g1 g2 s1 res er, ?_⟩
  intro hr ha
  obtain ⟨s1, r, er, _⟩ := step_inv sys hr.reachable.inv (Op.R addr) ha
  exact ⟨s1, r, er, sys.read_miss_codes addr g1 g2 s1 r er⟩

theorem write_no_allocate_witness :
    ((exampleDemoted.L1.read_access 32).2.1 = false ∧
      (exampleDemoted.L2.read_access 32).2.1 = false) ∧
    (exampleDemoted.write 32).1 = exampleDemoted ∧
    ∃ s1 res, (exampleDemoted.write 32).1.read 32 = some (s1, res) ∧
      res.L1AcceState = 2 ∧ res.L2AcceState = 2 :=
  ⟨⟨by decide, by decide⟩,
    (write_no_allocate exampleDemoted 32 (by decide) (by decide)).1,
    (write_no_allocate exampleDemoted 32 (by decide) (by decide)).2.2.2.2
      reachableDefined_exampleDemoted (by decide)⟩

/-- C8. Dirty data is never silently dropped, on the geometries on which the
shifts of the source are defined (`o + n < 32`, at most `2 ^ 30` sets): in
every reachable state and for every read or write of a 32-bit address, the
operation returns, and every block that was resident (in L1 or L2) with `dirty = true` before it is still resident
with `dirty = true` after it, unless the operation returned memory code 6; in
particular a dirty block that is resident in neither level afterwards (it was
displaced from L2) comes with memory code 6. -/
theorem dirty_never_dropped (s : CacheSystem) (hr : ReachableDefined s) (op : Op)
    (ha : op.addr < 2 ^ 32) :
    ∃ s1 res, step s op = some (s1, res) ∧
      (∀ b, s.holdsDirty b → s1.holdsDirty b ∨ res.MemAcceState = 6) ∧
      (∀ b, s.holdsDirty b → (s1.L1.read_access b).2.1 = false →
        (s1.L2.read_access b).2.1 = false → res.MemAcceState = 6) := by
  have inv := hr.reachable.inv
  obtain ⟨s1, res, e, i1, hk⟩ := step_dirty_kept s inv op ha
  have main : ∀ b, s.holdsDirty b → s1.holdsDirty b ∨ res.MemAcceState = 6 := by
    intro b hb
    rw [s.holdsDirty_iff inv] at hb
    rw [s1.holdsDirty_iff i1]
    rcases hk b hb with k | k | k
    · exact Or.inl (Or.inl k)
    · exact Or.inl (Or.inr k)
    · exact Or.inr k
  refine ⟨s1, res, e, main, ?_⟩
  intro b hb m1 m2
  rcases main b hb with k | k
  · rcases k with k | k
    · exact absurd k.1 (by rw [m1]; decide)
    · exact absurd k.1 (by rw [m2]; decide)
  · exact k

theorem dirty_never_dropped_witness :
    ∃ s1 res, step exampleDemoted (Op.R 32) = some (s1, res) ∧
      (∀ b, exampleDemoted.holdsDirty b → s1.holdsDirty b ∨ res.MemAcceState = 6) ∧
      (∀ b, exampleDemoted.holdsDirty b → (s1.L1.read_access b).2.1 = false →
        (s1.L2.read_access b).2.1 = false → res.MemAcceState = 6) :=
  dirty_never_dropped exampleDemoted reachableDefined_exampleDemoted (Op.R 32) (by decide)

/-- C9. A never-written block is never written back: on a hierarchy with one
block size (`o` offset bits), a geometry on which the shifts of the source are
defined (`o + n1 < 32`, `o + n2 < 32`, at most `2 ^ 30` sets per level) and
capacities at least 1, started empty, every trace of 32-bit addresses runs to
the end; every block resident with `dirty = true` in the state reached is the block of some write of
the trace, and when the trace has no write no output line has memory code 6
(all have 5). -/
theorem dirty_only_if_written (o n1 c1 n2 c2 : Nat) (h1 : ShiftsDefined o n1)
    (h2 : ShiftsDefined o n2) (hc1 : 1 ≤ c1) (hc2 : 1 ≤ c2) (tr : List Op)
    (htr : Trace32 tr) :
    ∃ s outs, run (CacheSystem.empty o n1 c1 n2 c2) tr = some (s, outs) ∧
      (∀ b, s.holdsDirty b → ∃ w, Op.W w ∈ tr ∧ sameBlock o b w) ∧
      ((∀ w, Op.W w ∉ tr) → ∀ r, r ∈ outs → r.MemAcceState ≠ 6 ∧ r.MemAcceState = 5) := by
  have inv0 := CacheSystem.empty_inv o n1 c1 n2 c2 h1.le h2.le hc1 hc2
  have hc0 : ∀ b, ¬ ((CacheSystem.empty o n1 c1 n2 c2).L1.Has b 1 ∨
      (CacheSystem.empty o n1 c1 n2 c2).L2.Has b 1) := by
    intro b hb
    rcases hb with k | k
    · exact Cache.empty_has o n1 c1 b 1 k
    · exact Cache.empty_has o n2 c2 b 1 k
  obtain ⟨s, outs, e, inv, _⟩ := run_inv tr _ inv0 htr
  refine ⟨s, outs, e, ?_, ?_⟩
  · intro b hb
    rw [s.holdsDirty_iff inv] at hb
    rcases run_dirty_origin tr _ inv0 htr s outs e b hb with k | k
    · exact absurd k (hc0 b)
    · exact k
  · intro hw r hr
    have := run_clean tr _ inv0 htr hw hc0 s outs e r hr
    rw [this]
    exact ⟨by decide, rfl⟩

theorem dirty_only_if_written_witness :
    ∃ s outs, run (CacheSystem.empty 4 0 1 0 1) [Op.R 0, Op.W 0, Op.R 16, Op.R 32]
        = some (s, outs) ∧
      (∀ b, s.holdsDirty b →
        ∃ w, Op.W w ∈ [Op.R 0, Op.W 0, Op.R 16, Op.R 32] ∧ sameBlock 4 b w) ∧
      ((∀ w, Op.W w ∉ [Op.R 0, Op.W 0, Op.R 16, Op.R 32]) →
        ∀ r, r ∈ outs → r.MemAcceState ≠ 6 ∧ r.MemAcceState = 5) :=
  dirty_only_if_written 4 0 1 0 1 (by decide) (by decide) (by decide) (by decide)
    [Op.R 0, Op.W 0, Op.R 16, Op.R 32] (by decide)

theorem scenario_run :
    run (CacheSystem.empty 4 4 1 4 1)
        [Op.R 0x00000000, Op.R 0x00000000, Op.W 0x00000000, Op.R 0x00000100]
      = some (scenarioState, [⟨2, 2, 5⟩, ⟨1, 0, 5⟩, ⟨3, 0, 5⟩, ⟨2, 2, 5⟩]) := by decide

theorem scenario_next (a : Nat)
    (hidx : scenarioState.L1.getSetIndex a = 0) (ht0 : scenarioState.L1.getTag a ≠ 0)
    (ht1 : scenarioState.L1.getTag a ≠ 1) :
    ∃ s1, scenarioState.read a = some (s1, ⟨2, 2, 6⟩) := by
  have hidx2 : scenarioState.L2.getSetIndex a = 0 := hidx
  have e1 : scenarioState.L1.cacheSet.getD 0 default = ⟨[⟨1, 0, 1⟩], 1, 0⟩ := by decide
  have e2 : scenarioState.L2.cacheSet.getD 0 default = ⟨[⟨0, 1, 1⟩], 1, 0⟩ := by decide
  have m1 : scenarioState.L1.hit a = false := by
    rw [Cache.hit_false_iff]
    rintro d ⟨i, hi, hh, _⟩
    rw [hidx, e1] at hi hh
    have hi0 : i = 0 := by
      have : i < 1 := hi
      omega
    subst hi0
    exact ht1 hh.2.symm
  have m2 : scenarioState.L2.hit a = false := by
    rw [Cache.hit_false_iff]
    rintro d ⟨i, hi, hh, _⟩
    rw [hidx2, e2] at hi hh
    have hi0 : i = 0 := by
      have : i < 1 := hi
      omega
    subst hi0
    exact ht0 hh.2.symm
  have r1 : (scenarioState.L1.read_access a).2.1 = false := m1
  have f1 := scenarioState.L1.read_access_fst a
  rw [scenarioState.read_miss_eq a m1]
  have c1 : scenarioState.lookupL2 a = scenarioState.L2 := by
    unfold CacheSystem.lookupL2; rw [m2]; rfl
  have c2 : scenarioState.lookupDirty a = 0 := by
    unfold CacheSystem.lookupDirty; rw [m2]; rfl
  have c3 : scenarioState.lookupCode a = RM := by
    unfold CacheSystem.lookupCode; rw [m2]; rfl
  rw [c1, c2, c3]
  have ev : scenarioState.L1.evict a 0 =
      some (⟨scenarioState.L1.cacheSet.set 0 ⟨[⟨scenarioState.L1.getTag a, 0, 1⟩], 1, 0⟩, 4, 4⟩,
        256, 1) := by
    have es : ∀ t, (CacheSet.mk [⟨1, 0, 1⟩] 1 0).evict t 0 = (⟨[⟨t, 0, 1⟩], 1, 0⟩, 1, 1) :=
      fun _ => rfl
    unfold Cache.evict
    simp only [r1, f1, hidx, e1, es, Bool.false_eq_true, if_false]
    rfl
  unfold CacheSystem.load
  simp only [if_true, ev]
  exact ⟨_, rfl⟩


/-- C10. The scenario of the specification: on the empty hierarchy with 16-byte
blocks (`offset = 4`) and 16 sets (`setLen = 4`) of one line in each level, the
trace `R 0x0, R 0x0, W 0x0, R 0x100` runs and outputs `(2,2,5)`, `(1,0,5)`,
`(3,0,5)`, `(2,2,5)`; from the state reached, a read of any address of set 0
whose tag is neither that of `0x0` nor that of `0x100` returns `(2,2,6)`, and
`R 0x200` is such a read. -/
theorem spec_scenario :
    ∃ s, run (CacheSystem.empty 4 4 1 4 1)
        [Op.R 0x00000000, Op.R 0x00000000, Op.W 0x00000000, Op.R 0x00000100]
        = some (s, [⟨2, 2, 5⟩, ⟨1, 0, 5⟩, ⟨3, 0, 5⟩, ⟨2, 2, 5⟩]) ∧
      (∀ a, s.L1.getSetIndex a = 0 → s.L1.getTag a ≠ s.L1.getTag 0x00000000 →
        s.L1.getTag a ≠ s.L1.getTag 0x00000100 →
        ∃ s1 res, s.read a = some (s1, res) ∧ res = ⟨2, 2, 6⟩ ∧ res.MemAcceState = 6) ∧
      (∃ s1, s.read 0x00000200 = some (s1, ⟨2, 2, 6⟩)) := by
  refine ⟨scenarioState, scenario_run, ?_, ?_⟩
  · intro a hidx ht0 ht1
    obtain ⟨s1, e⟩ := scenario_next a hidx ht0 ht1
    exact ⟨s1, _, e, rfl, rfl⟩
  · exact scenario_next 0x00000200 (by decide) (by decide) (by decide)

/-! ## The claims on sets, addresses and geometry -/

/-- C12. Address round trip: for a level with `offset + setLen ≤ 32` and a
32-bit address `a`, rebuilding `((tag << setLen) | setIndex) << offset` in
32-bit arithmetic from `Cache::getTag(a)` and `Cache::getSetIndex(a)` gives `a`
with its low `offset` bits cleared. -/
theorem address_round_trip (c : Cache) (h : c.offset + c.setLen ≤ 32) (a : Nat)
    (ha : a < 2 ^ 32) :
    ((((c.getTag a <<< c.setLen) % 2 ^ 32) ||| c.getSetIndex a) <<< c.offset) % 2 ^ 32
        = a - a % 2 ^ c.offset ∧
    ((((c.getTag a <<< c.setLen) % 2 ^ 32) ||| c.getSetIndex a) <<< c.offset) % 2 ^ 32
        = (a >>> c.offset) <<< c.offset := by
  have hn : c.setLen ≤ 32 := by omega
  have hpn : 0 < 2 ^ c.setLen := Nat.two_pow_pos _
  have hpo : 0 < 2 ^ c.offset := Nat.two_pow_pos _
  have hx : a >>> c.offset ≤ a := by
    rw [Nat.shiftRight_eq_div_pow]; exact Nat.div_le_self _ _
  have hi : c.getSetIndex a < 2 ^ c.setLen := c.getSetIndex_lt hn a
  have e1 : (c.getTag a <<< c.setLen) % 2 ^ 32 = 2 ^ c.setLen * c.getTag a := by
    rw [Nat.shiftLeft_eq, Nat.mul_comm]
    apply Nat.mod_eq_of_lt
    rw [c.getTag_eq]
    have := Nat.mul_div_le (a >>> c.offset) (2 ^ c.setLen)
    omega
  have e2 : (2 ^ c.setLen * c.getTag a) ||| c.getSetIndex a = a >>> c.offset := by
    rw [← Nat.mul_add_lt_is_or hi, c.getTag_eq, c.getSetIndex_eq hn]
    exact Nat.div_add_mod _ _
  have e3 : (a >>> c.offset) <<< c.offset = a - a % 2 ^ c.offset := by
    rw [Nat.shiftLeft_eq, Nat.shiftRight_eq_div_pow]
    have := Nat.div_add_mod a (2 ^ c.offset)
    rw [Nat.mul_comm] at this
    omega
  have e4 : ((a >>> c.offset) <<< c.offset) % 2 ^ 32 = (a >>> c.offset) <<< c.offset := by
    apply Nat.mod_eq_of_lt
    rw [e3]; omega
  rw [e1, e2, e4]
  exact ⟨e3, rfl⟩

theorem address_round_trip_witness :
    ((((Cache.empty 4 4 1).getTag 0x12345678 <<< 4) % 2 ^ 32 |||
        (Cache.empty 4 4 1).getSetIndex 0x12345678) <<< 4) % 2 ^ 32
        = 0x12345678 - 0x12345678 % 2 ^ 4 ∧
    ((((Cache.empty 4 4 1).getTag 0x12345678 <<< 4) % 2 ^ 32 |||
        (Cache.empty 4 4 1).getSetIndex 0x12345678) <<< 4) % 2 ^ 32
        = (0x12345678 >>> 4) <<< 4 :=
  address_round_trip (Cache.empty 4 4 1) (by decide) 0x12345678 (by decide)

/-- C13. Set install contract: for a set of capacity `N ≥ 1` (`N` lines), cursor
below `N` and dirty fields 0 or 1, `CacheSet::evict(tag, d)` does the
following. If some line is invalid, the new block `(tag, d, valid)` is written
into the first invalid line `k`, the result is tag 0 with flags 0, and the
cursor, the capacity and every other line are unchanged. If every line is
valid, the line at the cursor is overwritten with the new block, the cursor
becomes `(cursor + 1) % N`, every other line is unchanged, and the result
carries the overwritten tag, the VALID flag, and the DIRTY flag exactly when
the overwritten line was dirty. -/
theorem set_install_contract (s : CacheSet) (hc : s.capacity = s.lines.length)
    (hN : 1 ≤ s.capacity) (hidx : s.idx < s.capacity)
    (hd : ∀ i, i < s.capacity → (s.lines.getD i default).dirty ≤ 1) (tag d : Nat) :
    ((∃ i, i < s.capacity ∧ (s.lines.getD i default).valid = 0) →
      ∃ k, k < s.capacity ∧ (s.lines.getD k default).valid = 0 ∧
        (∀ j, j < k → (s.lines.getD j default).valid ≠ 0) ∧
        s.evict tag d = (⟨s.lines.set k ⟨tag, d, 1⟩, s.capacity, s.idx⟩, 0, 0) ∧
        (s.evict tag d).1.lines.getD k default = ⟨tag, d, 1⟩ ∧
        ∀ j, j ≠ k → (s.evict tag d).1.lines.getD j default = s.lines.getD j default) ∧
    ((∀ i, i < s.capacity → (s.lines.getD i default).valid ≠ 0) →
      (s.evict tag d).1 =
        ⟨s.lines.set s.idx ⟨tag, d, 1⟩, s.capacity, (s.idx + 1) % s.capacity⟩ ∧
      (s.evict tag d).1.lines.getD s.idx default = ⟨tag, d, 1⟩ ∧
      (∀ j, j ≠ s.idx → (s.evict tag d).1.lines.getD j default = s.lines.getD j default) ∧
      (s.evict tag d).2.1 = (s.lines.getD s.idx default).tag ∧
      (s.evict tag d).2.2 &&& VALID ≠ 0 ∧
      ((s.evict tag d).2.2 &&& DIRTY ≠ 0 ↔ (s.lines.getD s.idx default).dirty = 1)) := by
  have hpos : 0 < s.capacity := hN
  refine ⟨?_, ?_⟩
  · rintro ⟨i, hi, hv⟩
    rcases s.evictLoop_cases s.capacity 0 with ⟨k, _, hk2, hk3, hk4, hk5⟩ | ⟨hall, _⟩
    · have hk : k < s.capacity := by omega
      have e : s.evict tag d = (⟨s.lines.set k ⟨tag, d, 1⟩, s.capacity, s.idx⟩, 0, 0) := by
        unfold CacheSet.evict
        rw [hk5]
      refine ⟨k, hk, hk3, fun j hj => hk4 j (Nat.zero_le j) hj, e, ?_, ?_⟩
      · rw [e, s.line_set k s.idx _ hc hk, if_pos rfl]
      · intro j hj
        rw [e, s.line_set k s.idx _ hc hk, if_neg hj]
    · exact absurd hv (hall i (Nat.zero_le i) (by omega))
  · intro hall
    have hnone : s.evictLoop s.capacity 0 = none := by
      rcases s.evictLoop_cases s.capacity 0 with ⟨k, _, hk2, hk3, _, _⟩ | ⟨_, h⟩
      · exact absurd hk3 (hall k (by omega))
      · exact h
    have e : s.evict tag d =
        (⟨s.lines.set s.idx ⟨tag, d, 1⟩, s.capacity, (s.idx + 1) % s.capacity⟩,
          (s.lines.getD s.idx default).tag,
          ((0 ||| VALID) ||| (1 <<< (s.lines.getD s.idx default).dirty)) % 256) := by
      unfold CacheSet.evict
      rw [hnone]
    have hf := evict_flags _ (hd s.idx hidx)
    refine ⟨by rw [e], ?_, ?_, by rw [e], ?_, ?_⟩
    · rw [e, s.line_set s.idx _ _ hc hidx, if_pos rfl]
    · intro j hj
      rw [e, s.line_set s.idx _ _ hc hidx, if_neg hj]
    · rw [e]
      show ((0 ||| VALID) ||| (1 <<< (s.lines.getD s.idx default).dirty)) % 256 &&& VALID ≠ 0
      rw [hf]
      split <;> decide
    · rw [e]
      show ((0 ||| VALID) ||| (1 <<< (s.lines.getD s.idx default).dirty)) % 256 &&& DIRTY ≠ 0
        ↔ _
      rw [hf]
      by_cases h1 : (s.lines.getD s.idx default).dirty = 1
      · rw [if_pos h1]
        exact ⟨fun _ => h1, fun _ => by decide⟩
      · rw [if_neg h1]
        exact ⟨fun h => absurd rfl h, fun h => absurd h h1⟩

theorem set_install_contract_witness :
    (∀ i, i < exampleFullSet.capacity → (exampleFullSet.lines.getD i default).valid ≠ 0) ∧
    (exampleFullSet.evict 5 0).1 = ⟨[⟨5, 0, 1⟩, ⟨9, 0, 1⟩], 2, 1⟩ ∧
    (exampleFullSet.evict 5 0).1.lines.getD 0 default = ⟨5, 0, 1⟩ ∧
    (∀ j, j ≠ 0 →
      (exampleFullSet.evict 5 0).1.lines.getD j default = exampleFullSet.lines.getD j default) ∧
    (exampleFullSet.evict 5 0).2.1 = 7 ∧
    (exampleFullSet.evict 5 0).2.2 &&& VALID ≠ 0 ∧
    ((exampleFullSet.evict 5 0).2.2 &&& DIRTY ≠ 0 ↔
      (exampleFullSet.lines.getD 0 default).dirty = 1) :=
  ⟨by decide,
    (set_install_contract exampleFullSet (by decide) (by decide) (by decide) (by decide)
      5 0).2 (by decide)⟩

theorem getD_of_mem {α : Type} (l : List α) (x d : α) (h : x ∈ l) :
    ∃ i, i < l.length ∧ l.getD i d = x := by
  obtain ⟨i, hi, e⟩ := List.getElem_of_mem h
  refine ⟨i, hi, ?_⟩
  rw [List.getD_eq_getElem?_getD, List.getElem?_eq_getElem hi]
  exact e

/-- Sets of a well-formed level are well formed. -/
theorem Cache.WF.mem {c : Cache} (hwf : c.WF) (cs : CacheSet) (h : cs ∈ c.cacheSet) :
    cs.WF (2 ^ (32 - (c.offset + c.setLen))) := by
  obtain ⟨i, hi, e⟩ := getD_of_mem c.cacheSet cs default h
  rw [← e]
  exact hwf.sets i (by rw [← hwf.len]; exact hi)

/-- C14. No duplicate tags: on a hierarchy with one block size, a geometry on
which the shifts of the source are defined (`o + n1 < 32`, `o + n2 < 32`, at
most `2 ^ 30` sets per level) and capacities at least 1, started empty, every
trace of 32-bit addresses runs to the end, and in the state reached every set
of L1 and of L2 holds at most one valid block for any tag: two valid lines of a
set with the same tag are the same line. -/
theorem no_duplicate_tags (o n1 c1 n2 c2 : Nat) (h1 : ShiftsDefined o n1)
    (h2 : ShiftsDefined o n2) (hc1 : 1 ≤ c1) (hc2 : 1 ≤ c2) (tr : List Op)
    (htr : Trace32 tr) :
    ∃ s outs, run (CacheSystem.empty o n1 c1 n2 c2) tr = some (s, outs) ∧
      ∀ cs, cs ∈ s.L1.cacheSet ∨ cs ∈ s.L2.cacheSet →
        ∀ i j, i < cs.capacity → j < cs.capacity →
          (cs.lines.getD i default).valid ≠ 0 → (cs.lines.getD j default).valid ≠ 0 →
          (cs.lines.getD i default).tag = (cs.lines.getD j default).tag → i = j := by
  obtain ⟨s, outs, e, inv, _⟩ :=
    run_inv tr _ (CacheSystem.empty_inv o n1 c1 n2 c2 h1.le h2.le hc1 hc2) htr
  refine ⟨s, outs, e, ?_⟩
  intro cs hcs i j hi hj vi vj ht
  rcases hcs with k | k
  · exact (inv.wf1.mem cs k).nodup _ i j hi hj ⟨vi, ht⟩ ⟨vj, rfl⟩
  · exact (inv.wf2.mem cs k).nodup _ i j hi hj ⟨vi, ht⟩ ⟨vj, rfl⟩

theorem no_duplicate_tags_witness :
    ∃ s outs, run (CacheSystem.empty 4 1 2 0 2)
        [Op.R 0, Op.R 32, Op.W 0, Op.R 64, Op.R 0, Op.R 96] = some (s, outs) ∧
      ∀ cs, cs ∈ s.L1.cacheSet ∨ cs ∈ s.L2.cacheSet →
        ∀ i j, i < cs.capacity → j < cs.capacity →
          (cs.lines.getD i default).valid ≠ 0 → (cs.lines.getD j default).valid ≠ 0 →
          (cs.lines.getD i default).tag = (cs.lines.getD j default).tag → i = j :=
  no_duplicate_tags 4 1 2 0 2 (by decide) (by decide) (by decide) (by decide)
    [Op.R 0, Op.R 32, Op.W 0, Op.R 64, Op.R 0, Op.R 96] (by decide)

/-- A line that passes the test of `contain`/`invalid` is a line of the vector. -/
theorem CacheSet.Hit.lt_length {s : CacheSet} {t k : Nat} (h : s.Hit t k) :
    k < s.lines.length := by
  by_contra hk
  have e : s.lines.getD k default = default := by
    rw [List.getD_eq_getElem?_getD, List.getElem?_eq_none (Nat.le_of_not_lt hk)]
    rfl
  unfold CacheSet.Hit at h
  rw [e] at h
  exact h.1 rfl

/-- C18. Set invalidate: for every set and tag, when some valid line carries the
tag, `CacheSet::invalid(tag)` clears the valid field of the lowest such line `k`
and changes nothing else (tags, dirty fields, the valid fields of the other
lines, capacity and cursor are the same); when no valid line carries the tag
the set is unchanged; and when no two valid lines carry the tag,
`CacheSet::contain(tag, false)` reports absent afterwards. -/
theorem set_invalidate (s : CacheSet) (tag : Nat) :
    ((∃ i, i < s.capacity ∧ s.Hit tag i) →
      ∃ k, k < s.capacity ∧ s.Hit tag k ∧ (∀ j, j < k → ¬ s.Hit tag j) ∧
        s.invalid tag =
          ⟨s.lines.set k { s.lines.getD k default with valid := 0 }, s.capacity, s.idx⟩ ∧
        ((s.invalid tag).lines.getD k default).valid = 0 ∧
        (∀ j, ((s.invalid tag).lines.getD j default).tag = (s.lines.getD j default).tag ∧
          ((s.invalid tag).lines.getD j default).dirty = (s.lines.getD j default).dirty ∧
          (j ≠ k →
            ((s.invalid tag).lines.getD j default).valid = (s.lines.getD j default).valid))) ∧
    ((∀ i, i < s.capacity → ¬ s.Hit tag i) → s.invalid tag = s) ∧
    ((∀ i j, i < s.capacity → j < s.capacity → s.Hit tag i → s.Hit tag j → i = j) →
      ((s.invalid tag).contain tag false).2.1 = false) := by
  unfold CacheSet.invalid
  rcases s.invalidLoop_cases tag s.capacity 0 with ⟨k, _, hk2, hk3, hk4, hk5⟩ | ⟨hno, heq⟩
  · have hk : k < s.capacity := by omega
    have hl : k < s.lines.length := hk3.lt_length
    have hline : ∀ j, (CacheSet.mk (s.lines.set k { s.lines.getD k default with valid := 0 })
        s.capacity s.idx).lines.getD j default =
        if j = k then { s.lines.getD k default with valid := 0 } else s.lines.getD j default := by
      intro j
      show (s.lines.set k _).getD j default = _
      rw [getD_set']
      by_cases h : j = k
      · subst h
        rw [if_pos ⟨rfl, hl⟩, if_pos rfl]
      · rw [if_neg (fun h' => h h'.1.symm), if_neg h]
    rw [hk5]
    refine ⟨?_, ?_, ?_⟩
    · intro _
      refine ⟨k, hk, hk3, fun j hj => hk4 j (Nat.zero_le j) hj, rfl, ?_, ?_⟩
      · rw [hline, if_pos rfl]
      · intro j
        rw [hline]
        by_cases h : j = k
        · subst h
          rw [if_pos rfl]
          exact ⟨rfl, rfl, fun h => absurd rfl h⟩
        · rw [if_neg h]
          exact ⟨rfl, rfl, fun _ => rfl⟩
    · intro hnone
      exact absurd hk3 (hnone k hk)
    · intro hnd
      rw [← Bool.not_eq_true, CacheSet.contain_found_iff]
      rintro ⟨i, hi, hh⟩
      unfold CacheSet.Hit at hh
      rw [hline] at hh
      by_cases h : i = k
      · rw [if_pos h] at hh
        exact hh.1 rfl
      · rw [if_neg h] at hh
        exact h (hnd i k hi hk hh hk3)
  · rw [heq]
    refine ⟨?_, fun _ => rfl, ?_⟩
    · rintro ⟨i, hi, hh⟩
      exact absurd hh (hno i (Nat.zero_le i) (by omega))
    · intro _
      rw [← Bool.not_eq_true, CacheSet.contain_found_iff]
      rintro ⟨i, hi, hh⟩
      exact hno i (Nat.zero_le i) (by omega) hh

/-- C19, the claim as stated fails: on a set whose only line holds tag 5 valid
and clean, `contain(5, true)` finds the tag and returns dirty bit 1, while the
dirty field of the matched line was 0 before the call (and is 1 after it). -/
theorem contain_dirty_before_counterexample :
    (exampleCleanSet.contain 5 true).2.1 = true ∧
    (exampleCleanSet.contain 5 true).2.2 = 1 ∧
    (exampleCleanSet.lines.getD 0 default).dirty = 0 ∧
    ((exampleCleanSet.contain 5 true).1.lines.getD 0 default).dirty = 1 := by
  decide

/-- C19, amended. For every set and every tag carried by a valid line, with `k`
the first such line: `CacheSet::contain(tag, isWrite)` reports present and the
dirty bit it returns is the dirty field of line `k` after the call (narrowed to
8 bits). For `isWrite = false` the set is unchanged, so this is also the field
before the call; for `isWrite = true` the field after the call and the
returned bit are 1 whatever the field was before. -/
theorem contain_dirty_after (s : CacheSet) (tag : Nat) (isWrite : Bool)
    (h : ∃ i, i < s.capacity ∧ s.Hit tag i) :
    ∃ k, k < s.capacity ∧ s.Hit tag k ∧ (∀ j, j < k → ¬ s.Hit tag j) ∧
      (s.contain tag isWrite).2.1 = true ∧
      (s.contain tag isWrite).2.2 =
        ((s.contain tag isWrite).1.lines.getD k default).dirty % 256 ∧
      (isWrite = false →
        (s.contain tag isWrite).1 = s ∧
        (s.contain tag isWrite).2.2 = (s.lines.getD k default).dirty % 256) ∧
      (isWrite = true →
        (s.contain tag isWrite).2.2 = 1 ∧
        ((s.contain tag isWrite).1.lines.getD k default).dirty = 1) := by
  obtain ⟨i, hi, hh⟩ := h
  unfold CacheSet.contain
  rcases s.containLoop_cases tag isWrite s.capacity 0 with ⟨k, _, hk2, hk3, hk4, hk5⟩ | ⟨hno, _⟩
  · have hk : k < s.capacity := by omega
    have hl : k < s.lines.length := hk3.lt_length
    refine ⟨k, hk, hk3, fun j hj => hk4 j (Nat.zero_le j) hj, ?_⟩
    rw [hk5]
    cases isWrite with
    | false =>
      refine ⟨rfl, rfl, fun _ => ⟨rfl, rfl⟩, fun h => absurd h (by decide)⟩
    | true =>
      have e : (CacheSet.mk (s.lines.set k { s.lines.getD k default with dirty := 1 })
          s.capacity s.idx).lines.getD k default = { s.lines.getD k default with dirty := 1 } := by
        show (s.lines.set k _).getD k default = _
        rw [getD_set', if_pos ⟨rfl, hl⟩]
      refine ⟨rfl, ?_, fun h => absurd h (by decide), fun _ => ⟨rfl, ?_⟩⟩
      · show 1 = ((CacheSet.mk _ s.capacity s.idx).lines.getD k default).dirty % 256
        rw [e]
        rfl
      · show ((CacheSet.mk _ s.capacity s.idx).lines.getD k default).dirty = 1
        rw [e]
  · exact absurd hh (hno i (Nat.zero_le i) (by omega))

theorem contain_dirty_after_witness :
    ∃ k, k < exampleCleanSet.capacity ∧ exampleCleanSet.Hit 5 k ∧
      (∀ j, j < k → ¬ exampleCleanSet.Hit 5 j) ∧
      (exampleCleanSet.contain 5 true).2.1 = true ∧
      (exampleCleanSet.contain 5 true).2.2 =
        ((exampleCleanSet.contain 5 true).1.lines.getD k default).dirty % 256 ∧
      (true = false →
        (exampleCleanSet.contain 5 true).1 = exampleCleanSet ∧
        (exampleCleanSet.contain 5 true).2.2 =
          (exampleCleanSet.lines.getD k default).dirty % 256) ∧
      (true = true →
        (exampleCleanSet.contain 5 true).2.2 = 1 ∧
        ((exampleCleanSet.contain 5 true).1.lines.getD k default).dirty = 1) :=
  contain_dirty_after exampleCleanSet 5 true ⟨0, by decide, by decide⟩

theorem map_set_same {α β : Type} (f : α → β) (l : List α) (k : Nat) (x d : α)
    (h : f x = f (l.getD k d)) : (l.set k x).map f = l.map f := by
  induction l generalizing k with
  | nil => rfl
  | cons a t ih =>
    cases k with
    | zero =>
      simp only [List.set_cons_zero, List.map_cons]
      rw [h]
      rfl
    | succ n =>
      simp only [List.set_cons_succ, List.map_cons]
      rw [ih n h]

/-- `CacheSet::contain` changes nothing but dirty fields. -/
theorem CacheSet.contain_undirtied (s : CacheSet) (t : Nat) (w : Bool) :
    (s.contain t w).1.undirtied = s.undirtied := by
  unfold CacheSet.contain
  rcases s.containLoop_cases t w s.capacity 0 with ⟨k, _, _, _, _, hk5⟩ | ⟨_, heq⟩
  · rw [hk5]
    cases w with
    | false => rfl
    | true =>
      show CacheSet.mk ((s.lines.set k _).map _) s.capacity s.idx = _
      have e := map_set_same CacheBlock.undirtied s.lines k
        (CacheBlock.mk (s.lines.getD k default).tag 1 (s.lines.getD k default).valid)
        default rfl
      show CacheSet.mk ((s.lines.set k
        (CacheBlock.mk (s.lines.getD k default).tag 1 (s.lines.getD k default).valid)).map
          CacheBlock.undirtied) s.capacity s.idx = _
      rw [e]
      rfl
  · rw [heq]

/-- `Cache::access` changes nothing but dirty fields. -/
theorem Cache.access_undirtied (c : Cache) (a : Nat) (w : Bool) :
    (c.access a w).1.undirtied = c.undirtied := by
  unfold Cache.access
  show Cache.mk ((c.cacheSet.set _ _).map CacheSet.undirtied) c.offset c.setLen = _
  rw [map_set_same CacheSet.undirtied c.cacheSet _ _ default
    (CacheSet.contain_undirtied _ _ _)]
  rfl

/-- The state of a level after a write hit: the dirty field of the one line
that matches is 1. -/
theorem Cache.write_access_hit (c : Cache) (hwf : c.WF) (a : Nat) (h : c.hit a = true) :
    ∃ k, k < (c.cacheSet.getD (c.getSetIndex a) default).capacity ∧
      (c.cacheSet.getD (c.getSetIndex a) default).Hit (c.getTag a) k ∧
      (∀ j, j < (c.cacheSet.getD (c.getSetIndex a) default).capacity →
        (c.cacheSet.getD (c.getSetIndex a) default).Hit (c.getTag a) j → j = k) ∧
      (c.write_access a).1 = c.withDirty a k := by
  have hn : c.setLen ≤ 32 := by have := hwf.bits; omega
  have hs := hwf.sets _ (c.getSetIndex_lt hn a)
  obtain ⟨d, i, hi, hh, _⟩ := (c.hit_iff a).1 h
  rcases (c.cacheSet.getD (c.getSetIndex a) default).containLoop_cases (c.getTag a) true
      (c.cacheSet.getD (c.getSetIndex a) default).capacity 0 with
    ⟨k, _, hk2, hk3, _, hk5⟩ | ⟨hno, _⟩
  · have hk : k < (c.cacheSet.getD (c.getSetIndex a) default).capacity := by omega
    refine ⟨k, hk, hk3, fun j hj hjh => hs.nodup _ j k hj hk hjh hk3, ?_⟩
    unfold Cache.write_access Cache.access CacheSet.contain Cache.withDirty
    simp only [hk5, if_true]
  · exact absurd hh (hno i (Nat.zero_le i) (by omega))

/-- C17. Write frame: in every reachable state and for every address,
`CacheSystem::write` changes no tag, no valid field, no capacity and no cursor
in either level (the levels with their dirty fields put to 0 are the same
before and after). If the address hits L1, L2 is unchanged and L1 differs only
in the dirty field of the single matching line, which is 1; otherwise, if it
hits L2, L1 is unchanged (so the address still misses L1) and L2 differs only
in the dirty field of the single matching line, which is 1; otherwise the
hierarchy is unchanged. -/
theorem write_frame (s : CacheSystem) (hr : Reachable s) (addr : Nat) :
    (s.write addr).1.L1.undirtied = s.L1.undirtied ∧
    (s.write addr).1.L2.undirtied = s.L2.undirtied ∧
    ((s.L1.read_access addr).2.1 = true →
      (s.write addr).1.L2 = s.L2 ∧
      ∃ k, k < (s.L1.cacheSet.getD (s.L1.getSetIndex addr) default).capacity ∧
        (s.L1.cacheSet.getD (s.L1.getSetIndex addr) default).Hit (s.L1.getTag addr) k ∧
        (∀ j, j < (s.L1.cacheSet.getD (s.L1.getSetIndex addr) default).capacity →
          (s.L1.cacheSet.getD (s.L1.getSetIndex addr) default).Hit (s.L1.getTag addr) j →
          j = k) ∧
        (s.write addr).1.L1 = s.L1.withDirty addr k) ∧
    ((s.L1.read_access addr).2.1 = false → (s.L2.read_access addr).2.1 = true →
      (s.write addr).1.L1 = s.L1 ∧
      ((s.write addr).1.L1.read_access addr).2.1 = false ∧
      ∃ k, k < (s.L2.cacheSet.getD (s.L2.getSetIndex addr) default).capacity ∧
        (s.L2.cacheSet.getD (s.L2.getSetIndex addr) default).Hit (s.L2.getTag addr) k ∧
        (∀ j, j < (s.L2.cacheSet.getD (s.L2.getSetIndex addr) default).capacity →
          (s.L2.cacheSet.getD (s.L2.getSetIndex addr) default).Hit (s.L2.getTag addr) j →
          j = k) ∧
        (s.write addr).1.L2 = s.L2.withDirty addr k) ∧
    ((s.L1.read_access addr).2.1 = false → (s.L2.read_access addr).2.1 = false →
      (s.write addr).1 = s) := by
  have inv := hr.inv
  have e := s.write_eq addr
  by_cases h1 : s.L1.hit addr = true
  · have h1' : (s.L1.read_access addr).2.1 = true := h1
    rw [if_pos h1] at e
    have eL1 : (s.write addr).1.L1 = (s.L1.write_access addr).1 := by rw [e]
    have eL2 : (s.write addr).1.L2 = s.L2 := by rw [e]
    refine ⟨?_, by rw [eL2], ?_, ?_, ?_⟩
    · rw [eL1]; exact s.L1.access_undirtied addr true
    · intro _
      obtain ⟨k, hk, hh, hu, ek⟩ := s.L1.write_access_hit inv.wf1 addr h1
      exact ⟨eL2, k, hk, hh, hu, by rw [eL1, ek]⟩
    · intro hm; rw [h1'] at hm; exact absurd hm (by decide)
    · intro hm; rw [h1'] at hm; exact absurd hm (by decide)
  · have h1' : (s.L1.read_access addr).2.1 = false := by
      rw [← Bool.not_eq_true]; exact h1
    rw [if_neg h1] at e
    by_cases h2 : s.L2.hit addr = true
    · have h2' : (s.L2.read_access addr).2.1 = true := h2
      rw [if_pos h2] at e
      have eL1 : (s.write addr).1.L1 = s.L1 := by rw [e]
      have eL2 : (s.write addr).1.L2 = (s.L2.write_access addr).1 := by rw [e]
      refine ⟨by rw [eL1], ?_, ?_, ?_, ?_⟩
      · rw [eL2]; exact s.L2.access_undirtied addr true
      · intro hm; rw [h1'] at hm; exact absurd hm (by decide)
      · intro _ _
        obtain ⟨k, hk, hh, hu, ek⟩ := s.L2.write_access_hit inv.wf2 addr h2
        exact ⟨eL1, by rw [eL1]; exact h1', k, hk, hh, hu, by rw [eL2, ek]⟩
      · intro _ hm; rw [h2'] at hm; exact absurd hm (by decide)
    · have h2' : (s.L2.read_access addr).2.1 = false := by
        rw [← Bool.not_eq_true]; exact h2
      rw [if_neg h2] at e
      have es : (s.write addr).1 = s := by rw [e]
      refine ⟨by rw [es], by rw [es], ?_, ?_, fun _ _ => es⟩
      · intro hm; rw [h1'] at hm; exact absurd hm (by decide)
      · intro _ hm; rw [h2'] at hm; exact absurd hm (by decide)

theorem write_frame_witness :
    (exampleDemoted.write 0).1.L1.undirtied = exampleDemoted.L1.undirtied ∧
    (exampleDemoted.write 0).1.L2.undirtied = exampleDemoted.L2.undirtied ∧
    ((exampleDemoted.L1.read_access 0).2.1 = true →
      (exampleDemoted.write 0).1.L2 = exampleDemoted.L2 ∧
      ∃ k, k < (exampleDemoted.L1.cacheSet.getD (exampleDemoted.L1.getSetIndex 0)
            default).capacity ∧
        (exampleDemoted.L1.cacheSet.getD (exampleDemoted.L1.getSetIndex 0) default).Hit
          (exampleDemoted.L1.getTag 0) k ∧
        (∀ j, j < (exampleDemoted.L1.cacheSet.getD (exampleDemoted.L1.getSetIndex 0)
            default).capacity →
          (exampleDemoted.L1.cacheSet.getD (exampleDemoted.L1.getSetIndex 0) default).Hit
            (exampleDemoted.L1.getTag 0) j → j = k) ∧
        (exampleDemoted.write 0).1.L1 = exampleDemoted.L1.withDirty 0 k) ∧
    ((exampleDemoted.L1.read_access 0).2.1 = false →
      (exampleDemoted.L2.read_access 0).2.1 = true →
      (exampleDemoted.write 0).1.L1 = exampleDemoted.L1 ∧
      ((exampleDemoted.write 0).1.L1.read_access 0).2.1 = false ∧
      ∃ k, k < (exampleDemoted.L2.cacheSet.getD (exampleDemoted.L2.getSetIndex 0)
            default).capacity ∧
        (exampleDemoted.L2.cacheSet.getD (exampleDemoted.L2.getSetIndex 0) default).Hit
          (exampleDemoted.L2.getTag 0) k ∧
        (∀ j, j < (exampleDemoted.L2.cacheSet.getD (exampleDemoted.L2.getSetIndex 0)
            default).capacity →
          (exampleDemoted.L2.cacheSet.getD (exampleDemoted.L2.getSetIndex 0) default).Hit
            (exampleDemoted.L2.getTag 0) j → j = k) ∧
        (exampleDemoted.write 0).1.L2 = exampleDemoted.L2.withDirty 0 k) ∧
    ((exampleDemoted.L1.read_access 0).2.1 = false →
      (exampleDemoted.L2.read_access 0).2.1 = false →
      (exampleDemoted.write 0).1 = exampleDemoted) :=
  write_frame exampleDemoted reachable_exampleDemoted 0

theorem shiftLeft_mod_low (y o : Nat) (h : o ≤ 32) : ((y <<< o) % 2 ^ 32) % 2 ^ o = 0 := by
  rw [Nat.mod_mod_of_dvd _ (Nat.pow_dvd_pow 2 h), Nat.shiftLeft_eq]
  exact Nat.mul_mod_left _ _

/-- `Cache::evict` returns only when the asserted condition holds: the address
was not a hit. -/
theorem Cache.evict_miss (c : Cache) (a d : Nat) (r : Cache × Nat × Nat)
    (e : c.evict a d = some r) : c.hit a = false := by
  by_cases h : (c.read_access a).2.1 = true
  · unfold Cache.evict at e
    simp only [h, if_true] at e
    exact absurd e (by simp)
  · rw [Bool.not_eq_true] at h
    exact h

/-- Every state a level can be in is well formed: it has `1 << setLen` sets of
`capacity` lines with the cursor below `capacity`, no set holds two valid
lines with the same tag, tags fit `32 - offset - setLen` bits and dirty fields
are 0 or 1. -/
theorem Cache.Built.wf {c : Cache} (h : c.Built) : c.WF := by
  induction h with
  | new o n cap hb hc => exact Cache.empty_wf o n cap hb.le hc
  | write_access c a _ _ ih =>
    by_cases hh : c.hit a = true
    · exact (c.write_access_spec ih a hh).1
    · have e : (c.write_access a).1 = c := by
        apply c.access_miss_fst a true
        rw [c.access_found a true, ← Bool.not_eq_true]
        exact hh
      rw [e]
      exact ih
  | invalid c a _ _ ih => exact (c.invalid_spec ih a).1
  | evict c a d c1 v f _ ha hd e ih =>
    obtain ⟨c2, va, vf, e2, w, _⟩ := c.evict_spec ih a d ha hd (c.evict_miss a d _ e)
    rw [e] at e2
    cases e2
    exact w

/-- The victim address of `Cache::evict` in a level of the constructor's shape
whose stored tags fit and in which no set holds two valid lines with the same
tag. -/
theorem Cache.victim_address_of_nodup (c : Cache) (hb : c.offset + c.setLen ≤ 32)
    (hs : c.Shaped)
    (hfit : ∀ i, i < 2 ^ c.setLen → ∀ j, j < (c.cacheSet.getD i default).capacity →
      ((c.cacheSet.getD i default).lines.getD j default).tag
        < 2 ^ (32 - (c.offset + c.setLen)))
    (hnd : ∀ i, i < 2 ^ c.setLen → ∀ t j k, j < (c.cacheSet.getD i default).capacity →
      k < (c.cacheSet.getD i default).capacity → (c.cacheSet.getD i default).Hit t j →
      (c.cacheSet.getD i default).Hit t k → j = k)
    (addr d : Nat) (hm : (c.read_access addr).2.1 = false) :
    ∃ c1 v vf, c.evict addr d = some (c1, v, vf) ∧
      (vf &&& VALID ≠ 0 →
        v % 2 ^ c.offset = 0 ∧
        c.getSetIndex v = c.getSetIndex addr ∧
        c.getTag v = ((c.cacheSet.getD (c.getSetIndex addr) default).lines.getD
          (c.cacheSet.getD (c.getSetIndex addr) default).idx default).tag ∧
        ((c.cacheSet.getD (c.getSetIndex addr) default).lines.getD
          (c.cacheSet.getD (c.getSetIndex addr) default).idx default).valid ≠ 0 ∧
        (c1.read_access v).2.1 = false ∧
        (c1.read_access addr).2.1 = true) := by
  have hn : c.setLen ≤ 32 := by omega
  have hidx := c.getSetIndex_lt hn addr
  have hfst := c.read_access_fst addr
  have hmiss : ∀ i, i < (c.cacheSet.getD (c.getSetIndex addr) default).capacity →
      ¬ (c.cacheSet.getD (c.getSetIndex addr) default).Hit (c.getTag addr) i := by
    intro i hi hh
    exact (c.hit_false_iff addr).1 hm _ ⟨i, hi, hh, rfl⟩
  have hcap := hs.cap _ hidx
  have hcur := hs.idx_lt _ hidx
  unfold Cache.evict
  simp only [hm, hfst, Bool.false_eq_true, if_false]
  by_cases hv : ((c.cacheSet.getD (c.getSetIndex addr) default).evict (c.getTag addr) d).2.2
      &&& VALID ≠ 0
  · rw [if_pos hv]
    refine ⟨_, _, _, rfl, ?_⟩
    intro _
    rcases (c.cacheSet.getD (c.getSetIndex addr) default).evictLoop_cases
        (c.cacheSet.getD (c.getSetIndex addr) default).capacity 0 with
      ⟨k, _, _, _, _, hk5⟩ | ⟨hall, hnone⟩
    · have e0 : ((c.cacheSet.getD (c.getSetIndex addr) default).evict (c.getTag addr) d).2.2
          = 0 := by
        unfold CacheSet.evict
        rw [hk5]
      rw [e0] at hv
      exact absurd rfl hv
    · have e1 : (c.cacheSet.getD (c.getSetIndex addr) default).evict (c.getTag addr) d =
          (⟨(c.cacheSet.getD (c.getSetIndex addr) default).lines.set
              (c.cacheSet.getD (c.getSetIndex addr) default).idx ⟨c.getTag addr, d, 1⟩,
            (c.cacheSet.getD (c.getSetIndex addr) default).capacity,
            ((c.cacheSet.getD (c.getSetIndex addr) default).idx + 1) %
              (c.cacheSet.getD (c.getSetIndex addr) default).capacity⟩,
          ((c.cacheSet.getD (c.getSetIndex addr) default).lines.getD
            (c.cacheSet.getD (c.getSetIndex addr) default).idx default).tag,
          ((0 ||| VALID) ||| (1 <<< ((c.cacheSet.getD (c.getSetIndex addr) default).lines.getD
            (c.cacheSet.getD (c.getSetIndex addr) default).idx default).dirty)) % 256) := by
        unfold CacheSet.evict
        rw [hnone]
      rw [e1]
      have hvalid := hall _ (Nat.zero_le _) (by omega : (c.cacheSet.getD (c.getSetIndex addr)
        default).idx < 0 + (c.cacheSet.getD (c.getSetIndex addr) default).capacity)
      have hvt := hfit _ hidx _ hcur
      obtain ⟨_, v2, v3⟩ := c.victim_addr hb _ _ hvt hidx
      have hold : (c.cacheSet.getD (c.getSetIndex addr) default).Hit
          ((c.cacheSet.getD (c.getSetIndex addr) default).lines.getD
            (c.cacheSet.getD (c.getSetIndex addr) default).idx default).tag
          (c.cacheSet.getD (c.getSetIndex addr) default).idx := ⟨hvalid, rfl⟩
      refine ⟨shiftLeft_mod_low _ _ (by omega), v2, v3, hvalid, ?_, ?_⟩
      · rw [← Bool.not_eq_true]
        intro hhit
        obtain ⟨e, i, hi, hh, _⟩ := (Cache.hit_iff _ _).1 hhit
        change i < ((c.cacheSet.set _ _).getD (c.getSetIndex _) default).capacity at hi
        change ((c.cacheSet.set _ _).getD (c.getSetIndex _) default).Hit (c.getTag _) i at hh
        rw [v2, getD_set', if_pos ⟨rfl, by rw [hs.len]; exact hidx⟩] at hi hh
        rw [v3] at hh
        unfold CacheSet.Hit at hh
        rw [CacheSet.line_set _ _ _ _ hcap hcur] at hh
        by_cases hik : i = (c.cacheSet.getD (c.getSetIndex addr) default).idx
        · rw [if_pos hik] at hh
          have ht : c.getTag addr = ((c.cacheSet.getD (c.getSetIndex addr) default).lines.getD
              (c.cacheSet.getD (c.getSetIndex addr) default).idx default).tag := hh.2
          exact hmiss _ hcur ⟨hvalid, ht.symm⟩
        · rw [if_neg hik] at hh
          exact hik (hnd _ hidx _ i _ hi hcur hh hold)
      · refine (Cache.hit_iff _ _).2 ⟨d, ?_⟩
        show ((c.cacheSet.set _ _).getD (c.getSetIndex addr) default).Has (c.getTag addr) d
        rw [getD_set', if_pos ⟨rfl, by rw [hs.len]; exact hidx⟩]
        refine ⟨(c.cacheSet.getD (c.getSetIndex addr) default).idx, hcur, ?_, ?_⟩
        · unfold CacheSet.Hit
          rw [CacheSet.line_set _ _ _ _ hcap hcur, if_pos rfl]
          exact ⟨Nat.one_ne_zero, rfl⟩
        · rw [CacheSet.line_set _ _ _ _ hcap hcur, if_pos rfl]
  · rw [if_neg hv]
    exact ⟨_, _, _, rfl, fun h => absurd h hv⟩


/-- C15. Victim address reconstruction: for every state `c` a level can be in
(`Cache.Built`: built by the constructor, then changed by its member
functions) on a geometry on which the shifts of the source are defined
(`offset + setLen < 32`, `setLen ≤ 30`), whose stored tags fit
`32 - offset - setLen` bits, and for every address `addr` that is not a hit:
`Cache::evict(addr, d)` returns, and if it reports a valid victim then the
victim address `v` has its low `offset` bits zero,
`getSetIndex(v) = getSetIndex(addr)`, `getTag(v)` is the tag of the line at the
cursor of that set before the call (the displaced line, which was valid), and
after the call `v` is not a hit while `addr` is. -/
theorem victim_address (c : Cache) (hB : c.Built) (hg : ShiftsDefined c.offset c.setLen)
    (hfit : ∀ i, i < 2 ^ c.setLen → ∀ j, j < (c.cacheSet.getD i default).capacity →
      ((c.cacheSet.getD i default).lines.getD j default).tag
        < 2 ^ (32 - (c.offset + c.setLen)))
    (addr d : Nat) (hm : (c.read_access addr).2.1 = false) :
    ∃ c1 v vf, c.evict addr d = some (c1, v, vf) ∧
      (vf &&& VALID ≠ 0 →
        v % 2 ^ c.offset = 0 ∧
        c.getSetIndex v = c.getSetIndex addr ∧
        c.getTag v = ((c.cacheSet.getD (c.getSetIndex addr) default).lines.getD
          (c.cacheSet.getD (c.getSetIndex addr) default).idx default).tag ∧
        ((c.cacheSet.getD (c.getSetIndex addr) default).lines.getD
          (c.cacheSet.getD (c.getSetIndex addr) default).idx default).valid ≠ 0 ∧
        (c1.read_access v).2.1 = false ∧
        (c1.read_access addr).2.1 = true) := by
  have wf := hB.wf
  exact c.victim_address_of_nodup hg.le
    ⟨wf.len, fun i hi => (wf.sets i hi).cap, fun i hi => (wf.sets i hi).idx_lt⟩ hfit
    (fun i hi t j k hj hk => (wf.sets i hi).nodup t j k hj hk) addr d hm

theorem victim_address_witness :
    ∃ c1 v vf, exampleDemoted.L1.evict 0 0 = some (c1, v, vf) ∧
      (vf &&& VALID ≠ 0 →
        v % 2 ^ exampleDemoted.L1.offset = 0 ∧
        exampleDemoted.L1.getSetIndex v = exampleDemoted.L1.getSetIndex 0 ∧
        exampleDemoted.L1.getTag v =
          ((exampleDemoted.L1.cacheSet.getD (exampleDemoted.L1.getSetIndex 0) default).lines.getD
            (exampleDemoted.L1.cacheSet.getD (exampleDemoted.L1.getSetIndex 0) default).idx
            default).tag ∧
        ((exampleDemoted.L1.cacheSet.getD (exampleDemoted.L1.getSetIndex 0) default).lines.getD
          (exampleDemoted.L1.cacheSet.getD (exampleDemoted.L1.getSetIndex 0) default).idx
          default).valid ≠ 0 ∧
        (c1.read_access v).2.1 = false ∧
        (c1.read_access 0).2.1 = true) :=
  victim_address exampleDemoted.L1
    (Cache.Built.evict (Cache.empty 4 0 1) 16 0 exampleDemoted.L1 0 0
      (Cache.Built.new 4 0 1 (by decide) (by decide)) (by decide) (by decide) (by decide))
    (by decide) (by decide) 0 0 (by decide)

theorem flags_valid_bit (x : Nat) : ((0 ||| VALID) ||| x) % 256 &&& VALID ≠ 0 := by
  have h1 : ((0 ||| VALID) ||| x).testBit 0 = true := by
    rw [Nat.testBit_or]
    simp [VALID]
  have h2 : ((0 ||| VALID) ||| x) % 2 = 1 := by
    rw [Nat.testBit_zero] at h1
    exact of_decide_eq_true h1
  show ((0 ||| VALID) ||| x) % 256 &&& 1 ≠ 0
  rw [Nat.and_one_is_mod, Nat.mod_mod_of_dvd _ (by decide : 2 ∣ 256), h2]
  decide

theorem CacheSet.fifo_new (N : Nat) : (CacheSet.new N).Fifo N [] := by
  refine ⟨rfl, ?_, ?_, ?_, ?_⟩
  · show (List.replicate N _).length = N
    rw [List.length_replicate]
  · show 0 = (0 - N) % N
    rw [Nat.zero_sub, Nat.zero_mod]
  · intro p hp
    exact absurd hp (Nat.not_lt_zero p)
  · intro j _ _
    have hl : (CacheSet.new N).lines.getD j default = ⟨0, 0, 0⟩ := getD_replicate' N j _
    rw [hl]

theorem CacheSet.fifo_contain {N : Nat} {hist : List Nat} {s : CacheSet}
    (h : s.Fifo N hist) (t : Nat) (w : Bool) : (s.contain t w).1.Fifo N hist := by
  unfold CacheSet.contain
  rcases s.containLoop_cases t w s.capacity 0 with ⟨k, _, _, _, _, hk5⟩ | ⟨_, heq⟩
  · rw [hk5]
    cases w with
    | false => exact h
    | true =>
      rw [if_pos rfl]
      have hline : ∀ j, ((CacheSet.mk (s.lines.set k
            { s.lines.getD k default with dirty := 1 }) s.capacity s.idx).lines.getD j
              default).valid = (s.lines.getD j default).valid ∧
          ((CacheSet.mk (s.lines.set k
            { s.lines.getD k default with dirty := 1 }) s.capacity s.idx).lines.getD j
              default).tag = (s.lines.getD j default).tag := by
        intro j
        show ((s.lines.set k _).getD j default).valid = _ ∧ ((s.lines.set k _).getD j default).tag = _
        rw [getD_set']
        by_cases hc : k = j ∧ j < s.lines.length
        · rw [if_pos hc, ← hc.1]
          exact ⟨rfl, rfl⟩
        · rw [if_neg hc]
          exact ⟨rfl, rfl⟩
      refine ⟨h.cap, ?_, h.cur, ?_, ?_⟩
      · show (s.lines.set k _).length = N
        rw [List.length_set]; exact h.len
      · intro p hp hq
        rw [(hline _).1, (hline _).2]
        exact h.held p hp hq
      · intro j hj hjn
        rw [(hline _).1]
        exact h.free j hj hjn
  · rw [heq]
    exact h

theorem CacheSet.fifo_evict {N : Nat} {hist : List Nat} {s : CacheSet}
    (h : s.Fifo N hist) (hN : 0 < N) (t d : Nat) :
    (s.evict t d).1.Fifo N (hist ++ [t]) ∧
    (hist.length < N → (s.evict t d).2 = (0, 0)) ∧
    (N ≤ hist.length → (s.evict t d).2.1 = hist.getD (hist.length - N) 0 ∧
      (s.evict t d).2.2 &&& VALID ≠ 0) := by
  have hc : s.capacity = s.lines.length := by rw [h.cap, h.len]
  have hlen : (hist ++ [t]).length = hist.length + 1 := by simp
  by_cases hm : hist.length < N
  · -- a free line: the first invalid line is line `hist.length`
    have hvalid : ∀ j, j < hist.length → (s.lines.getD j default).valid ≠ 0 := by
      intro j hj
      have := (h.held j hj (by omega)).1
      rwa [Nat.mod_eq_of_lt (by omega)] at this
    have hfree := h.free hist.length (le_refl _) hm
    have e : s.evict t d = (⟨s.lines.set hist.length ⟨t, d, 1⟩, s.capacity, s.idx⟩, 0, 0) := by
      rcases s.evictLoop_cases s.capacity 0 with ⟨k, _, hk2, hk3, hk4, hk5⟩ | ⟨hall, _⟩
      · have hk : k = hist.length := by
          rcases Nat.lt_trichotomy k hist.length with h1 | h1 | h1
          · exact absurd hk3 (hvalid k h1)
          · exact h1
          · exact absurd hfree (hk4 _ (Nat.zero_le _) h1)
        subst hk
        unfold CacheSet.evict
        rw [hk5]
      · exact absurd hfree (hall _ (Nat.zero_le _) (by rw [h.cap]; omega))
    rw [e]
    have hk : hist.length < s.capacity := by rw [h.cap]; exact hm
    refine ⟨⟨h.cap, ?_, ?_, ?_, ?_⟩, fun _ => rfl, fun h2 => absurd hm (by omega)⟩
    · show (s.lines.set _ _).length = N
      rw [List.length_set]; exact h.len
    · show s.idx = ((hist ++ [t]).length - N) % N
      rw [h.cur, hlen]
      have e1 : hist.length - N = 0 := by omega
      have e2 : hist.length + 1 - N = 0 := by omega
      rw [e1, e2]
    · intro p hp hq
      rw [hlen] at hp hq
      have hpN : p % N = p := Nat.mod_eq_of_lt (by omega)
      rw [hpN, s.line_set _ _ _ hc hk]
      by_cases hpe : p = hist.length
      · rw [if_pos hpe, hpe, List.getD_append_right _ _ _ _ (le_refl _), Nat.sub_self]
        exact ⟨Nat.one_ne_zero, rfl⟩
      · rw [if_neg hpe, List.getD_append _ _ _ _ (by omega)]
        have := h.held p (by omega) (by omega)
        rwa [hpN] at this
    · intro j hj hjn
      rw [hlen] at hj
      rw [s.line_set _ _ _ hc hk, if_neg (by omega)]
      exact h.free j (by omega) hjn
  · -- the set is full: the line at the cursor holds the tag installed `N` installs ago
    have hge : N ≤ hist.length := Nat.le_of_not_lt hm
    have hrange : ∀ j, j < N → ∃ p, p < hist.length ∧ hist.length ≤ p + N ∧ p % N = j := by
      intro j hj
      by_cases hcmp : (hist.length - N) % N ≤ j
      · refine ⟨hist.length - N + (j - (hist.length - N) % N), ?_, ?_, ?_⟩
        · have := Nat.mod_lt (hist.length - N) hN
          omega
        · omega
        · have e1 := Nat.div_add_mod (hist.length - N) N
          have : hist.length - N + (j - (hist.length - N) % N)
              = j + N * ((hist.length - N) / N) := by omega
          rw [this, Nat.add_mul_mod_self_left, Nat.mod_eq_of_lt hj]
      · refine ⟨hist.length - N + (N + j - (hist.length - N) % N), ?_, ?_, ?_⟩
        · omega
        · omega
        · have e1 := Nat.div_add_mod (hist.length - N) N
          have : hist.length - N + (N + j - (hist.length - N) % N)
              = j + N * ((hist.length - N) / N + 1) := by
            rw [Nat.mul_add, Nat.mul_one]
            have := Nat.mod_lt (hist.length - N) hN
            omega
          rw [this, Nat.add_mul_mod_self_left, Nat.mod_eq_of_lt hj]
    have hall : ∀ j, j < N → (s.lines.getD j default).valid ≠ 0 := by
      intro j hj
      obtain ⟨p, hp, hq, e⟩ := hrange j hj
      rw [← e]
      exact (h.held p hp hq).1
    have hcur : s.idx < s.capacity := by
      rw [h.cur, h.cap]; exact Nat.mod_lt _ hN
    have e : s.evict t d =
        (⟨s.lines.set s.idx ⟨t, d, 1⟩, s.capacity, (s.idx + 1) % s.capacity⟩,
          (s.lines.getD s.idx default).tag,
          ((0 ||| VALID) ||| (1 <<< (s.lines.getD s.idx default).dirty)) % 256) := by
      rcases s.evictLoop_cases s.capacity 0 with ⟨k, _, hk2, hk3, _, _⟩ | ⟨_, hnone⟩
      · exact absurd hk3 (hall k (by rw [← h.cap]; omega))
      · unfold CacheSet.evict
        rw [hnone]
    have hold := h.held (hist.length - N) (by omega) (by omega)
    rw [← h.cur] at hold
    rw [e]
    refine ⟨⟨h.cap, ?_, ?_, ?_, ?_⟩, fun h2 => absurd h2 hm, fun _ => ⟨hold.2, flags_valid_bit _⟩⟩
    · show (s.lines.set _ _).length = N
      rw [List.length_set]; exact h.len
    · show (s.idx + 1) % s.capacity = ((hist ++ [t]).length - N) % N
      rw [h.cur, h.cap, hlen]
      have : hist.length + 1 - N = hist.length - N + 1 := by omega
      rw [this, Nat.add_mod (hist.length - N) 1 N, Nat.add_mod ((hist.length - N) % N) 1 N,
        Nat.mod_mod]
    · intro p hp hq
      rw [hlen] at hp hq
      rw [s.line_set _ _ _ hc hcur]
      by_cases hpe : p = hist.length
      · have hi : p % N = s.idx := by
          rw [hpe, h.cur]; exact Nat.mod_eq_sub_mod hge
        rw [if_pos hi, hpe, List.getD_append_right _ _ _ _ (le_refl _), Nat.sub_self]
        exact ⟨Nat.one_ne_zero, rfl⟩
      · have hi : p % N ≠ s.idx := by
          rw [h.cur]
          intro heq
          have h0 := Nat.sub_mod_eq_zero_of_mod_eq heq
          have hlt : p - (hist.length - N) < N := by omega
          rw [Nat.mod_eq_of_lt hlt] at h0
          omega
        rw [if_neg hi, List.getD_append _ _ _ _ (by omega)]
        exact h.held p (by omega) (by omega)
    · intro j hj hjn
      rw [hlen] at hj
      omega

theorem CacheSet.calls_fifo {N : Nat} (hN : 0 < N) (cs : List SetCall) (s : CacheSet)
    (hist : List Nat) (h : s.Fifo N hist) :
    (s.calls cs).2.length = (installedTags cs).length ∧
    ∀ k, k < (installedTags cs).length →
      (hist.length + k < N → (s.calls cs).2.getD k (0, 0) = (0, 0)) ∧
      (N ≤ hist.length + k →
        ((s.calls cs).2.getD k (0, 0)).1
          = (hist ++ installedTags cs).getD (hist.length + k - N) 0 ∧
        ((s.calls cs).2.getD k (0, 0)).2 &&& VALID ≠ 0) := by
  induction cs generalizing s hist with
  | nil =>
    exact ⟨rfl, fun k hk => absurd hk (Nat.not_lt_zero k)⟩
  | cons c rest ih =>
    cases c with
    | evict t d =>
      obtain ⟨f1, f2, f3⟩ := CacheSet.fifo_evict h hN t d
      obtain ⟨i1, i2⟩ := ih (s.evict t d).1 (hist ++ [t]) f1
      have hl : (hist ++ [t]).length = hist.length + 1 := by simp
      refine ⟨?_, ?_⟩
      · show ((s.evict t d).2 :: (CacheSet.calls (s.evict t d).1 rest).2).length
          = (t :: installedTags rest).length
        rw [List.length_cons, List.length_cons, i1]
      · intro k hk
        show (_ → ((s.evict t d).2 :: (CacheSet.calls (s.evict t d).1 rest).2).getD k (0, 0) = _) ∧
          (_ → (((s.evict t d).2 :: (CacheSet.calls (s.evict t d).1 rest).2).getD k (0, 0)).1
              = (hist ++ t :: installedTags rest).getD (hist.length + k - N) 0 ∧
            (((s.evict t d).2 :: (CacheSet.calls (s.evict t d).1 rest).2).getD k (0, 0)).2
              &&& VALID ≠ 0)
        cases k with
        | zero =>
          rw [List.getD_cons_zero, Nat.add_zero]
          refine ⟨f2, fun hge => ?_⟩
          obtain ⟨g1, g2⟩ := f3 hge
          refine ⟨?_, g2⟩
          rw [g1, List.getD_append _ _ _ _ (by omega)]
        | succ k =>
          rw [List.getD_cons_succ]
          have hk' : k < (installedTags rest).length := by
            have : k + 1 < (installedTags rest).length + 1 := hk
            omega
          obtain ⟨j1, j2⟩ := i2 k hk'
          rw [hl] at j1 j2
          have ea : hist ++ [t] ++ installedTags rest = hist ++ t :: installedTags rest := by
            simp
          rw [ea] at j2
          have e1 : hist.length + (k + 1) = hist.length + 1 + k := by omega
          rw [e1]
          exact ⟨j1, j2⟩
    | contain t w =>
      exact ih (s.contain t w).1 hist (CacheSet.fifo_contain h t w)

/-- C11. FIFO replacement order: for every capacity `N ≥ 1` and every list of
calls `CacheSet::evict` (any tags and dirty bits) and `CacheSet::contain` (any
tags, read or write) made on the empty set of `N` lines, the install number
`k + 1` returns tag 0 with flags 0 (no victim) when `k < N`, and otherwise
returns the tag of install number `k + 1 - N` with the VALID flag: tags are
replaced in the order in which they were installed, whatever was accessed. -/
theorem fifo_replacement (N : Nat) (hN : 1 ≤ N) (cs : List SetCall) :
    ((CacheSet.new N).calls cs).2.length = (installedTags cs).length ∧
    ∀ k, k < (installedTags cs).length →
      (k < N → ((CacheSet.new N).calls cs).2.getD k (0, 0) = (0, 0)) ∧
      (N ≤ k →
        (((CacheSet.new N).calls cs).2.getD k (0, 0)).1 = (installedTags cs).getD (k - N) 0 ∧
        (((CacheSet.new N).calls cs).2.getD k (0, 0)).2 &&& VALID ≠ 0) := by
  obtain ⟨h1, h2⟩ := CacheSet.calls_fifo hN cs (CacheSet.new N) [] (CacheSet.fifo_new N)
  refine ⟨h1, fun k hk => ?_⟩
  obtain ⟨g1, g2⟩ := h2 k hk
  simp only [List.length_nil, Nat.zero_add, List.nil_append] at g1 g2
  exact ⟨g1, g2⟩

theorem fifo_replacement_witness :
    installedTags exampleCalls = [5, 6, 7, 8] ∧
    ((CacheSet.new 2).calls exampleCalls).2 = [(0, 0), (0, 0), (5, 3), (6, 1)] ∧
    ((CacheSet.new 2).calls exampleCalls).2.length = (installedTags exampleCalls).length ∧
    ∀ k, k < (installedTags exampleCalls).length →
      (k < 2 → ((CacheSet.new 2).calls exampleCalls).2.getD k (0, 0) = (0, 0)) ∧
      (2 ≤ k →
        (((CacheSet.new 2).calls exampleCalls).2.getD k (0, 0)).1
          = (installedTags exampleCalls).getD (k - 2) 0 ∧
        (((CacheSet.new 2).calls exampleCalls).2.getD k (0, 0)).2 &&& VALID ≠ 0) :=
  ⟨by decide, by decide, fifo_replacement 2 (by decide) exampleCalls⟩

/-- The constructor for a set-associative level whose three parameters are powers
of two (`log2` exact on them), when the cache holds at least one set and the
number of sets fits an `int`: `2 ^ (10 + s - a - b)` sets of `2 ^ a` lines, which
is `(S * 1024) / (B * A)` sets. -/
theorem Cache.new_geometry (lg : Nat → ℚ) (hlg : ∀ k : Nat, lg (2 ^ k) = (k : ℚ)) (b a s : Nat)
    (hb : b < 32) (h : a + b ≤ 10 + s) (hn : 10 + s - a - b ≤ 30) :
    Cache.new lg (2 ^ b) (2 ^ a) (2 ^ s) = Cache.empty b (10 + s - a - b) (2 ^ a) ∧
    2 ^ (10 + s - a - b) = 2 ^ s * 1024 / (2 ^ b * 2 ^ a) := by
  have hA : (2 : Nat) ^ a ≠ 0 := Nat.pos_iff_ne_zero.1 (Nat.two_pow_pos a)
  have e1 : ⌊lg (2 ^ b)⌋.toNat % 2 ^ 32 = b := by
    rw [hlg, Int.floor_natCast, Int.toNat_natCast]
    exact Nat.mod_eq_of_lt (by omega)
  have e2 : (10 + lg (2 ^ s)) - lg (2 ^ a) - ((b : Nat) : ℚ) = ((10 + s - a - b : Nat) : ℚ) := by
    rw [hlg, hlg]
    have h1 : a ≤ 10 + s := by omega
    have h2 : b ≤ 10 + s - a := by omega
    rw [Nat.cast_sub h2, Nat.cast_sub h1]
    push_cast
    ring
  have e3 : ⌊(10 + lg (2 ^ s)) - lg (2 ^ a) - ((b : Nat) : ℚ)⌋.toNat % 2 ^ 32
      = 10 + s - a - b := by
    rw [e2, Int.floor_natCast, Int.toNat_natCast]
    exact Nat.mod_eq_of_lt (by omega)
  refine ⟨?_, ?_⟩
  · unfold Cache.new Cache.empty
    rw [if_pos hA, e1, e3]
  · have e4 : 2 ^ s * 1024 = 2 ^ (10 + s - a - b) * (2 ^ b * 2 ^ a) := by
      rw [← Nat.pow_add, ← Nat.pow_add, show (1024 : Nat) = 2 ^ 10 from rfl, ← Nat.pow_add]
      congr 1
      omega
    rw [e4, Nat.mul_div_cancel _ (Nat.mul_pos (Nat.two_pow_pos b) (Nat.two_pow_pos a))]

/-- The constructor for a fully associative level (`setSize = 0`) whose block
size is a power of two, when `1024 * cacheSize` fits 32 bits: one set of
`cacheSize * 1024 / blockSize` lines, `setLen = 0`, and every address selects
set 0. -/
theorem Cache.new_full (lg : Nat → ℚ) (hlg : ∀ k : Nat, lg (2 ^ k) = (k : ℚ)) (b S : Nat)
    (hb : b < 32) (hS : S * 1024 < 2 ^ 32) :
    Cache.new lg (2 ^ b) 0 S = Cache.empty b 0 (S * 1024 / 2 ^ b) ∧
    (Cache.new lg (2 ^ b) 0 S).cacheSet.length = 1 ∧
    ∀ addr, (Cache.new lg (2 ^ b) 0 S).getSetIndex addr = 0 := by
  have e1 : ⌊lg (2 ^ b)⌋.toNat % 2 ^ 32 = b := by
    rw [hlg, Int.floor_natCast, Int.toNat_natCast]
    exact Nat.mod_eq_of_lt (by omega)
  have e2 : (1024 * S) % 2 ^ 32 = S * 1024 := by
    rw [Nat.mul_comm]; exact Nat.mod_eq_of_lt hS
  have e : Cache.new lg (2 ^ b) 0 S = Cache.empty b 0 (S * 1024 / 2 ^ b) := by
    unfold Cache.new Cache.empty
    rw [if_neg (fun h => h rfl), e1, e2]
  refine ⟨e, by rw [e]; rfl, ?_⟩
  intro addr
  rw [e]
  have := (Cache.empty b 0 (S * 1024 / 2 ^ b)).getSetIndex_lt (Nat.zero_le 32) addr
  have h1 : (Cache.empty b 0 (S * 1024 / 2 ^ b)).getSetIndex addr < 1 := this
  omega

/-- C16, the failing input. For block size 16, `setSize = 0` (fully associative)
and cache size `4194304 = 2 ^ 22` KB, `1024 * cacheSize` wraps to 0 in 32-bit
arithmetic and the constructor builds its one set with capacity 0 and no
line, while `S * 1024 / B` is `268435456`. -/
theorem constructor_capacity_overflow (lg : Nat → ℚ) :
    (Cache.new lg 16 0 4194304).cacheSet = [CacheSet.new 0] ∧
    (CacheSet.new 0).capacity = 0 ∧ (CacheSet.new 0).lines = [] ∧
    (1024 * 4194304) % 2 ^ 32 = 0 ∧
    4194304 * 1024 / 16 = 268435456 ∧ 4194304 = 2 ^ 22 :=
  ⟨rfl, rfl, rfl, by decide, by decide, by decide⟩

/-- `Nat.log2` is exact on powers of two, so the hypothesis on `log2` of the two
theorems above can be met. -/
theorem natLog2_exact (k : Nat) : ((Nat.log2 (2 ^ k) : Nat) : ℚ) = (k : ℚ) := by
  rw [Nat.log2_two_pow]

/-- The sibling path of the failing input of C16: the same cache (16-byte blocks,
`2 ^ 22` KB) given with its associativity `2 ^ 28` instead of the sentinel 0 is
built with one set of `2 ^ 28` lines. -/
theorem constructor_explicit_ways (lg : Nat → ℚ) (hlg : ∀ k : Nat, lg (2 ^ k) = (k : ℚ)) :
    Cache.new lg 16 (2 ^ 28) 4194304 = Cache.empty 4 0 (2 ^ 28) :=
  (Cache.new_geometry lg hlg 4 28 22 (by decide) (by decide) (by decide)).1

/-! ## Promotion from L2 when L2 has no more index bits than L1 -/

end CacheSim
